import Mathlib

/-!
Alpha-beta tic-tac-toe engine (`Alpha.cpp`): shallow embedding and verification.

The board is the 3x3 `vector<vector<char>>` of the program, modelled as a total
function from row and column index to the character stored there.  Functions
that mutate the board in place (`placeMark`, `minimax`, `aiMove`) are embedded
in state-passing style: they return the board they leave behind next to their
C++ return value.  `int` values are modelled by `Int`, so the arithmetic of the
embedding is exact.  It agrees with the 32-bit arithmetic of the program as
long as no operation overflows; a statement that gives the value of `10 - depth`
or `depth - 10` therefore carries the range of `depth` in which that value is
representable, and shows that it lies between `INT_MIN` and `INT_MAX`.

The recursion of `minimax` is embedded with an explicit recursion budget
(`minimaxFuel`); `none` means the budget ran out.  `minimax` instantiates the
budget with 10, one more than the number of cells.  `aiMoveFuel` passes a budget
to every call of `minimax` that `aiMove` makes, and `aiMove` instantiates it with
10 as well; a budget of 0, with which every call of `minimax` fails, shows
whether a branch calls `minimax` at all.
-/

namespace AlphaBeta

/-! ## Constants -/

def BOARD_SIZE : Nat := 3
def EMPTY : Char := '-'
def PLAYER_X : Char := 'X'
def PLAYER_O : Char := 'O'

/-- The value of `numeric_limits<int>::min()`. -/
def INT_MIN : Int := -2147483648

/-- The value of `numeric_limits<int>::max()`. -/
def INT_MAX : Int := 2147483647

/-! ## Board -/

/-- A 3x3 grid of characters: `board i j` is `board[i][j]`. -/
abbrev Board := Fin 3 → Fin 3 → Char

/-- The assignment `board[i][j] = v`. -/
def setCell (board : Board) (i j : Fin 3) (v : Char) : Board :=
  fun r c => if r = i ∧ c = j then v else board r c

/-- The board built by `playGame`: every cell is `EMPTY`. -/
def emptyBoard : Board := fun _ _ => EMPTY

/-- The board whose three rows are the given characters. -/
def mkBoard (a0 a1 a2 b0 b1 b2 c0 c1 c2 : Char) : Board :=
  fun i j =>
    if i = 0 then (if j = 0 then a0 else if j = 1 then a1 else a2)
    else if i = 1 then (if j = 0 then b0 else if j = 1 then b1 else b2)
    else (if j = 0 then c0 else if j = 1 then c1 else c2)

/-- Contribution of one cell to the number of empty cells. -/
def emptyCount (c : Char) : Nat := if c = EMPTY then 1 else 0

/-- Number of cells of the board that hold `EMPTY`. -/
def countEmpty (board : Board) : Nat :=
  emptyCount (board 0 0) + emptyCount (board 0 1) + emptyCount (board 0 2) +
  emptyCount (board 1 0) + emptyCount (board 1 1) + emptyCount (board 1 2) +
  emptyCount (board 2 0) + emptyCount (board 2 1) + emptyCount (board 2 2)

/-- The nine cells in row-major order, the order of the nested `for` loops. -/
def allCells : List (Fin 3 × Fin 3) :=
  [(0, 0), (0, 1), (0, 2), (1, 0), (1, 1), (1, 2), (2, 0), (2, 1), (2, 2)]

/-- The empty cells of the board in row-major order. -/
def emptyCells (board : Board) : List (Fin 3 × Fin 3) :=
  allCells.filter (fun c => board c.1 c.2 = EMPTY)

/-- Row-major order on cells: `rowMajorLe c d` when `c` is visited no later than `d`. -/
def rowMajorLe (c d : Fin 3 × Fin 3) : Prop :=
  c.1 < d.1 ∨ (c.1 = d.1 ∧ c.2 ≤ d.2)

/-! ## checkWin -/

/-- The `for` loop of `checkWin`: row `i` and column `i` for each remaining `i`. -/
def checkWinLoop (board : Board) (player : Char) : List (Fin 3) → Bool
  | [] => false
  | i :: is =>
    if board i 0 = player ∧ board i 1 = player ∧ board i 2 = player then true
    else if board 0 i = player ∧ board 1 i = player ∧ board 2 i = player then true
    else checkWinLoop board player is

def checkWin (board : Board) (player : Char) : Bool :=
  if checkWinLoop board player [0, 1, 2] then true
  else if (board 0 0 = player ∧ board 1 1 = player ∧ board 2 2 = player) ∨
      (board 0 2 = player ∧ board 1 1 = player ∧ board 2 0 = player) then true
  else false

/-! ## isBoardFull -/

/-- The inner `for` loop of `isBoardFull` on row `i`: `false` is the early return. -/
def isBoardFullRow (board : Board) (i : Fin 3) : List (Fin 3) → Bool
  | [] => true
  | j :: js => if board i j = EMPTY then false else isBoardFullRow board i js

/-- The outer `for` loop of `isBoardFull`. -/
def isBoardFullLoop (board : Board) : List (Fin 3) → Bool
  | [] => true
  | i :: is => if isBoardFullRow board i [0, 1, 2] then isBoardFullLoop board is else false

def isBoardFull (board : Board) : Bool := isBoardFullLoop board [0, 1, 2]

/-! ## placeMark -/

/-- Returns the `bool` result together with the board after the call. -/
def placeMark (board : Board) (row col : Fin 3) (player : Char) : Bool × Board :=
  if board row col = EMPTY then (true, setCell board row col player)
  else (false, board)

/-! ## minimax -/

/-- Inner `for (j ...)` loop of the maximizing branch on row `i`.  The state is
the board, `maxEval` and `alpha`; `call` is the recursive call
`minimax(board, depth + 1, false, alpha, beta, difficulty)`.  The `break`
leaves this loop only. -/
def maxInner (call : Board → Int → Int → Option (Int × Board)) (i : Fin 3) :
    List (Fin 3) → Board → Int → Int → Int → Option (Board × Int × Int)
  | [], board, maxEval, alpha, _ => some (board, maxEval, alpha)
  | j :: js, board, maxEval, alpha, beta =>
    if board i j = EMPTY then
      match call (setCell board i j PLAYER_O) alpha beta with
      | none => none
      | some (eval, board1) =>
        if beta ≤ max alpha eval then
          some (setCell board1 i j EMPTY, max maxEval eval, max alpha eval)
        else
          maxInner call i js (setCell board1 i j EMPTY) (max maxEval eval) (max alpha eval) beta
    else maxInner call i js board maxEval alpha beta

/-- Outer `for (i ...)` loop of the maximizing branch. -/
def maxOuter (call : Board → Int → Int → Option (Int × Board)) :
    List (Fin 3) → Board → Int → Int → Int → Option (Board × Int × Int)
  | [], board, maxEval, alpha, _ => some (board, maxEval, alpha)
  | i :: is, board, maxEval, alpha, beta =>
    match maxInner call i [0, 1, 2] board maxEval alpha beta with
    | none => none
    | some (board1, maxEval1, alpha1) => maxOuter call is board1 maxEval1 alpha1 beta

/-- Inner `for (j ...)` loop of the minimizing branch on row `i`.  The state is
the board, `minEval` and `beta`. -/
def minInner (call : Board → Int → Int → Option (Int × Board)) (i : Fin 3) :
    List (Fin 3) → Board → Int → Int → Int → Option (Board × Int × Int)
  | [], board, minEval, _, beta => some (board, minEval, beta)
  | j :: js, board, minEval, alpha, beta =>
    if board i j = EMPTY then
      match call (setCell board i j PLAYER_X) alpha beta with
      | none => none
      | some (eval, board1) =>
        if min beta eval ≤ alpha then
          some (setCell board1 i j EMPTY, min minEval eval, min beta eval)
        else
          minInner call i js (setCell board1 i j EMPTY) (min minEval eval) alpha (min beta eval)
    else minInner call i js board minEval alpha beta

/-- Outer `for (i ...)` loop of the minimizing branch. -/
def minOuter (call : Board → Int → Int → Option (Int × Board)) :
    List (Fin 3) → Board → Int → Int → Int → Option (Board × Int × Int)
  | [], board, minEval, _, beta => some (board, minEval, beta)
  | i :: is, board, minEval, alpha, beta =>
    match minInner call i [0, 1, 2] board minEval alpha beta with
    | none => none
    | some (board1, minEval1, beta1) => minOuter call is board1 minEval1 alpha beta1

/-- The function `minimax` with a budget on the nesting of recursive calls.
Returns the `int` result and the board as the call leaves it. -/
def minimaxFuel : Nat → Board → Int → Bool → Int → Int → Int → Option (Int × Board)
  | 0, _, _, _, _, _, _ => none
  | fuel + 1, board, depth, isMaximizing, alpha, beta, difficulty =>
    if checkWin board PLAYER_O then some (10 - depth, board)
    else if checkWin board PLAYER_X then some (depth - 10, board)
    else if isBoardFull board then some (0, board)
    else if difficulty = 1 ∧ depth ≥ 1 then some (0, board)
    else if difficulty = 2 ∧ depth ≥ 2 then some (0, board)
    else if isMaximizing then
      match maxOuter (fun b a be => minimaxFuel fuel b (depth + 1) false a be difficulty)
          [0, 1, 2] board INT_MIN alpha beta with
      | none => none
      | some (board1, maxEval, _) => some (maxEval, board1)
    else
      match minOuter (fun b a be => minimaxFuel fuel b (depth + 1) true a be difficulty)
          [0, 1, 2] board INT_MAX alpha beta with
      | none => none
      | some (board1, minEval, _) => some (minEval, board1)

def minimax (board : Board) (depth : Int) (isMaximizing : Bool) (alpha beta difficulty : Int) :
    Option (Int × Board) :=
  minimaxFuel 10 board depth isMaximizing alpha beta difficulty

/-! ## aiMove -/

/-- Inner loop of the Easy branch on row `i`: `push_back` of every empty position. -/
def collectRow (board : Board) (i : Fin 3) :
    List (Fin 3) → List (Fin 3 × Fin 3) → List (Fin 3 × Fin 3)
  | [], emptyPositions => emptyPositions
  | j :: js, emptyPositions =>
    if board i j = EMPTY then collectRow board i js (emptyPositions ++ [(i, j)])
    else collectRow board i js emptyPositions

/-- Outer loop of the Easy branch. -/
def collectLoop (board : Board) :
    List (Fin 3) → List (Fin 3 × Fin 3) → List (Fin 3 × Fin 3)
  | [], emptyPositions => emptyPositions
  | i :: is, emptyPositions => collectLoop board is (collectRow board i [0, 1, 2] emptyPositions)

/-- Inner `for (j ...)` loop of the Medium/Hard branch of `aiMove` on row `i`.
The state is the board, `bestScore`, `bestRow` and `bestCol`; `fuel` is the
budget of nested calls given to each call of `minimax`. -/
def aiInnerFuel (fuel : Nat) (difficulty : Int) (i : Fin 3) :
    List (Fin 3) → Board → Int → Int → Int → Option (Board × Int × Int × Int)
  | [], board, bestScore, bestRow, bestCol => some (board, bestScore, bestRow, bestCol)
  | j :: js, board, bestScore, bestRow, bestCol =>
    if board i j = EMPTY then
      match minimaxFuel fuel (setCell board i j PLAYER_O) 0 false INT_MIN INT_MAX difficulty with
      | none => none
      | some (moveScore, board1) =>
        if moveScore > bestScore then
          aiInnerFuel fuel difficulty i js (setCell board1 i j EMPTY) moveScore
            (i.val : Int) (j.val : Int)
        else
          aiInnerFuel fuel difficulty i js (setCell board1 i j EMPTY) bestScore bestRow bestCol
    else aiInnerFuel fuel difficulty i js board bestScore bestRow bestCol

/-- Outer `for (i ...)` loop of the Medium/Hard branch of `aiMove`. -/
def aiOuterFuel (fuel : Nat) (difficulty : Int) :
    List (Fin 3) → Board → Int → Int → Int → Option (Board × Int × Int × Int)
  | [], board, bestScore, bestRow, bestCol => some (board, bestScore, bestRow, bestCol)
  | i :: is, board, bestScore, bestRow, bestCol =>
    match aiInnerFuel fuel difficulty i [0, 1, 2] board bestScore bestRow bestCol with
    | none => none
    | some (board1, bestScore1, bestRow1, bestCol1) =>
      aiOuterFuel fuel difficulty is board1 bestScore1 bestRow1 bestCol1

/-- The inner loop with the budget of `minimax`. -/
def aiInner (difficulty : Int) (i : Fin 3) (js : List (Fin 3)) (board : Board)
    (bestScore bestRow bestCol : Int) : Option (Board × Int × Int × Int) :=
  aiInnerFuel 10 difficulty i js board bestScore bestRow bestCol

/-- The outer loop with the budget of `minimax`. -/
def aiOuter (difficulty : Int) (is : List (Fin 3)) (board : Board)
    (bestScore bestRow bestCol : Int) : Option (Board × Int × Int × Int) :=
  aiOuterFuel 10 difficulty is board bestScore bestRow bestCol

/-- An `int` used as an index of the board: defined only inside `0..2`. -/
def toIndex (x : Int) : Option (Fin 3) :=
  if h : 0 ≤ x ∧ x < 3 then some ⟨x.toNat, by omega⟩ else none

/-- The function `aiMove` with a budget `fuel` of nested calls for every call of
`minimax` it makes; `r` is the value returned by `rand()`.  The result is the
board after the call, `none` when a call of `minimax` runs out of budget or the
final write is out of range. -/
def aiMoveFuel (fuel : Nat) (r : Nat) (board : Board) (difficulty : Int) : Option Board :=
  if difficulty = 1 then
    let emptyPositions := collectLoop board [0, 1, 2] []
    if emptyPositions.isEmpty then some board
    else
      match emptyPositions.get? (r % emptyPositions.length) with
      | none => none
      | some move => some (setCell board move.1 move.2 PLAYER_O)
  else
    match aiOuterFuel fuel difficulty [0, 1, 2] board INT_MIN (-1) (-1) with
    | none => none
    | some (board1, _, bestRow, bestCol) =>
      match toIndex bestRow, toIndex bestCol with
      | some i, some j => some (setCell board1 i j PLAYER_O)
      | _, _ => none

/-- The function `aiMove`: every call of `minimax` has the budget 10. -/
def aiMove (r : Nat) (board : Board) (difficulty : Int) : Option Board :=
  aiMoveFuel 10 r board difficulty

/-- The score `aiMove` computes for the candidate cell `c`. -/
def moveScore (board : Board) (difficulty : Int) (c : Fin 3 × Fin 3) : Option Int :=
  (minimax (setCell board c.1 c.2 PLAYER_O) 0 false INT_MIN INT_MAX difficulty).map Prod.fst

/-! ## Reference search without pruning -/

/-- Running maximum of `f` over the given cells, starting from `acc`. -/
def maxOver (f : Fin 3 × Fin 3 → Option Int) : List (Fin 3 × Fin 3) → Int → Option Int
  | [], acc => some acc
  | c :: cs, acc =>
    match f c with
    | none => none
    | some e => maxOver f cs (max acc e)

/-- Running minimum of `f` over the given cells, starting from `acc`. -/
def minOver (f : Fin 3 × Fin 3 → Option Int) : List (Fin 3 × Fin 3) → Int → Option Int
  | [], acc => some acc
  | c :: cs, acc =>
    match f c with
    | none => none
    | some e => minOver f cs (min acc e)

/-- Plain minimax: the terminal checks, scores and difficulty cap of `minimax`,
no `alpha`, no `beta`, and every empty cell tried at every node.  It does not
mutate a board, so it returns the value only. -/
def plainFuel : Nat → Board → Int → Bool → Int → Option Int
  | 0, _, _, _, _ => none
  | fuel + 1, board, depth, isMaximizing, difficulty =>
    if checkWin board PLAYER_O then some (10 - depth)
    else if checkWin board PLAYER_X then some (depth - 10)
    else if isBoardFull board then some 0
    else if difficulty = 1 ∧ depth ≥ 1 then some 0
    else if difficulty = 2 ∧ depth ≥ 2 then some 0
    else if isMaximizing then
      maxOver (fun c => plainFuel fuel (setCell board c.1 c.2 PLAYER_O) (depth + 1) false
        difficulty) (emptyCells board) INT_MIN
    else
      minOver (fun c => plainFuel fuel (setCell board c.1 c.2 PLAYER_X) (depth + 1) true
        difficulty) (emptyCells board) INT_MAX

/-- Plain minimax with the recursion budget of `minimax`. -/
def plainMinimax (board : Board) (depth : Int) (isMaximizing : Bool) (difficulty : Int) :
    Option Int :=
  plainFuel 10 board depth isMaximizing difficulty

/-! ## Predicates used in the proofs -/

/-- A recursive call that returns and restores the board on every child position
of `board` obtained by writing `mark` into an empty cell. -/
def CallFrame (call : Board → Int → Int → Option (Int × Board)) (board : Board) (mark : Char) :
    Prop :=
  ∀ i j, board i j = EMPTY → ∀ a b, ∃ e, call (setCell board i j mark) a b =
    some (e, setCell board i j mark)

/-- What a search result `e` for the window `(a, b)` says about the true value
`p`: at or below `a` it is an upper bound, at or above `b` a lower bound, and
strictly inside the window it is exact. -/
def Clamp (a b e p : Int) : Prop :=
  (a < e ∨ p ≤ a) ∧ (e < b ∨ b ≤ p) ∧ (e ≤ a ∨ b ≤ e ∨ p = e)

/-- The empty cells of row `i` among the columns `js`, in loop order. -/
def rowEmpty (board : Board) (i : Fin 3) (js : List (Fin 3)) : List (Fin 3 × Fin 3) :=
  (js.map (fun j => (i, j))).filter (fun c => board c.1 c.2 = EMPTY)

/-- Strict row-major order on cells. -/
def rowMajorLt (c d : Fin 3 × Fin 3) : Prop :=
  c.1 < d.1 ∨ (c.1 = d.1 ∧ c.2 < d.2)

/-- The best-move bookkeeping of `aiMove` over a list of candidate cells:
a candidate replaces the current best when its score is strictly greater. -/
def bestOver (score : Fin 3 × Fin 3 → Option Int) :
    List (Fin 3 × Fin 3) → Int × Int × Int → Option (Int × Int × Int)
  | [], st => some st
  | c :: cs, st =>
    match score c with
    | none => none
    | some m =>
      if m > st.1 then bestOver score cs (m, (c.1.val : Int), (c.2.val : Int))
      else bestOver score cs st

/-! ## Evaluation on concrete boards

Plain minimax recomputed on boards given by their nine cells, each `EMPTY`,
`X` or `O`.  Child boards are rebuilt from the cells, so equal positions are
equal terms.  `plainF_sound` below shows that `plainF` returns the value of
`plainFuel` on the board denoted. -/

/-- The three values the game stores in a cell. -/
inductive Cell
  | E
  | X
  | O
deriving DecidableEq

/-- A board given by its nine cells in row-major order. -/
structure FB where
  c00 : Cell
  c01 : Cell
  c02 : Cell
  c10 : Cell
  c11 : Cell
  c12 : Cell
  c20 : Cell
  c21 : Cell
  c22 : Cell

/-- The character stored for a cell value. -/
def cellChar : Cell → Char
  | .E => EMPTY
  | .X => PLAYER_X
  | .O => PLAYER_O

/-- The board denoted by nine cells. -/
def toBoard (f : FB) : Board :=
  mkBoard (cellChar f.c00) (cellChar f.c01) (cellChar f.c02)
    (cellChar f.c10) (cellChar f.c11) (cellChar f.c12)
    (cellChar f.c20) (cellChar f.c21) (cellChar f.c22)

/-- The nine cells with cell `(i, j)` replaced by `m`. -/
def FB.set (f : FB) (i j : Fin 3) (m : Cell) : FB :=
  match f with
  | ⟨a, b, c, d, e, u, v, w, x⟩ =>
    if i = 0 then
      (if j = 0 then ⟨m, b, c, d, e, u, v, w, x⟩
       else if j = 1 then ⟨a, m, c, d, e, u, v, w, x⟩
       else ⟨a, b, m, d, e, u, v, w, x⟩)
    else if i = 1 then
      (if j = 0 then ⟨a, b, c, m, e, u, v, w, x⟩
       else if j = 1 then ⟨a, b, c, d, m, u, v, w, x⟩
       else ⟨a, b, c, d, e, m, v, w, x⟩)
    else
      (if j = 0 then ⟨a, b, c, d, e, u, m, w, x⟩
       else if j = 1 then ⟨a, b, c, d, e, u, v, m, x⟩
       else ⟨a, b, c, d, e, u, v, w, m⟩)

/-- The cell `(i, j)`. -/
def FB.get (f : FB) (i j : Fin 3) : Cell :=
  match f with
  | ⟨a, b, c, d, e, u, v, w, x⟩ =>
    if i = 0 then (if j = 0 then a else if j = 1 then b else c)
    else if i = 1 then (if j = 0 then d else if j = 1 then e else u)
    else (if j = 0 then v else if j = 1 then w else x)

/-- All nine cells empty. -/
def FB.empty : FB := ⟨.E, .E, .E, .E, .E, .E, .E, .E, .E⟩

/-- One line of `O`: true when `a`, `b` and `c` all hold `O`, else `rest`. -/
def lineO (a b c : Cell) (rest : Bool) : Bool :=
  match a with
  | .O => (match b with
    | .O => (match c with
      | .O => true
      | _ => rest)
    | _ => rest)
  | _ => rest

/-- One line of `X`: true when `a`, `b` and `c` all hold `X`, else `rest`. -/
def lineX (a b c : Cell) (rest : Bool) : Bool :=
  match a with
  | .X => (match b with
    | .X => (match c with
      | .X => true
      | _ => rest)
    | _ => rest)
  | _ => rest

/-- The eight lines checked for `O`, in the order of `checkWin`. -/
def FB.winO (f : FB) : Bool :=
  match f with
  | ⟨a, b, c, d, e, g, h, i, j⟩ =>
    lineO a b c (lineO d e g (lineO h i j (lineO a d h (lineO b e i (lineO c g j
      (lineO a e j (lineO c e h false)))))))

/-- The eight lines checked for `X`, in the order of `checkWin`. -/
def FB.winX (f : FB) : Bool :=
  match f with
  | ⟨a, b, c, d, e, g, h, i, j⟩ =>
    lineX a b c (lineX d e g (lineX h i j (lineX a d h (lineX b e i (lineX c g j
      (lineX a e j (lineX c e h false)))))))

/-- False when `c` is empty, else `rest`. -/
def notE (c : Cell) (rest : Bool) : Bool :=
  match c with
  | .E => false
  | _ => rest

/-- No cell is empty. -/
def FB.full (f : FB) : Bool :=
  match f with
  | ⟨a, b, c, d, e, g, h, i, j⟩ =>
    notE a (notE b (notE c (notE d (notE e (notE g (notE h (notE i (notE j true))))))))

/-- One step of the running maximum: when the cell `c` is empty the child board
is evaluated by `g`, else the cell is skipped. -/
def pickMax (g : FB → Int) (c : Cell) (acc : Int) (child : FB) : Int :=
  match c with
  | .E => max acc (g child)
  | _ => acc

/-- One step of the running minimum. -/
def pickMin (g : FB → Int) (c : Cell) (acc : Int) (child : FB) : Int :=
  match c with
  | .E => min acc (g child)
  | _ => acc

/-- Running maximum of `g` over the boards with `O` on one empty cell, in
row-major order, starting from `acc`. -/
def kidsMax (f : FB) (g : FB → Int) (acc : Int) : Int :=
  match f with
  | ⟨a, b, c, d, e, u, v, w, x⟩ =>
    pickMax g x (pickMax g w (pickMax g v (pickMax g u (pickMax g e (pickMax g d
      (pickMax g c (pickMax g b (pickMax g a acc ⟨.O, b, c, d, e, u, v, w, x⟩)
      ⟨a, .O, c, d, e, u, v, w, x⟩) ⟨a, b, .O, d, e, u, v, w, x⟩)
      ⟨a, b, c, .O, e, u, v, w, x⟩) ⟨a, b, c, d, .O, u, v, w, x⟩)
      ⟨a, b, c, d, e, .O, v, w, x⟩) ⟨a, b, c, d, e, u, .O, w, x⟩)
      ⟨a, b, c, d, e, u, v, .O, x⟩) ⟨a, b, c, d, e, u, v, w, .O⟩

/-- Running minimum of `g` over the boards with `X` on one empty cell, in
row-major order, starting from `acc`. -/
def kidsMin (f : FB) (g : FB → Int) (acc : Int) : Int :=
  match f with
  | ⟨a, b, c, d, e, u, v, w, x⟩ =>
    pickMin g x (pickMin g w (pickMin g v (pickMin g u (pickMin g e (pickMin g d
      (pickMin g c (pickMin g b (pickMin g a acc ⟨.X, b, c, d, e, u, v, w, x⟩)
      ⟨a, .X, c, d, e, u, v, w, x⟩) ⟨a, b, .X, d, e, u, v, w, x⟩)
      ⟨a, b, c, .X, e, u, v, w, x⟩) ⟨a, b, c, d, .X, u, v, w, x⟩)
      ⟨a, b, c, d, e, .X, v, w, x⟩) ⟨a, b, c, d, e, u, .X, w, x⟩)
      ⟨a, b, c, d, e, u, v, .X, x⟩) ⟨a, b, c, d, e, u, v, w, .X⟩

/-- Plain minimax on nine cells, with the recursion budget of `plainFuel`; the
value at budget 0 is never used. -/
def plainF : Nat → FB → Int → Bool → Int → Int
  | 0, _, _, _, _ => 0
  | fuel + 1, f, depth, isMaximizing, difficulty =>
    match f.winO with
    | true => 10 - depth
    | false =>
      match f.winX with
      | true => depth - 10
      | false =>
        match f.full with
        | true => 0
        | false =>
          if difficulty = 1 ∧ depth ≥ 1 then 0
          else if difficulty = 2 ∧ depth ≥ 2 then 0
          else
            match isMaximizing with
            | true => kidsMax f (fun ch => plainF fuel ch (depth + 1) false difficulty) INT_MIN
            | false => kidsMin f (fun ch => plainF fuel ch (depth + 1) true difficulty) INT_MAX


/-- The empty cells of nine cells, in row-major order. -/
def FB.emptyCells (f : FB) : List (Fin 3 × Fin 3) :=
  allCells.filter (fun c => f.get c.1 c.2 = Cell.E)

/-- The cell `aiMove` selects on Medium and Hard, computed from `plainF`. -/
def aiCell (f : FB) (difficulty : Int) : Option (Fin 3 × Fin 3) :=
  match bestOver (fun c => some (plainF 10 (f.set c.1 c.2 Cell.O) 0 false difficulty))
      f.emptyCells (INT_MIN, -1, -1) with
  | none => none
  | some st =>
    match toIndex st.2.1, toIndex st.2.2 with
    | some i, some j => some (i, j)
    | _, _ => none

/-! ## playGame -/

/-- The mark of the side to move: `currentPlayer = playerTurn ? PLAYER_X : PLAYER_O`. -/
def currentPlayer (playerTurn : Bool) : Char := if playerTurn then PLAYER_X else PLAYER_O

/-- A move of the human player that `playGame` accepts: `placeMark` with
`PLAYER_X` on an in-range cell returns `true`. -/
def humanMove (board board1 : Board) : Prop :=
  ∃ row col : Fin 3, placeMark board row col PLAYER_X = (true, board1)

/-- An `O` move that writes `O` on an arbitrary empty cell. -/
def anyMove (board board1 : Board) : Prop :=
  ∃ i j : Fin 3, board i j = EMPTY ∧ board1 = setCell board i j PLAYER_O

/-- The `O` move made by `aiMove` with difficulty 3, for some value of `rand()`. -/
def hardMove (board board1 : Board) : Prop :=
  ∃ r : Nat, aiMove r board 3 = some board1

/-- The move made in one pass of the loop body of `playGame`; `ai` is the move
relation of the `O` side. -/
def Moved (ai : Board → Board → Prop) (board : Board) (playerTurn : Bool) (board1 : Board) :
    Prop :=
  if playerTurn then humanMove board board1 else ai board board1

/-- The states `(board, playerTurn)` in which the `while (true)` loop of
`playGame` starts a pass that makes a move: the initial state, and every state
reached by a move after which neither `checkWin(board, currentPlayer)` nor
`isBoardFull(board)` ended the game. -/
inductive Game (ai : Board → Board → Prop) : Board → Bool → Prop
  | start : Game ai emptyBoard true
  | next (board board1 : Board) (playerTurn : Bool) :
      Game ai board playerTurn → Moved ai board playerTurn board1 →
      checkWin board1 (currentPlayer playerTurn) = false → isBoardFull board1 = false →
      Game ai board1 (!playerTurn)

/-- The boards that occur in a game: the initial board and the board after every
move, the last move included. -/
def Seen (ai : Board → Board → Prop) (board1 : Board) : Prop :=
  board1 = emptyBoard ∨
    ∃ (board : Board) (playerTurn : Bool), Game ai board playerTurn ∧
      Moved ai board playerTurn board1

/-- Exhaustive check of the games of `X` against the Hard engine from the
position `f` with `playerTurn` to move: true when in no continuation a board
with a completed `X` line occurs.  `X` tries every empty cell, `O` plays the
cell of `aiCell`. -/
def hardSafe : Nat → FB → Bool → Bool
  | 0, _, _ => false
  | n + 1, f, true =>
    f.emptyCells.all (fun c =>
      match (f.set c.1 c.2 Cell.X).winX with
      | true => false
      | false =>
        match (f.set c.1 c.2 Cell.X).full with
        | true => true
        | false => hardSafe n (f.set c.1 c.2 Cell.X) false)
  | n + 1, f, false =>
    match aiCell f 3 with
    | none => false
    | some c =>
      match (f.set c.1 c.2 Cell.O).winX with
      | true => false
      | false =>
        match (f.set c.1 c.2 Cell.O).winO with
        | true => true
        | false =>
          match (f.set c.1 c.2 Cell.O).full with
          | true => true
          | false => hardSafe n (f.set c.1 c.2 Cell.O) true

/-! ## Probing which candidates a loop evaluates -/

/-- A stand-in for the recursive call of a maximizing node at depth 1 that
fails on every board holding `O` in the cell `c` and otherwise is the call
`minimax(board, 2, false, alpha, beta, difficulty)`: a loop that returns `none`
with it has evaluated the candidate cell `c`. -/
def probe (c : Fin 3 × Fin 3) (difficulty : Int) : Board → Int → Int → Option (Int × Board) :=
  fun b a be => if b c.1 c.2 = PLAYER_O then none else minimax b 2 false a be difficulty

/-! ## Basic facts about the board -/

theorem setCell_same (board : Board) (i j : Fin 3) (v : Char) : setCell board i j v i j = v := by
  simp [setCell]

theorem setCell_apply (board : Board) (i j r c : Fin 3) (v : Char) :
    setCell board i j v r c = if r = i ∧ c = j then v else board r c := rfl

theorem setCell_ne (board : Board) (i j r c : Fin 3) (v : Char) (h : (r, c) ≠ (i, j)) :
    setCell board i j v r c = board r c := by
  simp only [setCell]
  rw [if_neg]
  rintro ⟨h1, h2⟩
  exact h (by rw [h1, h2])

theorem setCell_undo (board : Board) (i j : Fin 3) (v : Char) (h : board i j = EMPTY) :
    setCell (setCell board i j v) i j EMPTY = board := by
  funext r c
  simp only [setCell]
  split_ifs with h1
  · rw [h1.1, h1.2, h]
  · rfl

theorem emptyCount_le (c : Char) : emptyCount c ≤ 1 := by
  unfold emptyCount; split_ifs <;> omega

theorem countEmpty_setCell (board : Board) (i j : Fin 3) (v : Char)
    (h : board i j = EMPTY) (hv : v ≠ EMPTY) :
    countEmpty (setCell board i j v) + 1 = countEmpty board := by
  have e1 : emptyCount v = 0 := by simp [emptyCount, hv]
  have e2 : emptyCount (board i j) = 1 := by simp [emptyCount, h]
  fin_cases i <;> fin_cases j <;>
    simp [countEmpty, setCell, e1] <;> simp at e2 <;> omega

theorem mem_fin3 (i : Fin 3) : i ∈ ([0, 1, 2] : List (Fin 3)) := by
  fin_cases i <;> simp

theorem checkWinLoop_iff (board : Board) (p : Char) (is : List (Fin 3)) :
    checkWinLoop board p is = true ↔
      ∃ i ∈ is, (board i 0 = p ∧ board i 1 = p ∧ board i 2 = p) ∨
        (board 0 i = p ∧ board 1 i = p ∧ board 2 i = p) := by
  induction is with
  | nil => simp [checkWinLoop]
  | cons i is ih =>
    simp only [checkWinLoop, List.exists_mem_cons_iff]
    split_ifs with h1 h2
    · simp [h1]
    · simp [h2]
    · rw [ih]; simp only [h1, h2, or_self, false_or]

theorem checkWin_iff (board : Board) (p : Char) :
    checkWin board p = true ↔
      (∃ i : Fin 3, board i 0 = p ∧ board i 1 = p ∧ board i 2 = p) ∨
      (∃ j : Fin 3, board 0 j = p ∧ board 1 j = p ∧ board 2 j = p) ∨
      (board 0 0 = p ∧ board 1 1 = p ∧ board 2 2 = p) ∨
      (board 0 2 = p ∧ board 1 1 = p ∧ board 2 0 = p) := by
  have hl := checkWinLoop_iff board p [0, 1, 2]
  unfold checkWin
  constructor
  · intro h
    split_ifs at h with h1 h2
    · obtain ⟨i, -, hi⟩ := hl.mp h1
      rcases hi with hi | hi
      · exact Or.inl ⟨i, hi⟩
      · exact Or.inr (Or.inl ⟨i, hi⟩)
    · exact Or.inr (Or.inr h2)
  · intro h
    split_ifs with h1 h2
    · rfl
    · rfl
    · exfalso
      rcases h with ⟨i, hi⟩ | ⟨i, hi⟩ | h | h
      · exact h1 (hl.mpr ⟨i, mem_fin3 i, Or.inl hi⟩)
      · exact h1 (hl.mpr ⟨i, mem_fin3 i, Or.inr hi⟩)
      · exact h2 (Or.inl h)
      · exact h2 (Or.inr h)

theorem PLAYER_O_ne_EMPTY : PLAYER_O ≠ EMPTY := by decide
theorem PLAYER_X_ne_EMPTY : PLAYER_X ≠ EMPTY := by decide

theorem maxInner_frame (call : Board → Int → Int → Option (Int × Board)) (board : Board)
    (hc : CallFrame call board PLAYER_O) (i : Fin 3) (js : List (Fin 3)) :
    ∀ mx al be, ∃ mx1 al1, maxInner call i js board mx al be = some (board, mx1, al1) := by
  induction js with
  | nil => intro mx al be; exact ⟨mx, al, rfl⟩
  | cons j js ih =>
    intro mx al be
    by_cases hcell : board i j = EMPTY
    · obtain ⟨e, he⟩ := hc i j hcell al be
      simp only [maxInner, hcell, if_true, he, setCell_undo board i j PLAYER_O hcell]
      split_ifs
      · exact ⟨_, _, rfl⟩
      · exact ih _ _ _
    · simp only [maxInner, hcell, if_false]
      exact ih _ _ _

theorem maxOuter_frame (call : Board → Int → Int → Option (Int × Board)) (board : Board)
    (hc : CallFrame call board PLAYER_O) (is : List (Fin 3)) :
    ∀ mx al be, ∃ mx1 al1, maxOuter call is board mx al be = some (board, mx1, al1) := by
  induction is with
  | nil => intro mx al be; exact ⟨mx, al, rfl⟩
  | cons i is ih =>
    intro mx al be
    obtain ⟨mx1, al1, h1⟩ := maxInner_frame call board hc i [0, 1, 2] mx al be
    simp only [maxOuter, h1]
    exact ih _ _ _

theorem minInner_frame (call : Board → Int → Int → Option (Int × Board)) (board : Board)
    (hc : CallFrame call board PLAYER_X) (i : Fin 3) (js : List (Fin 3)) :
    ∀ mn al be, ∃ mn1 be1, minInner call i js board mn al be = some (board, mn1, be1) := by
  induction js with
  | nil => intro mn al be; exact ⟨mn, be, rfl⟩
  | cons j js ih =>
    intro mn al be
    by_cases hcell : board i j = EMPTY
    · obtain ⟨e, he⟩ := hc i j hcell al be
      simp only [minInner, hcell, if_true, he, setCell_undo board i j PLAYER_X hcell]
      split_ifs
      · exact ⟨_, _, rfl⟩
      · exact ih _ _ _
    · simp only [minInner, hcell, if_false]
      exact ih _ _ _

theorem minOuter_frame (call : Board → Int → Int → Option (Int × Board)) (board : Board)
    (hc : CallFrame call board PLAYER_X) (is : List (Fin 3)) :
    ∀ mn al be, ∃ mn1 be1, minOuter call is board mn al be = some (board, mn1, be1) := by
  induction is with
  | nil => intro mn al be; exact ⟨mn, be, rfl⟩
  | cons i is ih =>
    intro mn al be
    obtain ⟨mn1, be1, h1⟩ := minInner_frame call board hc i [0, 1, 2] mn al be
    simp only [minOuter, h1]
    exact ih _ _ _

theorem minimaxFuel_frame (fuel : Nat) :
    ∀ (board : Board) (depth : Int) (isMaximizing : Bool) (alpha beta difficulty : Int),
      countEmpty board < fuel →
      ∃ v, minimaxFuel fuel board depth isMaximizing alpha beta difficulty = some (v, board) := by
  induction fuel with
  | zero => intro board _ _ _ _ _ h; omega
  | succ fuel ih =>
    intro board depth isMaximizing alpha beta difficulty hfuel
    unfold minimaxFuel
    split_ifs with h1 h2 h3 h4 h5 h6
    · exact ⟨_, rfl⟩
    · exact ⟨_, rfl⟩
    · exact ⟨_, rfl⟩
    · exact ⟨_, rfl⟩
    · exact ⟨_, rfl⟩
    · have hc : CallFrame (fun b a be => minimaxFuel fuel b (depth + 1) false a be difficulty)
          board PLAYER_O := by
        intro i j hcell a b
        have := countEmpty_setCell board i j PLAYER_O hcell PLAYER_O_ne_EMPTY
        exact ih _ _ _ _ _ _ (by omega)
      obtain ⟨mx1, al1, h⟩ := maxOuter_frame _ board hc [0, 1, 2] INT_MIN alpha beta
      simp only [h]
      exact ⟨_, rfl⟩
    · have hc : CallFrame (fun b a be => minimaxFuel fuel b (depth + 1) true a be difficulty)
          board PLAYER_X := by
        intro i j hcell a b
        have := countEmpty_setCell board i j PLAYER_X hcell PLAYER_X_ne_EMPTY
        exact ih _ _ _ _ _ _ (by omega)
      obtain ⟨mn1, be1, h⟩ := minOuter_frame _ board hc [0, 1, 2] INT_MAX alpha beta
      simp only [h]
      exact ⟨_, rfl⟩

theorem countEmpty_le (board : Board) : countEmpty board ≤ 9 := by
  have h := fun i j => emptyCount_le (board i j)
  have h00 := h 0 0
  have h01 := h 0 1
  have h02 := h 0 2
  have h10 := h 1 0
  have h11 := h 1 1
  have h12 := h 1 2
  have h20 := h 2 0
  have h21 := h 2 1
  have h22 := h 2 2
  unfold countEmpty
  omega

theorem minimax_frame (board : Board) (depth : Int) (isMaximizing : Bool)
    (alpha beta difficulty : Int) :
    ∃ v, minimax board depth isMaximizing alpha beta difficulty = some (v, board) :=
  minimaxFuel_frame 10 board depth isMaximizing alpha beta difficulty
    (by have := countEmpty_le board; omega)

theorem maxOver_total (f : Fin 3 × Fin 3 → Option Int) (l : List (Fin 3 × Fin 3))
    (hf : ∀ c ∈ l, ∃ p, f c = some p) :
    ∀ acc, ∃ r, maxOver f l acc = some r ∧ acc ≤ r := by
  induction l with
  | nil => intro acc; exact ⟨acc, rfl, le_refl _⟩
  | cons c cs ih =>
    intro acc
    obtain ⟨p, hp⟩ := hf c (List.mem_cons_self _ _)
    obtain ⟨r, hr, hle⟩ := ih (fun d hd => hf d (List.mem_cons_of_mem _ hd)) (max acc p)
    refine ⟨r, ?_, ?_⟩
    · simp only [maxOver, hp, hr]
    · omega

theorem minOver_total (f : Fin 3 × Fin 3 → Option Int) (l : List (Fin 3 × Fin 3))
    (hf : ∀ c ∈ l, ∃ p, f c = some p) :
    ∀ acc, ∃ r, minOver f l acc = some r ∧ r ≤ acc := by
  induction l with
  | nil => intro acc; exact ⟨acc, rfl, le_refl _⟩
  | cons c cs ih =>
    intro acc
    obtain ⟨p, hp⟩ := hf c (List.mem_cons_self _ _)
    obtain ⟨r, hr, hle⟩ := ih (fun d hd => hf d (List.mem_cons_of_mem _ hd)) (min acc p)
    refine ⟨r, ?_, ?_⟩
    · simp only [minOver, hp, hr]
    · omega

theorem maxOver_append (f : Fin 3 × Fin 3 → Option Int) (l1 l2 : List (Fin 3 × Fin 3)) :
    ∀ acc r, maxOver f l1 acc = some r → maxOver f (l1 ++ l2) acc = maxOver f l2 r := by
  induction l1 with
  | nil => intro acc r h; simp only [maxOver, Option.some.injEq] at h; simp [h]
  | cons c cs ih =>
    intro acc r h
    simp only [List.cons_append, maxOver] at h ⊢
    cases hc : f c with
    | none => simp [hc] at h
    | some e => simp only [hc] at h ⊢; exact ih _ _ h

theorem minOver_append (f : Fin 3 × Fin 3 → Option Int) (l1 l2 : List (Fin 3 × Fin 3)) :
    ∀ acc r, minOver f l1 acc = some r → minOver f (l1 ++ l2) acc = minOver f l2 r := by
  induction l1 with
  | nil => intro acc r h; simp only [minOver, Option.some.injEq] at h; simp [h]
  | cons c cs ih =>
    intro acc r h
    simp only [List.cons_append, minOver] at h ⊢
    cases hc : f c with
    | none => simp [hc] at h
    | some e => simp only [hc] at h ⊢; exact ih _ _ h

theorem rowEmpty_cons_pos (board : Board) (i j : Fin 3) (js : List (Fin 3))
    (h : board i j = EMPTY) : rowEmpty board i (j :: js) = (i, j) :: rowEmpty board i js := by
  simp [rowEmpty, h]

theorem rowEmpty_cons_neg (board : Board) (i j : Fin 3) (js : List (Fin 3))
    (h : ¬ board i j = EMPTY) : rowEmpty board i (j :: js) = rowEmpty board i js := by
  simp [rowEmpty, h]

theorem mem_rowEmpty (board : Board) (i : Fin 3) (js : List (Fin 3)) (c : Fin 3 × Fin 3)
    (h : c ∈ rowEmpty board i js) : c.1 = i ∧ board i c.2 = EMPTY := by
  simp only [rowEmpty, List.mem_filter, List.mem_map, decide_eq_true_eq] at h
  obtain ⟨⟨j, -, rfl⟩, h2⟩ := h
  exact ⟨rfl, h2⟩

theorem emptyCells_rows (board : Board) :
    emptyCells board =
      rowEmpty board 0 [0, 1, 2] ++ (rowEmpty board 1 [0, 1, 2] ++ rowEmpty board 2 [0, 1, 2]) := by
  simp only [emptyCells, rowEmpty, allCells, ← List.filter_append]
  rfl

theorem maxInner_clamp (call : Board → Int → Int → Option (Int × Board))
    (pcall : Fin 3 × Fin 3 → Option Int) (board : Board) (i : Fin 3) (a0 b0 : Int)
    (hwin : a0 < b0)
    (hchild : ∀ j, board i j = EMPTY → ∀ al, a0 ≤ al →
      ∃ e p, call (setCell board i j PLAYER_O) al b0 = some (e, setCell board i j PLAYER_O) ∧
        pcall (i, j) = some p ∧ (al < b0 → Clamp al b0 e p))
    (js : List (Fin 3)) :
    ∀ mx pm, Clamp a0 b0 mx pm →
      ∃ mx1 pm1, maxInner call i js board mx (max a0 mx) b0 = some (board, mx1, max a0 mx1) ∧
        maxOver pcall (rowEmpty board i js) pm = some pm1 ∧ Clamp a0 b0 mx1 pm1 := by
  induction js with
  | nil => intro mx pm h; exact ⟨mx, pm, rfl, rfl, h⟩
  | cons j js ih =>
    intro mx pm hcl
    by_cases hcell : board i j = EMPTY
    · obtain ⟨e, p, he, hp, hclamp⟩ := hchild j hcell (max a0 mx) (le_max_left _ _)
      rw [rowEmpty_cons_pos board i j js hcell]
      simp only [maxInner, hcell, if_true, he, setCell_undo board i j PLAYER_O hcell,
        maxOver, hp]
      split_ifs with hbrk
      · have hall : ∀ c ∈ rowEmpty board i js, ∃ q, pcall c = some q := by
          intro c hc
          obtain ⟨h1, h2⟩ := mem_rowEmpty board i js c hc
          obtain ⟨_, q, -, hq, -⟩ := hchild c.2 h2 a0 (le_refl _)
          refine ⟨q, ?_⟩
          rw [← hq, ← h1]
        obtain ⟨r, hr, hge⟩ := maxOver_total pcall _ hall (max pm p)
        refine ⟨max mx e, r, ?_, hr, ?_⟩
        · rw [max_assoc]
        · unfold Clamp at hcl ⊢
          by_cases hlt : max a0 mx < b0
          · have h3 := hclamp hlt
            unfold Clamp at h3
            omega
          · omega
      · have hlt : max a0 mx < b0 := by omega
        have h3 := hclamp hlt
        have h4 : Clamp a0 b0 (max mx e) (max pm p) := by
          unfold Clamp at hcl h3 ⊢
          omega
        obtain ⟨mx1, pm1, h5, h6, h7⟩ := ih (max mx e) (max pm p) h4
        rw [max_assoc]
        exact ⟨mx1, pm1, h5, h6, h7⟩
    · rw [rowEmpty_cons_neg board i j js hcell]
      simp only [maxInner, hcell, if_false]
      exact ih mx pm hcl
theorem minInner_clamp (call : Board → Int → Int → Option (Int × Board))
    (pcall : Fin 3 × Fin 3 → Option Int) (board : Board) (i : Fin 3) (a0 b0 : Int)
    (hwin : a0 < b0)
    (hchild : ∀ j, board i j = EMPTY → ∀ be, be ≤ b0 →
      ∃ e p, call (setCell board i j PLAYER_X) a0 be = some (e, setCell board i j PLAYER_X) ∧
        pcall (i, j) = some p ∧ (a0 < be → Clamp a0 be e p))
    (js : List (Fin 3)) :
    ∀ mn pm, Clamp a0 b0 mn pm →
      ∃ mn1 pm1, minInner call i js board mn a0 (min b0 mn) = some (board, mn1, min b0 mn1) ∧
        minOver pcall (rowEmpty board i js) pm = some pm1 ∧ Clamp a0 b0 mn1 pm1 := by
  induction js with
  | nil => intro mn pm h; exact ⟨mn, pm, rfl, rfl, h⟩
  | cons j js ih =>
    intro mn pm hcl
    by_cases hcell : board i j = EMPTY
    · obtain ⟨e, p, he, hp, hclamp⟩ := hchild j hcell (min b0 mn) (min_le_left _ _)
      rw [rowEmpty_cons_pos board i j js hcell]
      simp only [minInner, hcell, if_true, he, setCell_undo board i j PLAYER_X hcell,
        minOver, hp]
      split_ifs with hbrk
      · have hall : ∀ c ∈ rowEmpty board i js, ∃ q, pcall c = some q := by
          intro c hc
          obtain ⟨h1, h2⟩ := mem_rowEmpty board i js c hc
          obtain ⟨_, q, -, hq, -⟩ := hchild c.2 h2 b0 (le_refl _)
          refine ⟨q, ?_⟩
          rw [← hq, ← h1]
        obtain ⟨r, hr, hge⟩ := minOver_total pcall _ hall (min pm p)
        refine ⟨min mn e, r, ?_, hr, ?_⟩
        · rw [min_assoc]
        · unfold Clamp at hcl ⊢
          by_cases hlt : a0 < min b0 mn
          · have h3 := hclamp hlt
            unfold Clamp at h3
            omega
          · omega
      · have hlt : a0 < min b0 mn := by omega
        have h3 := hclamp hlt
        have h4 : Clamp a0 b0 (min mn e) (min pm p) := by
          unfold Clamp at hcl h3 ⊢
          omega
        obtain ⟨mn1, pm1, h5, h6, h7⟩ := ih (min mn e) (min pm p) h4
        rw [min_assoc]
        exact ⟨mn1, pm1, h5, h6, h7⟩
    · rw [rowEmpty_cons_neg board i j js hcell]
      simp only [minInner, hcell, if_false]
      exact ih mn pm hcl

theorem maxOuter_clamp (call : Board → Int → Int → Option (Int × Board))
    (pcall : Fin 3 × Fin 3 → Option Int) (board : Board) (a0 b0 : Int)
    (hwin : a0 < b0)
    (hchild : ∀ i j, board i j = EMPTY → ∀ al, a0 ≤ al →
      ∃ e p, call (setCell board i j PLAYER_O) al b0 = some (e, setCell board i j PLAYER_O) ∧
        pcall (i, j) = some p ∧ (al < b0 → Clamp al b0 e p))
    (mx pm : Int) (hcl : Clamp a0 b0 mx pm) :
    ∃ mx1 pm1, maxOuter call [0, 1, 2] board mx (max a0 mx) b0 = some (board, mx1, max a0 mx1) ∧
      maxOver pcall (emptyCells board) pm = some pm1 ∧ Clamp a0 b0 mx1 pm1 := by
  obtain ⟨m0, p0, h0, q0, c0⟩ :=
    maxInner_clamp call pcall board 0 a0 b0 hwin (hchild 0) [0, 1, 2] mx pm hcl
  obtain ⟨m1, p1, h1, q1, c1⟩ :=
    maxInner_clamp call pcall board 1 a0 b0 hwin (hchild 1) [0, 1, 2] m0 p0 c0
  obtain ⟨m2, p2, h2, q2, c2⟩ :=
    maxInner_clamp call pcall board 2 a0 b0 hwin (hchild 2) [0, 1, 2] m1 p1 c1
  refine ⟨m2, p2, ?_, ?_, c2⟩
  · simp only [maxOuter, h0, h1, h2]
  · rw [emptyCells_rows, maxOver_append _ _ _ _ _ q0, maxOver_append _ _ _ _ _ q1, q2]

theorem minOuter_clamp (call : Board → Int → Int → Option (Int × Board))
    (pcall : Fin 3 × Fin 3 → Option Int) (board : Board) (a0 b0 : Int)
    (hwin : a0 < b0)
    (hchild : ∀ i j, board i j = EMPTY → ∀ be, be ≤ b0 →
      ∃ e p, call (setCell board i j PLAYER_X) a0 be = some (e, setCell board i j PLAYER_X) ∧
        pcall (i, j) = some p ∧ (a0 < be → Clamp a0 be e p))
    (mn pm : Int) (hcl : Clamp a0 b0 mn pm) :
    ∃ mn1 pm1, minOuter call [0, 1, 2] board mn a0 (min b0 mn) = some (board, mn1, min b0 mn1) ∧
      minOver pcall (emptyCells board) pm = some pm1 ∧ Clamp a0 b0 mn1 pm1 := by
  obtain ⟨m0, p0, h0, q0, c0⟩ :=
    minInner_clamp call pcall board 0 a0 b0 hwin (hchild 0) [0, 1, 2] mn pm hcl
  obtain ⟨m1, p1, h1, q1, c1⟩ :=
    minInner_clamp call pcall board 1 a0 b0 hwin (hchild 1) [0, 1, 2] m0 p0 c0
  obtain ⟨m2, p2, h2, q2, c2⟩ :=
    minInner_clamp call pcall board 2 a0 b0 hwin (hchild 2) [0, 1, 2] m1 p1 c1
  refine ⟨m2, p2, ?_, ?_, c2⟩
  · simp only [minOuter, h0, h1, h2]
  · rw [emptyCells_rows, minOver_append _ _ _ _ _ q0, minOver_append _ _ _ _ _ q1, q2]

/-- Alpha-beta search against plain minimax for an arbitrary proper window inside
the `int` range: both return, the board is restored, and the result clamps to
the plain value. -/
theorem minimaxFuel_clamp (fuel : Nat) :
    ∀ (board : Board) (depth : Int) (isMaximizing : Bool) (alpha beta difficulty : Int),
      countEmpty board < fuel → INT_MIN ≤ alpha → beta ≤ INT_MAX → alpha < beta →
      ∃ e p, minimaxFuel fuel board depth isMaximizing alpha beta difficulty = some (e, board) ∧
        plainFuel fuel board depth isMaximizing difficulty = some p ∧ Clamp alpha beta e p := by
  induction fuel with
  | zero => intro board _ _ _ _ _ h; omega
  | succ fuel ih =>
    intro board depth isMaximizing alpha beta difficulty hfuel hlo hhi hwin
    have hself : ∀ v : Int, Clamp alpha beta v v := by
      intro v; unfold Clamp; omega
    unfold minimaxFuel plainFuel
    split_ifs with h1 h2 h3 h4 h5 h6
    · exact ⟨_, _, rfl, rfl, hself _⟩
    · exact ⟨_, _, rfl, rfl, hself _⟩
    · exact ⟨_, _, rfl, rfl, hself _⟩
    · exact ⟨_, _, rfl, rfl, hself _⟩
    · exact ⟨_, _, rfl, rfl, hself _⟩
    · have hchild : ∀ i j, board i j = EMPTY → ∀ al, alpha ≤ al →
          ∃ e p, minimaxFuel fuel (setCell board i j PLAYER_O) (depth + 1) false al beta
              difficulty = some (e, setCell board i j PLAYER_O) ∧
            plainFuel fuel (setCell board i j PLAYER_O) (depth + 1) false difficulty = some p ∧
            (al < beta → Clamp al beta e p) := by
        intro i j hcell al hal
        have hcnt := countEmpty_setCell board i j PLAYER_O hcell PLAYER_O_ne_EMPTY
        have hlt : countEmpty (setCell board i j PLAYER_O) < fuel := by omega
        by_cases hw : al < beta
        · obtain ⟨e, p, he, hp, hc⟩ := ih (setCell board i j PLAYER_O) (depth + 1) false al beta
            difficulty hlt (by omega) hhi hw
          exact ⟨e, p, he, hp, fun _ => hc⟩
        · obtain ⟨e, he⟩ := minimaxFuel_frame fuel (setCell board i j PLAYER_O) (depth + 1)
            false al beta difficulty hlt
          obtain ⟨_, p, -, hp, -⟩ := ih (setCell board i j PLAYER_O) (depth + 1) false alpha beta
            difficulty hlt hlo hhi hwin
          exact ⟨e, p, he, hp, fun h => absurd h hw⟩
      have hinit : Clamp alpha beta INT_MIN INT_MIN := by unfold Clamp; omega
      obtain ⟨mx1, pm1, h7, h8, h9⟩ := maxOuter_clamp
        (fun b a be => minimaxFuel fuel b (depth + 1) false a be difficulty)
        (fun c => plainFuel fuel (setCell board c.1 c.2 PLAYER_O) (depth + 1) false difficulty)
        board alpha beta hwin hchild INT_MIN INT_MIN hinit
      rw [max_eq_left hlo] at h7
      simp only [h7, h8]
      exact ⟨mx1, pm1, rfl, rfl, h9⟩
    · have hchild : ∀ i j, board i j = EMPTY → ∀ be, be ≤ beta →
          ∃ e p, minimaxFuel fuel (setCell board i j PLAYER_X) (depth + 1) true alpha be
              difficulty = some (e, setCell board i j PLAYER_X) ∧
            plainFuel fuel (setCell board i j PLAYER_X) (depth + 1) true difficulty = some p ∧
            (alpha < be → Clamp alpha be e p) := by
        intro i j hcell be hbe
        have hcnt := countEmpty_setCell board i j PLAYER_X hcell PLAYER_X_ne_EMPTY
        have hlt : countEmpty (setCell board i j PLAYER_X) < fuel := by omega
        by_cases hw : alpha < be
        · obtain ⟨e, p, he, hp, hc⟩ := ih (setCell board i j PLAYER_X) (depth + 1) true alpha be
            difficulty hlt hlo (by omega) hw
          exact ⟨e, p, he, hp, fun _ => hc⟩
        · obtain ⟨e, he⟩ := minimaxFuel_frame fuel (setCell board i j PLAYER_X) (depth + 1)
            true alpha be difficulty hlt
          obtain ⟨_, p, -, hp, -⟩ := ih (setCell board i j PLAYER_X) (depth + 1) true alpha beta
            difficulty hlt hlo hhi hwin
          exact ⟨e, p, he, hp, fun h => absurd h hw⟩
      have hinit : Clamp alpha beta INT_MAX INT_MAX := by unfold Clamp; omega
      obtain ⟨mn1, pm1, h7, h8, h9⟩ := minOuter_clamp
        (fun b a be => minimaxFuel fuel b (depth + 1) true a be difficulty)
        (fun c => plainFuel fuel (setCell board c.1 c.2 PLAYER_X) (depth + 1) true difficulty)
        board alpha beta hwin hchild INT_MAX INT_MAX hinit
      rw [min_eq_left hhi] at h7
      simp only [h7, h8]
      exact ⟨mn1, pm1, rfl, rfl, h9⟩
theorem isBoardFullRow_iff (board : Board) (i : Fin 3) (js : List (Fin 3)) :
    isBoardFullRow board i js = true ↔ ∀ j ∈ js, board i j ≠ EMPTY := by
  induction js with
  | nil => simp [isBoardFullRow]
  | cons j js ih =>
    simp only [isBoardFullRow, List.forall_mem_cons]
    split_ifs with h
    · simp [h]
    · rw [ih]; simp [h]

theorem isBoardFullLoop_iff (board : Board) (is : List (Fin 3)) :
    isBoardFullLoop board is = true ↔ ∀ i ∈ is, ∀ j : Fin 3, board i j ≠ EMPTY := by
  induction is with
  | nil => simp [isBoardFullLoop]
  | cons i is ih =>
    simp only [isBoardFullLoop, List.forall_mem_cons]
    have hrow := isBoardFullRow_iff board i [0, 1, 2]
    split_ifs with h
    · rw [ih]
      have h2 := hrow.mp h
      exact ⟨fun h3 => ⟨fun j => h2 j (mem_fin3 j), h3⟩, fun h3 => h3.2⟩
    · constructor
      · intro h3; exact absurd h3 (by simp)
      · intro h3
        exact absurd (hrow.mpr (fun j _ => h3.1 j)) h

theorem isBoardFull_iff (board : Board) :
    isBoardFull board = true ↔ ∀ i j : Fin 3, board i j ≠ EMPTY := by
  unfold isBoardFull
  rw [isBoardFullLoop_iff]
  exact ⟨fun h i j => h i (mem_fin3 i) j, fun h i _ j => h i j⟩

theorem mem_allCells (c : Fin 3 × Fin 3) : c ∈ allCells := by
  rcases c with ⟨i, j⟩
  fin_cases i <;> fin_cases j <;> simp [allCells]

theorem mem_emptyCells (board : Board) (c : Fin 3 × Fin 3) :
    c ∈ emptyCells board ↔ board c.1 c.2 = EMPTY := by
  simp [emptyCells, mem_allCells]

theorem exists_empty_of_not_full (board : Board) (h : ¬ isBoardFull board = true) :
    ∃ c, c ∈ emptyCells board := by
  rw [isBoardFull_iff] at h
  push_neg at h
  obtain ⟨i, j, hij⟩ := h
  exact ⟨(i, j), (mem_emptyCells board (i, j)).mpr hij⟩

theorem maxOver_spec (f : Fin 3 × Fin 3 → Option Int) (l : List (Fin 3 × Fin 3))
    (hf : ∀ c ∈ l, ∃ p, f c = some p) :
    ∀ acc, ∃ r, maxOver f l acc = some r ∧ acc ≤ r ∧
      (∀ c ∈ l, ∀ q, f c = some q → q ≤ r) ∧ (r = acc ∨ ∃ c ∈ l, f c = some r) := by
  induction l with
  | nil => intro acc; exact ⟨acc, rfl, le_refl _, by simp, Or.inl rfl⟩
  | cons c cs ih =>
    intro acc
    obtain ⟨p, hp⟩ := hf c (List.mem_cons_self _ _)
    obtain ⟨r, hr, hle, hall, hex⟩ :=
      ih (fun d hd => hf d (List.mem_cons_of_mem _ hd)) (max acc p)
    refine ⟨r, by simp only [maxOver, hp, hr], by omega, ?_, ?_⟩
    · intro d hd q hq
      rcases List.mem_cons.mp hd with rfl | hd
      · rw [hp] at hq
        have : p = q := Option.some.inj hq
        omega
      · exact hall d hd q hq
    · rcases hex with h | ⟨d, hd, hdr⟩
      · rcases le_total acc p with h1 | h1
        · right
          refine ⟨c, List.mem_cons_self _ _, ?_⟩
          rw [hp, h, max_eq_right h1]
        · left
          rw [h, max_eq_left h1]
      · exact Or.inr ⟨d, List.mem_cons_of_mem _ hd, hdr⟩

theorem minOver_spec (f : Fin 3 × Fin 3 → Option Int) (l : List (Fin 3 × Fin 3))
    (hf : ∀ c ∈ l, ∃ p, f c = some p) :
    ∀ acc, ∃ r, minOver f l acc = some r ∧ r ≤ acc ∧
      (∀ c ∈ l, ∀ q, f c = some q → r ≤ q) ∧ (r = acc ∨ ∃ c ∈ l, f c = some r) := by
  induction l with
  | nil => intro acc; exact ⟨acc, rfl, le_refl _, by simp, Or.inl rfl⟩
  | cons c cs ih =>
    intro acc
    obtain ⟨p, hp⟩ := hf c (List.mem_cons_self _ _)
    obtain ⟨r, hr, hle, hall, hex⟩ :=
      ih (fun d hd => hf d (List.mem_cons_of_mem _ hd)) (min acc p)
    refine ⟨r, by simp only [minOver, hp, hr], by omega, ?_, ?_⟩
    · intro d hd q hq
      rcases List.mem_cons.mp hd with rfl | hd
      · rw [hp] at hq
        have : p = q := Option.some.inj hq
        omega
      · exact hall d hd q hq
    · rcases hex with h | ⟨d, hd, hdr⟩
      · rcases le_total acc p with h1 | h1
        · left
          rw [h, min_eq_left h1]
        · right
          refine ⟨c, List.mem_cons_self _ _, ?_⟩
          rw [hp, h, min_eq_right h1]
      · exact Or.inr ⟨d, List.mem_cons_of_mem _ hd, hdr⟩

/-- Plain minimax returns, and its value lies between the extreme leaf scores
reachable from the node. -/
theorem plainFuel_bounds (fuel : Nat) :
    ∀ (board : Board) (depth : Int) (isMaximizing : Bool) (difficulty : Int),
      countEmpty board < fuel → 0 ≤ depth → depth + countEmpty board ≤ 1000 →
      ∃ p, plainFuel fuel board depth isMaximizing difficulty = some p ∧
        min (depth - 10) (10 - depth - countEmpty board) ≤ p ∧
        p ≤ max (10 - depth) (depth + countEmpty board - 10) := by
  induction fuel with
  | zero => intro board _ _ _ h; omega
  | succ fuel ih =>
    intro board depth isMaximizing difficulty hfuel hd0 hd1
    unfold plainFuel
    split_ifs with h1 h2 h3 h4 h5 h6
    · exact ⟨_, rfl, by omega, by omega⟩
    · exact ⟨_, rfl, by omega, by omega⟩
    · exact ⟨_, rfl, by omega, by omega⟩
    · exact ⟨_, rfl, by omega, by omega⟩
    · exact ⟨_, rfl, by omega, by omega⟩
    · have hch : ∀ c ∈ emptyCells board, ∃ p,
          plainFuel fuel (setCell board c.1 c.2 PLAYER_O) (depth + 1) false difficulty = some p ∧
          min (depth - 10) (10 - depth - countEmpty board) ≤ p ∧
          p ≤ max (10 - depth) (depth + countEmpty board - 10) := by
        intro c hc
        have hcell := (mem_emptyCells board c).mp hc
        have hcnt := countEmpty_setCell board c.1 c.2 PLAYER_O hcell PLAYER_O_ne_EMPTY
        obtain ⟨p, hp, hlo, hhi⟩ := ih (setCell board c.1 c.2 PLAYER_O) (depth + 1) false
          difficulty (by omega) (by omega) (by omega)
        exact ⟨p, hp, by omega, by omega⟩
      obtain ⟨r, hr, hle, hall, hex⟩ := maxOver_spec _ (emptyCells board)
        (fun c hc => (hch c hc).imp (fun _ h => h.1)) INT_MIN
      obtain ⟨c0, hc0⟩ := exists_empty_of_not_full board h3
      obtain ⟨p0, hp0, hlo0, hhi0⟩ := hch c0 hc0
      have h7 := hall c0 hc0 p0 hp0
      refine ⟨r, hr, by omega, ?_⟩
      rcases hex with h | ⟨c, hc, hcr⟩
      · unfold INT_MIN at h; omega
      · obtain ⟨p, hp, hlo, hhi⟩ := hch c hc
        rw [hp] at hcr
        have : p = r := Option.some.inj hcr
        omega
    · have hch : ∀ c ∈ emptyCells board, ∃ p,
          plainFuel fuel (setCell board c.1 c.2 PLAYER_X) (depth + 1) true difficulty = some p ∧
          min (depth - 10) (10 - depth - countEmpty board) ≤ p ∧
          p ≤ max (10 - depth) (depth + countEmpty board - 10) := by
        intro c hc
        have hcell := (mem_emptyCells board c).mp hc
        have hcnt := countEmpty_setCell board c.1 c.2 PLAYER_X hcell PLAYER_X_ne_EMPTY
        obtain ⟨p, hp, hlo, hhi⟩ := ih (setCell board c.1 c.2 PLAYER_X) (depth + 1) true
          difficulty (by omega) (by omega) (by omega)
        exact ⟨p, hp, by omega, by omega⟩
      obtain ⟨r, hr, hle, hall, hex⟩ := minOver_spec _ (emptyCells board)
        (fun c hc => (hch c hc).imp (fun _ h => h.1)) INT_MAX
      obtain ⟨c0, hc0⟩ := exists_empty_of_not_full board h3
      obtain ⟨p0, hp0, hlo0, hhi0⟩ := hch c0 hc0
      have h7 := hall c0 hc0 p0 hp0
      refine ⟨r, hr, ?_, by omega⟩
      rcases hex with h | ⟨c, hc, hcr⟩
      · unfold INT_MAX at h; omega
      · obtain ⟨p, hp, hlo, hhi⟩ := hch c hc
        rw [hp] at hcr
        have : p = r := Option.some.inj hcr
        omega

/-- With the full window the search result is the plain minimax value. -/
theorem minimaxFuel_full_window (fuel : Nat) (board : Board) (depth : Int)
    (isMaximizing : Bool) (difficulty : Int) (hfuel : countEmpty board < fuel)
    (hd0 : 0 ≤ depth) (hd1 : depth + countEmpty board ≤ 1000) :
    ∃ v, minimaxFuel fuel board depth isMaximizing INT_MIN INT_MAX difficulty = some (v, board) ∧
      plainFuel fuel board depth isMaximizing difficulty = some v := by
  obtain ⟨e, p, he, hp, hc⟩ := minimaxFuel_clamp fuel board depth isMaximizing INT_MIN INT_MAX
    difficulty hfuel (le_refl _) (le_refl _) (by decide)
  obtain ⟨q, hq, hlo, hhi⟩ := plainFuel_bounds fuel board depth isMaximizing difficulty hfuel
    hd0 hd1
  rw [hp] at hq
  have hpq : p = q := Option.some.inj hq
  have hcnt := countEmpty_le board
  unfold Clamp INT_MIN INT_MAX at hc
  have hep : p = e := by omega
  rw [hep] at hp
  exact ⟨e, he, hp⟩
theorem moveScore_spec (board : Board) (difficulty : Int) (c : Fin 3 × Fin 3) :
    ∃ s, minimax (setCell board c.1 c.2 PLAYER_O) 0 false INT_MIN INT_MAX difficulty =
        some (s, setCell board c.1 c.2 PLAYER_O) ∧
      moveScore board difficulty c = some s ∧
      plainMinimax (setCell board c.1 c.2 PLAYER_O) 0 false difficulty = some s ∧
      -10 ≤ s ∧ s ≤ 10 := by
  have hcnt := countEmpty_le (setCell board c.1 c.2 PLAYER_O)
  obtain ⟨v, hv, hp⟩ := minimaxFuel_full_window 10 (setCell board c.1 c.2 PLAYER_O) 0 false
    difficulty (by omega) (le_refl _) (by omega)
  obtain ⟨q, hq, hlo, hhi⟩ := plainFuel_bounds 10 (setCell board c.1 c.2 PLAYER_O) 0 false
    difficulty (by omega) (le_refl _) (by omega)
  rw [hp] at hq
  have hvq : v = q := Option.some.inj hq
  refine ⟨v, hv, ?_, hp, by omega, by omega⟩
  simp only [moveScore, minimax, hv]
  rfl

theorem bestOver_append (score : Fin 3 × Fin 3 → Option Int) (l1 l2 : List (Fin 3 × Fin 3)) :
    ∀ st st1, bestOver score l1 st = some st1 →
      bestOver score (l1 ++ l2) st = bestOver score l2 st1 := by
  induction l1 with
  | nil => intro st st1 h; simp only [bestOver, Option.some.injEq] at h; simp [h]
  | cons c cs ih =>
    intro st st1 h
    simp only [List.cons_append, bestOver] at h ⊢
    cases hc : score c with
    | none => simp [hc] at h
    | some e =>
      simp only [hc] at h ⊢
      split_ifs at h ⊢ with h1
      · exact ih _ _ h
      · exact ih _ _ h

theorem aiInner_eq (board : Board) (difficulty : Int) (i : Fin 3) (js : List (Fin 3)) :
    ∀ bs br bc, ∃ st, aiInnerFuel 10 difficulty i js board bs br bc = some (board, st) ∧
      bestOver (moveScore board difficulty) (rowEmpty board i js) (bs, br, bc) = some st := by
  induction js with
  | nil => intro bs br bc; exact ⟨_, rfl, rfl⟩
  | cons j js ih =>
    intro bs br bc
    by_cases hcell : board i j = EMPTY
    · obtain ⟨s, hs, hm, -, -, -⟩ := moveScore_spec board difficulty (i, j)
      rw [rowEmpty_cons_pos board i j js hcell]
      have hs1 : minimaxFuel 10 (setCell board i j PLAYER_O) 0 false INT_MIN INT_MAX
          difficulty = some (s, setCell board i j PLAYER_O) := hs
      simp only [aiInnerFuel, hcell, if_true, hs1, setCell_undo board i j PLAYER_O hcell,
        bestOver, hm]
      split_ifs with h1
      · exact ih _ _ _
      · exact ih _ _ _
    · rw [rowEmpty_cons_neg board i j js hcell]
      simp only [aiInnerFuel, hcell, if_false]
      exact ih _ _ _

theorem aiOuter_eq (board : Board) (difficulty : Int) (bs br bc : Int) :
    ∃ st, aiOuter difficulty [0, 1, 2] board bs br bc = some (board, st) ∧
      bestOver (moveScore board difficulty) (emptyCells board) (bs, br, bc) = some st := by
  obtain ⟨s0, h0, q0⟩ := aiInner_eq board difficulty 0 [0, 1, 2] bs br bc
  obtain ⟨s1, h1, q1⟩ := aiInner_eq board difficulty 1 [0, 1, 2] s0.1 s0.2.1 s0.2.2
  obtain ⟨s2, h2, q2⟩ := aiInner_eq board difficulty 2 [0, 1, 2] s1.1 s1.2.1 s1.2.2
  refine ⟨s2, ?_, ?_⟩
  · simp only [aiOuter, aiOuterFuel, h0, h1, h2]
  · rw [emptyCells_rows, bestOver_append _ _ _ _ _ q0, bestOver_append _ _ _ _ _ q1, q2]

/-- The bookkeeping keeps the first candidate of maximal score, provided some
candidate beats the initial score. -/
theorem bestOver_spec (score : Fin 3 × Fin 3 → Option Int) (l : List (Fin 3 × Fin 3))
    (hf : ∀ c ∈ l, ∃ p, score c = some p) :
    ∀ st, ∃ st1, bestOver score l st = some st1 ∧
      ((st1 = st ∧ ∀ d ∈ l, ∀ t, score d = some t → t ≤ st.1) ∨
       (∃ l1 c l2, l = l1 ++ c :: l2 ∧ score c = some st1.1 ∧
          st1.2 = ((c.1.val : Int), (c.2.val : Int)) ∧ st.1 < st1.1 ∧
          (∀ d ∈ l1, ∀ t, score d = some t → t < st1.1) ∧
          (∀ d ∈ l2, ∀ t, score d = some t → t ≤ st1.1))) := by
  induction l with
  | nil => intro st; exact ⟨st, rfl, Or.inl ⟨rfl, by simp⟩⟩
  | cons c cs ih =>
    intro st
    obtain ⟨p, hp⟩ := hf c (List.mem_cons_self _ _)
    have hf2 : ∀ d ∈ cs, ∃ p, score d = some p := fun d hd => hf d (List.mem_cons_of_mem _ hd)
    simp only [bestOver, hp]
    split_ifs with h1
    · obtain ⟨st1, hst1, hcase⟩ := ih hf2 (p, (c.1.val : Int), (c.2.val : Int))
      refine ⟨st1, hst1, Or.inr ?_⟩
      rcases hcase with ⟨heq, hall⟩ | ⟨l1, c1, l2, hl, hsc, hpos, hlt, hbefore, hafter⟩
      · refine ⟨[], c, cs, rfl, ?_, ?_, ?_, by simp, ?_⟩
        · rw [heq]; exact hp
        · rw [heq]
        · rw [heq]; exact h1
        · intro d hd t ht
          rw [heq]
          exact hall d hd t ht
      · refine ⟨c :: l1, c1, l2, by rw [hl]; rfl, hsc, hpos, ?_, ?_, hafter⟩
        · simp only at hlt; omega
        · intro d hd t ht
          rcases List.mem_cons.mp hd with rfl | hd
          · rw [hp] at ht
            have : p = t := Option.some.inj ht
            simp only at hlt
            omega
          · exact hbefore d hd t ht
    · obtain ⟨st1, hst1, hcase⟩ := ih hf2 st
      refine ⟨st1, hst1, ?_⟩
      rcases hcase with ⟨heq, hall⟩ | ⟨l1, c1, l2, hl, hsc, hpos, hlt, hbefore, hafter⟩
      · left
        refine ⟨heq, ?_⟩
        intro d hd t ht
        rcases List.mem_cons.mp hd with rfl | hd
        · rw [hp] at ht
          have : p = t := Option.some.inj ht
          omega
        · exact hall d hd t ht
      · right
        refine ⟨c :: l1, c1, l2, by rw [hl]; rfl, hsc, hpos, hlt, ?_, hafter⟩
        intro d hd t ht
        rcases List.mem_cons.mp hd with rfl | hd
        · rw [hp] at ht
          have : p = t := Option.some.inj ht
          omega
        · exact hbefore d hd t ht

theorem allCells_sorted : allCells.Pairwise rowMajorLt := by
  unfold allCells rowMajorLt
  decide

theorem emptyCells_sorted (board : Board) : (emptyCells board).Pairwise rowMajorLt :=
  List.Pairwise.filter _ allCells_sorted

theorem toIndex_val (i : Fin 3) : toIndex (i.val : Int) = some i := by
  unfold toIndex
  have h : (0 : Int) ≤ (i.val : Int) ∧ (i.val : Int) < 3 := by omega
  rw [dif_pos h]
  congr 1

/-- For a difficulty other than Easy and a board with an empty cell, `aiMove`
writes `O` on the first cell of `emptyCells board` whose score is maximal. -/
theorem aiMove_search (r : Nat) (board : Board) (difficulty : Int) (hd : difficulty ≠ 1)
    (hne : ∃ c : Fin 3 × Fin 3, board c.1 c.2 = EMPTY) :
    ∃ l1 c l2 s, emptyCells board = l1 ++ c :: l2 ∧
      moveScore board difficulty c = some s ∧
      aiMove r board difficulty = some (setCell board c.1 c.2 PLAYER_O) ∧
      (∀ d ∈ l1, ∀ t, moveScore board difficulty d = some t → t < s) ∧
      (∀ d ∈ l2, ∀ t, moveScore board difficulty d = some t → t ≤ s) := by
  obtain ⟨st, hst, hbest⟩ := aiOuter_eq board difficulty INT_MIN (-1) (-1)
  have hf : ∀ c ∈ emptyCells board, ∃ p, moveScore board difficulty c = some p := by
    intro c _
    obtain ⟨s, -, hs, -⟩ := moveScore_spec board difficulty c
    exact ⟨s, hs⟩
  obtain ⟨st1, hst1, hcase⟩ := bestOver_spec _ _ hf (INT_MIN, -1, -1)
  rw [hbest] at hst1
  have hEq : st = st1 := Option.some.inj hst1
  subst hEq
  rcases hcase with ⟨-, hall⟩ | ⟨l1, c, l2, hl, hsc, hpos, -, hbefore, hafter⟩
  · exfalso
    obtain ⟨c, hc⟩ := hne
    obtain ⟨s, -, hs, -, hlo, -⟩ := moveScore_spec board difficulty c
    have := hall c ((mem_emptyCells board c).mpr hc) s hs
    simp only [INT_MIN] at this
    omega
  · refine ⟨l1, c, l2, st.1, hl, hsc, ?_, hbefore, hafter⟩
    obtain ⟨bs, br, bc⟩ := st
    simp only [Prod.mk.injEq] at hpos
    have hst1 : aiOuterFuel 10 difficulty [0, 1, 2] board INT_MIN (-1) (-1) =
        some (board, bs, br, bc) := hst
    simp only [aiMove, aiMoveFuel, hd, if_false, hst1, hpos.1, hpos.2, toIndex_val]
theorem rowMajorLe_of_lt (c d : Fin 3 × Fin 3) (h : rowMajorLt c d) : rowMajorLe c d := by
  unfold rowMajorLt at h
  unfold rowMajorLe
  rcases h with h | ⟨h1, h2⟩
  · exact Or.inl h
  · exact Or.inr ⟨h1, le_of_lt h2⟩

/-- The cell chosen by `aiMove` together with the comparison of its score with
the score of every other empty cell. -/
theorem aiMove_choice (r : Nat) (board : Board) (difficulty : Int) (hd : difficulty ≠ 1)
    (hne : ∃ c : Fin 3 × Fin 3, board c.1 c.2 = EMPTY) :
    ∃ c s, board c.1 c.2 = EMPTY ∧ moveScore board difficulty c = some s ∧
      aiMove r board difficulty = some (setCell board c.1 c.2 PLAYER_O) ∧
      ∀ d, board d.1 d.2 = EMPTY →
        ∃ t, moveScore board difficulty d = some t ∧ t ≤ s ∧ (t = s → rowMajorLe c d) := by
  obtain ⟨l1, c, l2, s, hl, hs, hmove, hbefore, hafter⟩ := aiMove_search r board difficulty hd hne
  have hsorted := emptyCells_sorted board
  rw [hl, List.pairwise_append] at hsorted
  obtain ⟨-, hcl2, -⟩ := hsorted
  rw [List.pairwise_cons] at hcl2
  have hcmem : c ∈ emptyCells board := by rw [hl]; simp
  refine ⟨c, s, (mem_emptyCells board c).mp hcmem, hs, hmove, ?_⟩
  intro d hdE
  obtain ⟨t, -, ht, -⟩ := moveScore_spec board difficulty d
  have hdmem : d ∈ l1 ++ c :: l2 := by rw [← hl]; exact (mem_emptyCells board d).mpr hdE
  refine ⟨t, ht, ?_⟩
  rcases List.mem_append.mp hdmem with h1 | h2
  · have := hbefore d h1 t ht
    exact ⟨by omega, fun h => by omega⟩
  · rcases List.mem_cons.mp h2 with rfl | h3
    · rw [hs] at ht
      have hst : s = t := Option.some.inj ht
      refine ⟨by omega, fun _ => ?_⟩
      unfold rowMajorLe
      exact Or.inr ⟨rfl, le_refl _⟩
    · have := hafter d h3 t ht
      exact ⟨this, fun _ => rowMajorLe_of_lt c d (hcl2.1 d h3)⟩

theorem plainFuel_succ_min (fuel : Nat) (board : Board) (depth difficulty : Int)
    (h1 : ¬ checkWin board PLAYER_O = true) (h2 : ¬ checkWin board PLAYER_X = true)
    (h3 : ¬ isBoardFull board = true) (h4 : ¬ (difficulty = 1 ∧ depth ≥ 1))
    (h5 : ¬ (difficulty = 2 ∧ depth ≥ 2)) :
    plainFuel (fuel + 1) board depth false difficulty =
      minOver (fun c => plainFuel fuel (setCell board c.1 c.2 PLAYER_X) (depth + 1) true
        difficulty) (emptyCells board) INT_MAX := by
  rw [plainFuel]
  simp only [h1, h2, h3, h4, h5, if_false, Bool.false_eq_true]

theorem plainFuel_succ_max (fuel : Nat) (board : Board) (depth difficulty : Int)
    (h1 : ¬ checkWin board PLAYER_O = true) (h2 : ¬ checkWin board PLAYER_X = true)
    (h3 : ¬ isBoardFull board = true) (h4 : ¬ (difficulty = 1 ∧ depth ≥ 1))
    (h5 : ¬ (difficulty = 2 ∧ depth ≥ 2)) :
    plainFuel (fuel + 1) board depth true difficulty =
      maxOver (fun c => plainFuel fuel (setCell board c.1 c.2 PLAYER_O) (depth + 1) false
        difficulty) (emptyCells board) INT_MIN := by
  rw [plainFuel]
  simp only [h1, h2, h3, h4, h5, if_false, if_true, Bool.false_eq_true]

/-- Totality of plain minimax on the children of a node. -/
theorem plainFuel_children (fuel : Nat) (board : Board) (mark : Char) (hm : mark ≠ EMPTY)
    (depth : Int) (isMaximizing : Bool) (difficulty : Int) (hfuel : countEmpty board < fuel + 1)
    (hd0 : 0 ≤ depth) (hd1 : depth + countEmpty board ≤ 1000) :
    ∀ c ∈ emptyCells board, ∃ p,
      plainFuel fuel (setCell board c.1 c.2 mark) (depth + 1) isMaximizing difficulty = some p ∧
      min (depth - 9) (10 - depth - countEmpty board) ≤ p ∧
      p ≤ max (9 - depth) (depth + countEmpty board - 10) := by
  intro c hc
  have hcell := (mem_emptyCells board c).mp hc
  have hcnt := countEmpty_setCell board c.1 c.2 mark hcell hm
  obtain ⟨p, hp, hlo, hhi⟩ := plainFuel_bounds fuel (setCell board c.1 c.2 mark) (depth + 1)
    isMaximizing difficulty (by omega) (by omega) (by omega)
  exact ⟨p, hp, by omega, by omega⟩

/-- The five ways in which one call of plain minimax produces its value. -/
theorem plainFuel_succ_cases (fuel : Nat) (board : Board) (depth : Int) (isMaximizing : Bool)
    (difficulty p : Int)
    (hp : plainFuel (fuel + 1) board depth isMaximizing difficulty = some p) :
    (checkWin board PLAYER_O = true ∧ p = 10 - depth) ∨
    (¬ checkWin board PLAYER_O = true ∧ checkWin board PLAYER_X = true ∧ p = depth - 10) ∨
    (¬ checkWin board PLAYER_O = true ∧ ¬ checkWin board PLAYER_X = true ∧ p = 0 ∧
      (isBoardFull board = true ∨ (difficulty = 1 ∧ depth ≥ 1) ∨
        (difficulty = 2 ∧ depth ≥ 2))) ∨
    (¬ checkWin board PLAYER_O = true ∧ ¬ checkWin board PLAYER_X = true ∧
      ¬ isBoardFull board = true ∧ ¬ (difficulty = 1 ∧ depth ≥ 1) ∧
      ¬ (difficulty = 2 ∧ depth ≥ 2) ∧
      ((isMaximizing = true ∧
        maxOver (fun c => plainFuel fuel (setCell board c.1 c.2 PLAYER_O) (depth + 1) false
          difficulty) (emptyCells board) INT_MIN = some p) ∨
       (isMaximizing = false ∧
        minOver (fun c => plainFuel fuel (setCell board c.1 c.2 PLAYER_X) (depth + 1) true
          difficulty) (emptyCells board) INT_MAX = some p))) := by
  rw [plainFuel] at hp
  split_ifs at hp with h1 h2 h3 h4 h5 h6
  · exact Or.inl ⟨h1, (Option.some.inj hp).symm⟩
  · exact Or.inr (Or.inl ⟨h1, h2, (Option.some.inj hp).symm⟩)
  · exact Or.inr (Or.inr (Or.inl ⟨h1, h2, (Option.some.inj hp).symm, Or.inl h3⟩))
  · exact Or.inr (Or.inr (Or.inl ⟨h1, h2, (Option.some.inj hp).symm, Or.inr (Or.inl h4)⟩))
  · exact Or.inr (Or.inr (Or.inl ⟨h1, h2, (Option.some.inj hp).symm, Or.inr (Or.inr h5)⟩))
  · exact Or.inr (Or.inr (Or.inr ⟨h1, h2, h3, h4, h5, Or.inl ⟨h6, hp⟩⟩))
  · exact Or.inr (Or.inr (Or.inr ⟨h1, h2, h3, h4, h5, Or.inr ⟨by simpa using h6, hp⟩⟩))

/-- A move that does not complete an `O` line scores at most 9. -/
theorem moveScore_le_nine (board : Board) (difficulty : Int) (c : Fin 3 × Fin 3) (s : Int)
    (hs : moveScore board difficulty c = some s)
    (hw : ¬ checkWin (setCell board c.1 c.2 PLAYER_O) PLAYER_O = true) : s ≤ 9 := by
  obtain ⟨s1, -, hs1, hp, -, -⟩ := moveScore_spec board difficulty c
  rw [hs] at hs1
  have hss : s = s1 := Option.some.inj hs1
  subst hss
  have hcnt := countEmpty_le (setCell board c.1 c.2 PLAYER_O)
  unfold plainMinimax at hp
  rcases plainFuel_succ_cases 9 _ _ _ _ _ hp with h | h | h | ⟨-, -, h3, -, -, h | h⟩
  · exact absurd h.1 hw
  · omega
  · omega
  · exact absurd h.1 (by simp)
  · have hch := plainFuel_children 9 (setCell board c.1 c.2 PLAYER_O) PLAYER_X
      PLAYER_X_ne_EMPTY 0 true difficulty (by omega) (le_refl _) (by omega)
    obtain ⟨r, hr, -, hall, -⟩ := minOver_spec _ _ (fun d hd => (hch d hd).imp (fun _ h => h.1))
      INT_MAX
    obtain ⟨c0, hc0⟩ := exists_empty_of_not_full _ h3
    obtain ⟨p0, hp0, -, hhi0⟩ := hch c0 hc0
    have h7 := hall c0 hc0 p0 hp0
    rw [hr] at h
    have := Option.some.inj h.2
    omega

/-- A move that completes an `O` line scores 10. -/
theorem moveScore_win (board : Board) (difficulty : Int) (c : Fin 3 × Fin 3)
    (hw : checkWin (setCell board c.1 c.2 PLAYER_O) PLAYER_O = true) :
    moveScore board difficulty c = some 10 := by
  simp [moveScore, minimax, minimaxFuel, hw]
theorem checkWin_congr (b1 b2 : Board) (p : Char) (h : ∀ r c, b1 r c = p ↔ b2 r c = p) :
    checkWin b1 p = checkWin b2 p := by
  rw [Bool.eq_iff_iff, checkWin_iff, checkWin_iff]
  simp only [h]

/-- Writing a character other than `p` over a cell that does not hold `p`
leaves the lines of `p` as they are. -/
theorem checkWin_setCell_other (board : Board) (i j : Fin 3) (v p : Char)
    (h1 : board i j ≠ p) (h2 : v ≠ p) :
    checkWin (setCell board i j v) p = checkWin board p := by
  apply checkWin_congr
  intro r c
  simp only [setCell]
  split_ifs with h
  · obtain ⟨rfl, rfl⟩ := h
    exact ⟨fun h3 => absurd h3 h2, fun h3 => absurd h3 h1⟩
  · exact Iff.rfl

theorem EMPTY_ne_PLAYER_X : EMPTY ≠ PLAYER_X := by decide
theorem EMPTY_ne_PLAYER_O : EMPTY ≠ PLAYER_O := by decide
theorem PLAYER_O_ne_PLAYER_X : PLAYER_O ≠ PLAYER_X := by decide
theorem PLAYER_X_ne_PLAYER_O : PLAYER_X ≠ PLAYER_O := by decide

/-- Medium difficulty: the plain value of a position with `X` to move at depth 0
is not negative when `X` has no line yet and no single `X` move completes one. -/
theorem medium_value_nonneg (b1 : Board) (t : Int)
    (hX : ¬ checkWin b1 PLAYER_X = true)
    (hsafe : ∀ x : Fin 3 × Fin 3, b1 x.1 x.2 = EMPTY →
      checkWin (setCell b1 x.1 x.2 PLAYER_X) PLAYER_X = false)
    (ht : plainFuel 10 b1 0 false 2 = some t) : 0 ≤ t := by
  have hcnt1 := countEmpty_le b1
  rcases plainFuel_succ_cases 9 _ _ _ _ _ ht with h | h | h | ⟨-, -, h3, -, -, h | h⟩
  · omega
  · exact absurd h.2.1 hX
  · omega
  · exact absurd h.1 (by simp)
  · have hch := plainFuel_children 9 b1 PLAYER_X PLAYER_X_ne_EMPTY 0 true 2 (by omega)
      (le_refl _) (by omega)
    obtain ⟨r, hr, -, -, hex⟩ := minOver_spec _ _ (fun d hd => (hch d hd).imp (fun _ h => h.1))
      INT_MAX
    rw [hr] at h
    have hrt : r = t := Option.some.inj h.2
    subst hrt
    rcases hex with hmax | ⟨x, hx, hxr⟩
    · rw [hmax]; decide
    · have hxE := (mem_emptyCells b1 x).mp hx
      have hX2 := hsafe x hxE
      have hcnt2 := countEmpty_setCell b1 x.1 x.2 PLAYER_X hxE PLAYER_X_ne_EMPTY
      simp only [zero_add] at hxr
      rcases plainFuel_succ_cases 8 _ _ _ _ _ hxr with g | g | g | ⟨-, -, g3, -, -, g | g⟩
      · omega
      · rw [hX2] at g; exact absurd g.2.1 (by simp)
      · omega
      · have hch2 := plainFuel_children 8 (setCell b1 x.1 x.2 PLAYER_X) PLAYER_O
          PLAYER_O_ne_EMPTY 1 false 2 (by omega) (by omega) (by omega)
        obtain ⟨r2, hr2, -, hall2, -⟩ := maxOver_spec _ _
          (fun d hd => (hch2 d hd).imp (fun _ h => h.1)) INT_MIN
        rw [hr2] at g
        have hrt2 : r2 = r := Option.some.inj g.2
        subst hrt2
        obtain ⟨y, hy⟩ := exists_empty_of_not_full _ g3
        obtain ⟨q, hq, -, -⟩ := hch2 y hy
        have hle := hall2 y hy q hq
        have hyE := (mem_emptyCells _ y).mp hy
        have hX3 : checkWin (setCell (setCell b1 x.1 x.2 PLAYER_X) y.1 y.2 PLAYER_O) PLAYER_X =
            false := by
          rw [checkWin_setCell_other _ _ _ _ _ (by rw [hyE]; exact EMPTY_ne_PLAYER_X)
            PLAYER_O_ne_PLAYER_X]
          exact hX2
        have hq2 : (1 : Int) + 1 = 2 := rfl
        rw [hq2] at hq
        rcases plainFuel_succ_cases 7 _ _ _ _ _ hq with k | k | k | ⟨-, -, -, -, k5, -⟩
        · omega
        · rw [hX3] at k; exact absurd k.2.1 (by simp)
        · omega
        · exact absurd ⟨rfl, le_refl _⟩ k5
      · exact absurd g.1 (by simp)

/-- Medium difficulty: a move after which `X` can complete a line at once, and
which does not complete an `O` line itself, has a negative plain value. -/
theorem medium_value_neg (b1 : Board) (s : Int) (x : Fin 3 × Fin 3)
    (hO : ¬ checkWin b1 PLAYER_O = true) (hX : ¬ checkWin b1 PLAYER_X = true)
    (hx : b1 x.1 x.2 = EMPTY)
    (hxw : checkWin (setCell b1 x.1 x.2 PLAYER_X) PLAYER_X = true)
    (hs : plainFuel 10 b1 0 false 2 = some s) : s < 0 := by
  have hcnt1 := countEmpty_le b1
  rcases plainFuel_succ_cases 9 _ _ _ _ _ hs with h | h | h | ⟨-, -, h3, -, -, h | h⟩
  · exact absurd h.1 hO
  · exact absurd h.2.1 hX
  · rcases h.2.2.2 with hf | hc | hc
    · exact absurd hx ((isBoardFull_iff b1).mp hf x.1 x.2)
    · omega
    · omega
  · exact absurd h.1 (by simp)
  · have hch := plainFuel_children 9 b1 PLAYER_X PLAYER_X_ne_EMPTY 0 true 2 (by omega)
      (le_refl _) (by omega)
    obtain ⟨r, hr, -, hall, -⟩ := minOver_spec _ _ (fun d hd => (hch d hd).imp (fun _ h => h.1))
      INT_MAX
    rw [hr] at h
    have hrt : r = s := Option.some.inj h.2
    subst hrt
    have hO2 : checkWin (setCell b1 x.1 x.2 PLAYER_X) PLAYER_O = false := by
      rw [checkWin_setCell_other _ _ _ _ _ (by rw [hx]; exact EMPTY_ne_PLAYER_O)
        PLAYER_X_ne_PLAYER_O]
      simpa using hO
    have hval : plainFuel 9 (setCell b1 x.1 x.2 PLAYER_X) (0 + 1) true 2 = some (-9) := by
      rw [show (9 : Nat) = 8 + 1 from rfl, plainFuel]
      simp [hO2, hxw]
    have := hall x ((mem_emptyCells b1 x).mpr hx) (-9) hval
    omega
theorem cellChar_eq_EMPTY (c : Cell) : cellChar c = EMPTY ↔ c = Cell.E := by
  cases c <;> simp [cellChar] <;> decide

theorem cellChar_eq_O (c : Cell) : cellChar c = PLAYER_O ↔ c = Cell.O := by
  cases c <;> simp [cellChar] <;> decide

theorem cellChar_eq_X (c : Cell) : cellChar c = PLAYER_X ↔ c = Cell.X := by
  cases c <;> simp [cellChar] <;> decide

theorem toBoard_apply (f : FB) (i j : Fin 3) : toBoard f i j = cellChar (f.get i j) := by
  rcases f with ⟨a, b, c, d, e, u, v, w, x⟩
  fin_cases i <;> fin_cases j <;> rfl

theorem FB.get_set (f : FB) (i j r s : Fin 3) (m : Cell) :
    (f.set i j m).get r s = if r = i ∧ s = j then m else f.get r s := by
  rcases f with ⟨a, b, c, d, e, u, v, w, x⟩
  fin_cases i <;> fin_cases j <;> fin_cases r <;> fin_cases s <;> rfl

theorem toBoard_set (f : FB) (i j : Fin 3) (m : Cell) :
    toBoard (f.set i j m) = setCell (toBoard f) i j (cellChar m) := by
  funext r c
  rw [toBoard_apply, setCell, toBoard_apply, FB.get_set]
  split_ifs <;> rfl

theorem exists_fin3 (P : Fin 3 → Prop) : (∃ i, P i) ↔ P 0 ∨ P 1 ∨ P 2 := by
  constructor
  · rintro ⟨i, hi⟩
    fin_cases i
    · exact Or.inl hi
    · exact Or.inr (Or.inl hi)
    · exact Or.inr (Or.inr hi)
  · rintro (h | h | h)
    · exact ⟨0, h⟩
    · exact ⟨1, h⟩
    · exact ⟨2, h⟩

theorem forall_fin3 (P : Fin 3 → Prop) : (∀ i, P i) ↔ P 0 ∧ P 1 ∧ P 2 := by
  constructor
  · intro h; exact ⟨h 0, h 1, h 2⟩
  · rintro ⟨h0, h1, h2⟩ i
    fin_cases i
    · exact h0
    · exact h1
    · exact h2

theorem lineO_iff (a b c : Cell) (rest : Bool) :
    lineO a b c rest = true ↔ (a = Cell.O ∧ b = Cell.O ∧ c = Cell.O) ∨ rest = true := by
  cases a <;> cases b <;> cases c <;> simp [lineO]

theorem lineX_iff (a b c : Cell) (rest : Bool) :
    lineX a b c rest = true ↔ (a = Cell.X ∧ b = Cell.X ∧ c = Cell.X) ∨ rest = true := by
  cases a <;> cases b <;> cases c <;> simp [lineX]

theorem FB.get_mk (a b c d e u v w x : Cell) :
    (FB.mk a b c d e u v w x).get 0 0 = a ∧ (FB.mk a b c d e u v w x).get 0 1 = b ∧
    (FB.mk a b c d e u v w x).get 0 2 = c ∧ (FB.mk a b c d e u v w x).get 1 0 = d ∧
    (FB.mk a b c d e u v w x).get 1 1 = e ∧ (FB.mk a b c d e u v w x).get 1 2 = u ∧
    (FB.mk a b c d e u v w x).get 2 0 = v ∧ (FB.mk a b c d e u v w x).get 2 1 = w ∧
    (FB.mk a b c d e u v w x).get 2 2 = x :=
  ⟨rfl, rfl, rfl, rfl, rfl, rfl, rfl, rfl, rfl⟩

theorem winO_eq (f : FB) : f.winO = checkWin (toBoard f) PLAYER_O := by
  rw [Bool.eq_iff_iff, checkWin_iff]
  simp only [toBoard_apply, cellChar_eq_O, exists_fin3]
  rcases f with ⟨a, b, c, d, e, u, v, w, x⟩
  obtain ⟨h00, h01, h02, h10, h11, h12, h20, h21, h22⟩ := FB.get_mk a b c d e u v w x
  simp only [h00, h01, h02, h10, h11, h12, h20, h21, h22, FB.winO, lineO_iff]
  simp only [Bool.false_eq_true, or_false, or_assoc]

theorem winX_eq (f : FB) : f.winX = checkWin (toBoard f) PLAYER_X := by
  rw [Bool.eq_iff_iff, checkWin_iff]
  simp only [toBoard_apply, cellChar_eq_X, exists_fin3]
  rcases f with ⟨a, b, c, d, e, u, v, w, x⟩
  obtain ⟨h00, h01, h02, h10, h11, h12, h20, h21, h22⟩ := FB.get_mk a b c d e u v w x
  simp only [h00, h01, h02, h10, h11, h12, h20, h21, h22, FB.winX, lineX_iff]
  simp only [Bool.false_eq_true, or_false, or_assoc]

theorem notE_iff (c : Cell) (rest : Bool) : notE c rest = true ↔ c ≠ Cell.E ∧ rest = true := by
  cases c <;> simp [notE]

theorem full_eq (f : FB) : f.full = isBoardFull (toBoard f) := by
  rw [Bool.eq_iff_iff, isBoardFull_iff]
  simp only [toBoard_apply, ne_eq, cellChar_eq_EMPTY, forall_fin3]
  rcases f with ⟨a, b, c, d, e, u, v, w, x⟩
  obtain ⟨h00, h01, h02, h10, h11, h12, h20, h21, h22⟩ := FB.get_mk a b c d e u v w x
  simp only [h00, h01, h02, h10, h11, h12, h20, h21, h22, FB.full, notE_iff]
  tauto
theorem emptyCells_toBoard (f : FB) : emptyCells (toBoard f) = f.emptyCells := by
  unfold emptyCells FB.emptyCells
  apply List.filter_congr
  intro c _
  simp only [toBoard_apply, cellChar_eq_EMPTY]

theorem maxOver_congr (f g : Fin 3 × Fin 3 → Option Int) (l : List (Fin 3 × Fin 3))
    (h : ∀ c ∈ l, f c = g c) : ∀ acc, maxOver f l acc = maxOver g l acc := by
  induction l with
  | nil => intro acc; rfl
  | cons c cs ih =>
    intro acc
    simp only [maxOver, h c (List.mem_cons_self _ _)]
    cases g c with
    | none => rfl
    | some e => exact ih (fun d hd => h d (List.mem_cons_of_mem _ hd)) _

theorem minOver_congr (f g : Fin 3 × Fin 3 → Option Int) (l : List (Fin 3 × Fin 3))
    (h : ∀ c ∈ l, f c = g c) : ∀ acc, minOver f l acc = minOver g l acc := by
  induction l with
  | nil => intro acc; rfl
  | cons c cs ih =>
    intro acc
    simp only [minOver, h c (List.mem_cons_self _ _)]
    cases g c with
    | none => rfl
    | some e => exact ih (fun d hd => h d (List.mem_cons_of_mem _ hd)) _

theorem maxOver_filter_cons (h : Fin 3 × Fin 3 → Int) (p : Fin 3 × Fin 3 → Bool)
    (c : Fin 3 × Fin 3) (l : List (Fin 3 × Fin 3)) (acc : Int) :
    maxOver (fun c => some (h c)) (List.filter p (c :: l)) acc =
      maxOver (fun c => some (h c)) (List.filter p l)
        (if p c = true then max acc (h c) else acc) := by
  by_cases hp : p c = true
  · simp only [List.filter_cons, hp, if_true, maxOver]
  · simp only [List.filter_cons, hp, if_false, Bool.false_eq_true]

theorem minOver_filter_cons (h : Fin 3 × Fin 3 → Int) (p : Fin 3 × Fin 3 → Bool)
    (c : Fin 3 × Fin 3) (l : List (Fin 3 × Fin 3)) (acc : Int) :
    minOver (fun c => some (h c)) (List.filter p (c :: l)) acc =
      minOver (fun c => some (h c)) (List.filter p l)
        (if p c = true then min acc (h c) else acc) := by
  by_cases hp : p c = true
  · simp only [List.filter_cons, hp, if_true, minOver]
  · simp only [List.filter_cons, hp, if_false, Bool.false_eq_true]

theorem pickMax_eq (g : FB → Int) (c : Cell) (acc : Int) (child : FB) :
    pickMax g c acc child = if c = Cell.E then max acc (g child) else acc := by
  cases c <;> simp [pickMax]

theorem pickMin_eq (g : FB → Int) (c : Cell) (acc : Int) (child : FB) :
    pickMin g c acc child = if c = Cell.E then min acc (g child) else acc := by
  cases c <;> simp [pickMin]

theorem FB.set_mk (a b c d e u v w x m : Cell) :
    (FB.mk a b c d e u v w x).set 0 0 m = ⟨m, b, c, d, e, u, v, w, x⟩ ∧
    (FB.mk a b c d e u v w x).set 0 1 m = ⟨a, m, c, d, e, u, v, w, x⟩ ∧
    (FB.mk a b c d e u v w x).set 0 2 m = ⟨a, b, m, d, e, u, v, w, x⟩ ∧
    (FB.mk a b c d e u v w x).set 1 0 m = ⟨a, b, c, m, e, u, v, w, x⟩ ∧
    (FB.mk a b c d e u v w x).set 1 1 m = ⟨a, b, c, d, m, u, v, w, x⟩ ∧
    (FB.mk a b c d e u v w x).set 1 2 m = ⟨a, b, c, d, e, m, v, w, x⟩ ∧
    (FB.mk a b c d e u v w x).set 2 0 m = ⟨a, b, c, d, e, u, m, w, x⟩ ∧
    (FB.mk a b c d e u v w x).set 2 1 m = ⟨a, b, c, d, e, u, v, m, x⟩ ∧
    (FB.mk a b c d e u v w x).set 2 2 m = ⟨a, b, c, d, e, u, v, w, m⟩ :=
  ⟨rfl, rfl, rfl, rfl, rfl, rfl, rfl, rfl, rfl⟩

theorem kidsMax_eq (f : FB) (g : FB → Int) (acc : Int) :
    maxOver (fun c => some (g (f.set c.1 c.2 Cell.O))) f.emptyCells acc =
      some (kidsMax f g acc) := by
  rcases f with ⟨a, b, c, d, e, u, v, w, x⟩
  obtain ⟨h00, h01, h02, h10, h11, h12, h20, h21, h22⟩ := FB.get_mk a b c d e u v w x
  obtain ⟨s00, s01, s02, s10, s11, s12, s20, s21, s22⟩ := FB.set_mk a b c d e u v w x Cell.O
  simp only [FB.emptyCells, allCells, maxOver_filter_cons, List.filter_nil, maxOver,
    h00, h01, h02, h10, h11, h12, h20, h21, h22, s00, s01, s02, s10, s11, s12, s20, s21, s22,
    decide_eq_true_eq, kidsMax, pickMax_eq]

theorem kidsMin_eq (f : FB) (g : FB → Int) (acc : Int) :
    minOver (fun c => some (g (f.set c.1 c.2 Cell.X))) f.emptyCells acc =
      some (kidsMin f g acc) := by
  rcases f with ⟨a, b, c, d, e, u, v, w, x⟩
  obtain ⟨h00, h01, h02, h10, h11, h12, h20, h21, h22⟩ := FB.get_mk a b c d e u v w x
  obtain ⟨s00, s01, s02, s10, s11, s12, s20, s21, s22⟩ := FB.set_mk a b c d e u v w x Cell.X
  simp only [FB.emptyCells, allCells, minOver_filter_cons, List.filter_nil, minOver,
    h00, h01, h02, h10, h11, h12, h20, h21, h22, s00, s01, s02, s10, s11, s12, s20, s21, s22,
    decide_eq_true_eq, kidsMin, pickMin_eq]

theorem plainF_succ (fuel : Nat) (f : FB) (depth : Int) (isMaximizing : Bool)
    (difficulty : Int) :
    plainF (fuel + 1) f depth isMaximizing difficulty =
      match f.winO with
      | true => 10 - depth
      | false =>
        match f.winX with
        | true => depth - 10
        | false =>
          match f.full with
          | true => 0
          | false =>
            if difficulty = 1 ∧ depth ≥ 1 then 0
            else if difficulty = 2 ∧ depth ≥ 2 then 0
            else
              match isMaximizing with
              | true => kidsMax f (fun ch => plainF fuel ch (depth + 1) false difficulty) INT_MIN
              | false => kidsMin f (fun ch => plainF fuel ch (depth + 1) true difficulty) INT_MAX :=
  rfl

/-- The evaluator on nine cells computes plain minimax of the board denoted. -/
theorem plainF_sound (fuel : Nat) :
    ∀ (f : FB) (depth : Int) (isMaximizing : Bool) (difficulty : Int),
      countEmpty (toBoard f) < fuel →
      plainFuel fuel (toBoard f) depth isMaximizing difficulty =
        some (plainF fuel f depth isMaximizing difficulty) := by
  induction fuel with
  | zero => intro f _ _ _ h; omega
  | succ fuel ih =>
    intro f depth isMaximizing difficulty hfuel
    rw [plainFuel, plainF_succ, ← winO_eq, ← winX_eq, ← full_eq]
    cases hO : f.winO
    · cases hX : f.winX
      · cases hF : f.full
        · simp only [Bool.false_eq_true, if_false]
          have hE : ∀ c ∈ emptyCells (toBoard f), toBoard f c.1 c.2 = EMPTY :=
            fun c hc => (mem_emptyCells _ c).mp hc
          split_ifs with h4 h5 h6
          · rfl
          · rfl
          · subst h6
            rw [maxOver_congr _ (fun c => some (plainF fuel (f.set c.1 c.2 Cell.O) (depth + 1)
              false difficulty)), emptyCells_toBoard]
            · exact kidsMax_eq f (fun ch => plainF fuel ch (depth + 1) false difficulty) INT_MIN
            · intro c hc
              have hcnt := countEmpty_setCell _ c.1 c.2 PLAYER_O (hE c hc) PLAYER_O_ne_EMPTY
              have := ih (f.set c.1 c.2 Cell.O) (depth + 1) false difficulty
                (by rw [toBoard_set]; simp only [cellChar]; omega)
              rw [toBoard_set] at this
              exact this
          · have h7 : isMaximizing = false := by simpa using h6
            subst h7
            rw [minOver_congr _ (fun c => some (plainF fuel (f.set c.1 c.2 Cell.X) (depth + 1)
              true difficulty)), emptyCells_toBoard]
            · exact kidsMin_eq f (fun ch => plainF fuel ch (depth + 1) true difficulty) INT_MAX
            · intro c hc
              have hcnt := countEmpty_setCell _ c.1 c.2 PLAYER_X (hE c hc) PLAYER_X_ne_EMPTY
              have := ih (f.set c.1 c.2 Cell.X) (depth + 1) true difficulty
                (by rw [toBoard_set]; simp only [cellChar]; omega)
              rw [toBoard_set] at this
              exact this
        · simp
      · simp
    · simp

theorem plainMinimax_toBoard (f : FB) (depth : Int) (isMaximizing : Bool) (difficulty : Int) :
    plainMinimax (toBoard f) depth isMaximizing difficulty =
      some (plainF 10 f depth isMaximizing difficulty) :=
  plainF_sound 10 f depth isMaximizing difficulty
    (by have := countEmpty_le (toBoard f); omega)

theorem moveScore_toBoard (f : FB) (difficulty : Int) (c : Fin 3 × Fin 3) :
    moveScore (toBoard f) difficulty c =
      some (plainF 10 (f.set c.1 c.2 Cell.O) 0 false difficulty) := by
  obtain ⟨s, -, hs, hp, -, -⟩ := moveScore_spec (toBoard f) difficulty c
  have h := plainMinimax_toBoard (f.set c.1 c.2 Cell.O) 0 false difficulty
  rw [toBoard_set] at h
  simp only [cellChar] at h
  rw [hp] at h
  rw [hs, h]

/-- On Medium and Hard, `aiMove` writes `O` on the cell computed by `aiCell`. -/
theorem aiMove_toBoard (r : Nat) (f : FB) (difficulty : Int) (hd : difficulty ≠ 1) :
    aiMove r (toBoard f) difficulty =
      (aiCell f difficulty).map (fun c => setCell (toBoard f) c.1 c.2 PLAYER_O) := by
  obtain ⟨st, hst, hbest⟩ := aiOuter_eq (toBoard f) difficulty INT_MIN (-1) (-1)
  have hfun : moveScore (toBoard f) difficulty =
      fun c => some (plainF 10 (f.set c.1 c.2 Cell.O) 0 false difficulty) := by
    funext c
    exact moveScore_toBoard f difficulty c
  rw [hfun, emptyCells_toBoard] at hbest
  have hst1 : aiOuterFuel 10 difficulty [0, 1, 2] (toBoard f) INT_MIN (-1) (-1) =
      some (toBoard f, st) := hst
  simp only [aiMove, aiMoveFuel, hd, if_false, hst1, aiCell, hbest]
  cases toIndex st.2.1 <;> cases toIndex st.2.2 <;> rfl
theorem toBoard_empty : toBoard FB.empty = emptyBoard := by
  funext i j
  fin_cases i <;> fin_cases j <;> rfl

/-- The loops of `aiMove` on a board given by nine cells. -/
theorem aiOuter_toBoard (f : FB) (difficulty : Int) :
    aiOuter difficulty [0, 1, 2] (toBoard f) INT_MIN (-1) (-1) =
      (bestOver (fun c => some (plainF 10 (f.set c.1 c.2 Cell.O) 0 false difficulty))
        f.emptyCells (INT_MIN, -1, -1)).map (fun st => (toBoard f, st)) := by
  obtain ⟨st, hst, hbest⟩ := aiOuter_eq (toBoard f) difficulty INT_MIN (-1) (-1)
  have hfun : moveScore (toBoard f) difficulty =
      fun c => some (plainF 10 (f.set c.1 c.2 Cell.O) 0 false difficulty) := by
    funext c
    exact moveScore_toBoard f difficulty c
  rw [hfun, emptyCells_toBoard] at hbest
  rw [hst, hbest]
  rfl

/-- Hard difficulty on the empty board: every first move of `O` has plain
value 0, and the first cell is the one selected. -/
theorem hard_empty_eval :
    (∀ c ∈ allCells, plainF 10 (FB.empty.set c.1 c.2 Cell.O) 0 false 3 = 0) ∧
      aiCell FB.empty 3 = some (0, 0) := by
  decide!

/-- Hard difficulty on the board `X - - / - X - / - - O`: the bookkeeping of
`aiMove` ends with score 0 at row 0, column 2. -/
theorem hard_diag_eval :
    bestOver (fun c => some (plainF 10
        ((FB.mk Cell.X Cell.E Cell.E Cell.E Cell.X Cell.E Cell.E Cell.E Cell.O).set c.1 c.2
          Cell.O) 0 false 3))
      (FB.mk Cell.X Cell.E Cell.E Cell.E Cell.X Cell.E Cell.E Cell.E Cell.O).emptyCells
      (INT_MIN, -1, -1) = some (0, 0, 2) := by
  decide!

theorem toBoard_diag :
    toBoard ⟨Cell.X, Cell.E, Cell.E, Cell.E, Cell.X, Cell.E, Cell.E, Cell.E, Cell.O⟩ =
      mkBoard 'X' '-' '-' '-' 'X' '-' '-' '-' 'O' := rfl

theorem hard_diag_move (r : Nat) :
    aiMove r (mkBoard 'X' '-' '-' '-' 'X' '-' '-' '-' 'O') 3 =
      some (setCell (mkBoard 'X' '-' '-' '-' 'X' '-' '-' '-' 'O') 0 2 PLAYER_O) := by
  rw [← toBoard_diag, aiMove_toBoard r _ 3 (by decide)]
  simp only [aiCell, hard_diag_eval]
  rfl

/-! ## The claims -/

/-- C1: for every board, every depth in 0..9, either role and every difficulty
(in particular 1, 2 and 3), `minimax` called with the full window
`alpha = INT_MIN`, `beta = INT_MAX` returns, leaves the board as it was, and its
value is exactly the value of plain minimax: the same terminal checks, scores
and difficulty cap, no pruning, every empty cell tried at every node. -/
theorem minimax_full_window_eq_plain (board : Board) (depth : Int) (isMaximizing : Bool)
    (difficulty : Int) (hd0 : 0 ≤ depth) (hd9 : depth ≤ 9) :
    ∃ v, minimax board depth isMaximizing INT_MIN INT_MAX difficulty = some (v, board) ∧
      plainMinimax board depth isMaximizing difficulty = some v := by
  have hcnt := countEmpty_le board
  exact minimaxFuel_full_window 10 board depth isMaximizing difficulty (by omega) hd0 (by omega)

theorem minimax_full_window_eq_plain_witness :
    (0 : Int) ≤ 0 ∧ (0 : Int) ≤ 9 ∧
      ∃ v, minimax (mkBoard 'X' 'O' '-' '-' 'X' '-' '-' '-' 'O') 0 false INT_MIN INT_MAX 3 =
          some (v, mkBoard 'X' 'O' '-' '-' 'X' '-' '-' '-' 'O') ∧
        plainMinimax (mkBoard 'X' 'O' '-' '-' 'X' '-' '-' '-' 'O') 0 false 3 = some v :=
  ⟨by decide, by decide,
    minimax_full_window_eq_plain (mkBoard 'X' 'O' '-' '-' 'X' '-' '-' '-' 'O') 0 false 3
      (by decide) (by decide)⟩

/-- C2: for every board, depth, role, alpha, beta and difficulty, `minimax`
returns and the board after the call equals the board before it cell by cell;
this covers the paths on which a cutoff (`beta <= alpha`) or the difficulty cap
ends a node early. -/
theorem minimax_restores_board (board : Board) (depth : Int) (isMaximizing : Bool)
    (alpha beta difficulty : Int) :
    ∃ v board1, minimax board depth isMaximizing alpha beta difficulty = some (v, board1) ∧
      ∀ i j, board1 i j = board i j := by
  obtain ⟨v, hv⟩ := minimax_frame board depth isMaximizing alpha beta difficulty
  exact ⟨v, board, hv, fun _ _ => rfl⟩

/-- C3: on the empty board with difficulty 3 (Hard), whatever `rand()` returns,
`aiMove` returns the empty board with `O` written on one cell `c` (which was
empty) and every other cell still empty, and the plain (unpruned) minimax value
of that position with `X` to move, computed with difficulty 3 and hence never
capped, is at least 0: at least a draw for `O` against optimal opposition. -/
theorem hard_opening_at_least_draw (r : Nat) :
    ∃ (board1 : Board) (c : Fin 3 × Fin 3) (v : Int),
      aiMove r emptyBoard 3 = some board1 ∧
      emptyBoard c.1 c.2 = EMPTY ∧
      board1 = setCell emptyBoard c.1 c.2 PLAYER_O ∧
      board1 c.1 c.2 = PLAYER_O ∧
      (∀ i j, (i, j) ≠ c → board1 i j = EMPTY) ∧
      plainMinimax board1 0 false 3 = some v ∧ 0 ≤ v := by
  refine ⟨setCell emptyBoard 0 0 PLAYER_O, (0, 0), 0, ?_, rfl, rfl, setCell_same _ _ _ _, ?_, ?_,
    le_refl _⟩
  · rw [← toBoard_empty, aiMove_toBoard r _ 3 (by decide), hard_empty_eval.2]
    rfl
  · intro i j hij
    rw [setCell_ne emptyBoard _ _ i j _ hij]
    rfl
  · have h := plainMinimax_toBoard (FB.empty.set 0 0 Cell.O) 0 false 3
    rw [toBoard_set, toBoard_empty, hard_empty_eval.1 (0, 0) (mem_allCells _)] at h
    exact h

/-- C4: with difficulty 2 (Medium), on every board on which `X` has no completed
line (whether or not `O` has one) and which has an empty cell `c` such that
after `O` on `c` no single `X` move completes an `X` line, the cell on which
`aiMove` places `O` either completes an `O` line or likewise leaves `X` without
a move that completes an `X` line. -/
theorem medium_no_immediate_loss (r : Nat) (board : Board)
    (hX : checkWin board PLAYER_X = false)
    (hsafe : ∃ c : Fin 3 × Fin 3, board c.1 c.2 = EMPTY ∧
      ∀ x : Fin 3 × Fin 3, setCell board c.1 c.2 PLAYER_O x.1 x.2 = EMPTY →
        checkWin (setCell (setCell board c.1 c.2 PLAYER_O) x.1 x.2 PLAYER_X) PLAYER_X = false) :
    ∃ c : Fin 3 × Fin 3, board c.1 c.2 = EMPTY ∧
      aiMove r board 2 = some (setCell board c.1 c.2 PLAYER_O) ∧
      (checkWin (setCell board c.1 c.2 PLAYER_O) PLAYER_O = true ∨
        ∀ x : Fin 3 × Fin 3, setCell board c.1 c.2 PLAYER_O x.1 x.2 = EMPTY →
          checkWin (setCell (setCell board c.1 c.2 PLAYER_O) x.1 x.2 PLAYER_X) PLAYER_X =
            false) := by
  obtain ⟨cs, hcs, hcsafe⟩ := hsafe
  obtain ⟨c, s, hc, hs, hmove, hall⟩ := aiMove_choice r board 2 (by decide) ⟨cs, hcs⟩
  refine ⟨c, hc, hmove, ?_⟩
  have hXset : ∀ d : Fin 3 × Fin 3, board d.1 d.2 = EMPTY →
      ¬ checkWin (setCell board d.1 d.2 PLAYER_O) PLAYER_X = true := by
    intro d hd
    rw [checkWin_setCell_other _ _ _ _ _ (by rw [hd]; exact EMPTY_ne_PLAYER_X)
      PLAYER_O_ne_PLAYER_X, hX]
    simp
  -- the safe cell scores at least 0, so the chosen cell does too
  obtain ⟨t, ht, hts, -⟩ := hall cs hcs
  obtain ⟨t1, -, ht1, hpt, -, -⟩ := moveScore_spec board 2 cs
  rw [ht] at ht1
  have htt : t = t1 := Option.some.inj ht1
  subst htt
  have ht0 : 0 ≤ t := medium_value_nonneg _ t (hXset cs hcs) hcsafe hpt
  obtain ⟨s1, -, hs1, hps, -, -⟩ := moveScore_spec board 2 c
  rw [hs] at hs1
  have hss : s = s1 := Option.some.inj hs1
  subst hss
  by_cases hwin : checkWin (setCell board c.1 c.2 PLAYER_O) PLAYER_O = true
  · exact Or.inl hwin
  · right
    intro x hx
    by_contra hxw
    have hxw2 : checkWin (setCell (setCell board c.1 c.2 PLAYER_O) x.1 x.2 PLAYER_X)
        PLAYER_X = true := by simpa using hxw
    have := medium_value_neg _ s x hwin (hXset c hc) hx hxw2 hps
    omega

theorem medium_no_immediate_loss_witness :
    checkWin (mkBoard 'X' 'X' '-' '-' 'O' '-' '-' '-' '-') PLAYER_X = false ∧
    ∃ c : Fin 3 × Fin 3, mkBoard 'X' 'X' '-' '-' 'O' '-' '-' '-' '-' c.1 c.2 = EMPTY ∧
      aiMove 0 (mkBoard 'X' 'X' '-' '-' 'O' '-' '-' '-' '-') 2 =
        some (setCell (mkBoard 'X' 'X' '-' '-' 'O' '-' '-' '-' '-') c.1 c.2 PLAYER_O) ∧
      (checkWin (setCell (mkBoard 'X' 'X' '-' '-' 'O' '-' '-' '-' '-') c.1 c.2 PLAYER_O)
          PLAYER_O = true ∨
        ∀ x : Fin 3 × Fin 3,
          setCell (mkBoard 'X' 'X' '-' '-' 'O' '-' '-' '-' '-') c.1 c.2 PLAYER_O x.1 x.2 =
            EMPTY →
          checkWin (setCell (setCell (mkBoard 'X' 'X' '-' '-' 'O' '-' '-' '-' '-') c.1 c.2
            PLAYER_O) x.1 x.2 PLAYER_X) PLAYER_X = false) :=
  ⟨by decide,
    medium_no_immediate_loss 0 (mkBoard 'X' 'X' '-' '-' 'O' '-' '-' '-' '-')
      (by decide) ⟨(0, 2), by decide, by decide⟩⟩

/-- C5: for difficulty 2 or 3 and every board with an empty cell on which
placing `O` completes an `O` line, `aiMove` returns a board with a completed `O`
line; a move that completes an `O` line scores 10 and every other move scores
at most 9. -/
theorem aiMove_takes_immediate_win (r : Nat) (board : Board) (difficulty : Int)
    (hd : difficulty = 2 ∨ difficulty = 3)
    (hwin : ∃ c : Fin 3 × Fin 3, board c.1 c.2 = EMPTY ∧
      checkWin (setCell board c.1 c.2 PLAYER_O) PLAYER_O = true) :
    (∃ board1, aiMove r board difficulty = some board1 ∧ checkWin board1 PLAYER_O = true) ∧
    ∀ (d : Fin 3 × Fin 3) (t : Int), moveScore board difficulty d = some t →
      (checkWin (setCell board d.1 d.2 PLAYER_O) PLAYER_O = true → t = 10) ∧
      (¬ checkWin (setCell board d.1 d.2 PLAYER_O) PLAYER_O = true → t ≤ 9) := by
  have hd1 : difficulty ≠ 1 := by omega
  obtain ⟨cw, hcw, hcwin⟩ := hwin
  obtain ⟨c, s, hc, hs, hmove, hall⟩ := aiMove_choice r board difficulty hd1 ⟨cw, hcw⟩
  constructor
  · refine ⟨_, hmove, ?_⟩
    by_contra hno
    have hs9 := moveScore_le_nine board difficulty c s hs hno
    obtain ⟨t, ht, hts, -⟩ := hall cw hcw
    rw [moveScore_win board difficulty cw hcwin] at ht
    have : (10 : Int) = t := Option.some.inj ht
    omega
  · intro d t ht
    constructor
    · intro hw
      rw [moveScore_win board difficulty d hw] at ht
      exact (Option.some.inj ht).symm
    · intro hw
      exact moveScore_le_nine board difficulty d t ht hw

theorem aiMove_takes_immediate_win_witness :
    ((2 : Int) = 2 ∨ (2 : Int) = 3) ∧
    (∃ board1, aiMove 0 (mkBoard 'O' 'O' '-' 'X' 'X' '-' '-' '-' '-') 2 = some board1 ∧
      checkWin board1 PLAYER_O = true) ∧
    ∀ (d : Fin 3 × Fin 3) (t : Int),
      moveScore (mkBoard 'O' 'O' '-' 'X' 'X' '-' '-' '-' '-') 2 d = some t →
      (checkWin (setCell (mkBoard 'O' 'O' '-' 'X' 'X' '-' '-' '-' '-') d.1 d.2 PLAYER_O)
        PLAYER_O = true → t = 10) ∧
      (¬ checkWin (setCell (mkBoard 'O' 'O' '-' 'X' 'X' '-' '-' '-' '-') d.1 d.2 PLAYER_O)
        PLAYER_O = true → t ≤ 9) :=
  ⟨Or.inl rfl,
    aiMove_takes_immediate_win 0 (mkBoard 'O' 'O' '-' 'X' 'X' '-' '-' '-' '-') 2 (Or.inl rfl)
      ⟨(0, 2), by decide, by decide⟩⟩

/-- C6 (as stated, refuted): on the board `X - - / - X - / - - O` with
difficulty 3 the loops of `aiMove` end with `bestRow = 0`, `bestCol = 2`, and
the board `aiMove` returns is not the one with `O` written on cell (2,2). -/
theorem hard_diag_not_corner :
    aiOuter 3 [0, 1, 2] (mkBoard 'X' '-' '-' '-' 'X' '-' '-' '-' 'O') INT_MIN (-1) (-1) =
        some (mkBoard 'X' '-' '-' '-' 'X' '-' '-' '-' 'O', 0, 0, 2) ∧
      aiMove 0 (mkBoard 'X' '-' '-' '-' 'X' '-' '-' '-' 'O') 3 ≠
        some (setCell (mkBoard 'X' '-' '-' '-' 'X' '-' '-' '-' 'O') 2 2 PLAYER_O) := by
  constructor
  · rw [← toBoard_diag, aiOuter_toBoard, hard_diag_eval]
    rfl
  · rw [hard_diag_move 0]
    intro h
    have h2 := congrFun (congrFun (Option.some.inj h) 0) 2
    exact absurd h2 (by decide)

/-- C6 (amended): on the board `X - - / - X - / - - O`, whose cell (2,2) already
holds `O`, with difficulty 3 and whatever `rand()` returns, `aiMove` places `O`
on the empty cell (0,2). -/
theorem hard_diag_selects_top_right (r : Nat) :
    mkBoard 'X' '-' '-' '-' 'X' '-' '-' '-' 'O' 2 2 = PLAYER_O ∧
    mkBoard 'X' '-' '-' '-' 'X' '-' '-' '-' 'O' 0 2 = EMPTY ∧
    aiMove r (mkBoard 'X' '-' '-' '-' 'X' '-' '-' '-' 'O') 3 =
      some (setCell (mkBoard 'X' '-' '-' '-' 'X' '-' '-' '-' 'O') 0 2 PLAYER_O) :=
  ⟨rfl, rfl, hard_diag_move r⟩

theorem moveScore_empty_hard (c : Fin 3 × Fin 3) : moveScore emptyBoard 3 c = some 0 := by
  rw [← toBoard_empty, moveScore_toBoard, hard_empty_eval.1 c (mem_allCells c)]

/-- C7 (as stated, refuted): on the empty board with difficulty 3 the score of
the centre (1,1) is not strictly greater than the score of the edge-midpoint
cell (0,1). -/
theorem centre_not_above_edge :
    ¬ ∃ a b, moveScore emptyBoard 3 (1, 1) = some a ∧ moveScore emptyBoard 3 (0, 1) = some b ∧
      a > b := by
  rintro ⟨a, b, ha, hb, hab⟩
  rw [moveScore_empty_hard] at ha hb
  have h1 : (0 : Int) = a := Option.some.inj ha
  have h2 : (0 : Int) = b := Option.some.inj hb
  omega

/-- C7 (amended): on the empty board with difficulty 3 every one of the nine
first moves scores 0, so the centre scores at least as high as each corner and
each edge-midpoint cell, with equality. -/
theorem opening_scores_all_zero (c : Fin 3 × Fin 3) :
    ∃ a b, moveScore emptyBoard 3 (1, 1) = some a ∧ moveScore emptyBoard 3 c = some b ∧
      a ≥ b ∧ a = 0 ∧ b = 0 :=
  ⟨0, 0, moveScore_empty_hard (1, 1), moveScore_empty_hard c, le_refl _, rfl, rfl⟩

/-- C8: for difficulty 2 or 3 and every board with at least one empty cell,
`aiMove` places `O` on an empty cell `c` whose score is maximal among the empty
cells and which comes first in row-major order among the empty cells of that
score. -/
theorem aiMove_first_best (r : Nat) (board : Board) (difficulty : Int)
    (hd : difficulty = 2 ∨ difficulty = 3)
    (hne : ∃ c : Fin 3 × Fin 3, board c.1 c.2 = EMPTY) :
    ∃ c s, board c.1 c.2 = EMPTY ∧ moveScore board difficulty c = some s ∧
      aiMove r board difficulty = some (setCell board c.1 c.2 PLAYER_O) ∧
      ∀ d : Fin 3 × Fin 3, board d.1 d.2 = EMPTY →
        ∃ t, moveScore board difficulty d = some t ∧ t ≤ s ∧ (t = s → rowMajorLe c d) :=
  aiMove_choice r board difficulty (by omega) hne

theorem aiMove_first_best_witness :
    ((3 : Int) = 2 ∨ (3 : Int) = 3) ∧
    ∃ c s, mkBoard 'X' 'O' 'X' 'X' 'O' '-' 'O' 'X' '-' c.1 c.2 = EMPTY ∧
      moveScore (mkBoard 'X' 'O' 'X' 'X' 'O' '-' 'O' 'X' '-') 3 c = some s ∧
      aiMove 0 (mkBoard 'X' 'O' 'X' 'X' 'O' '-' 'O' 'X' '-') 3 =
        some (setCell (mkBoard 'X' 'O' 'X' 'X' 'O' '-' 'O' 'X' '-') c.1 c.2 PLAYER_O) ∧
      ∀ d : Fin 3 × Fin 3, mkBoard 'X' 'O' 'X' 'X' 'O' '-' 'O' 'X' '-' d.1 d.2 = EMPTY →
        ∃ t, moveScore (mkBoard 'X' 'O' 'X' 'X' 'O' '-' 'O' 'X' '-') 3 d = some t ∧ t ≤ s ∧
          (t = s → rowMajorLe c d) :=
  ⟨Or.inr rfl,
    aiMove_first_best 0 (mkBoard 'X' 'O' 'X' 'X' 'O' '-' 'O' 'X' '-') 3 (Or.inr rfl)
      ⟨(1, 2), by decide⟩⟩

/-- C9: for every board, in-range row and column and every mark, `placeMark`
returns `true` exactly when the cell was `EMPTY` before the call; on success the
cell holds the mark and every other cell is unchanged; on failure every cell is
unchanged. -/
theorem placeMark_spec (board : Board) (row col : Fin 3) (player : Char) :
    ((placeMark board row col player).1 = true ↔ board row col = EMPTY) ∧
    ((placeMark board row col player).1 = true →
      (placeMark board row col player).2 row col = player ∧
      ∀ r c, (r ≠ row ∨ c ≠ col) → (placeMark board row col player).2 r c = board r c) ∧
    ((placeMark board row col player).1 = false →
      ∀ r c, (placeMark board row col player).2 r c = board r c) := by
  unfold placeMark
  split_ifs with h
  · refine ⟨by simp [h], fun _ => ⟨by simp [setCell], fun r c hrc => ?_⟩, by simp⟩
    simp only [setCell]
    rw [if_neg]
    intro hh
    rcases hrc with hr | hc
    · exact hr hh.1
    · exact hc hh.2
  · exact ⟨by simp [h], by simp, fun _ _ _ => rfl⟩

/-- C10: for every board and every mark `p`, `checkWin board p` is true exactly
when one of the eight lines (three rows, three columns, the main diagonal, the
anti-diagonal) has all three cells equal to `p`. -/
theorem checkWin_eight_lines (board : Board) (p : Char) :
    checkWin board p = true ↔
      (∃ i : Fin 3, board i 0 = p ∧ board i 1 = p ∧ board i 2 = p) ∨
      (∃ j : Fin 3, board 0 j = p ∧ board 1 j = p ∧ board 2 j = p) ∨
      (board 0 0 = p ∧ board 1 1 = p ∧ board 2 2 = p) ∨
      (board 0 2 = p ∧ board 1 1 = p ∧ board 2 0 = p) :=
  checkWin_iff board p

/-- C15: for every board, `isBoardFull board` is true exactly when no cell of the
board equals `EMPTY`. -/
theorem isBoardFull_no_empty (board : Board) :
    isBoardFull board = true ↔ ∀ i j : Fin 3, board i j ≠ EMPTY :=
  isBoardFull_iff board

/-- C11: for every board, role, alpha, beta and difficulty, `minimax` applies the
terminal checks first and in this order, leaving the board as it is:
`10 - depth` when `O` has a completed line (also when `X` has one too, and
whatever the difficulty cap says), for every `int` depth for which `10 - depth`
does not overflow, that is `10 - INT_MAX <= depth <= INT_MAX`; otherwise
`depth - 10` when `X` has a completed line, for every `int` depth for which
`depth - 10` does not overflow, that is `INT_MIN + 10 <= depth <= INT_MAX`;
otherwise 0 when the board is full, for every depth.  In the two ranges the
value returned lies between `INT_MIN` and `INT_MAX`. -/
theorem minimax_terminal_order (board : Board) (depth : Int) (isMaximizing : Bool)
    (alpha beta difficulty : Int) :
    (checkWin board PLAYER_O = true → 10 - INT_MAX ≤ depth → depth ≤ INT_MAX →
      minimax board depth isMaximizing alpha beta difficulty = some (10 - depth, board) ∧
      INT_MIN ≤ 10 - depth ∧ 10 - depth ≤ INT_MAX) ∧
    (checkWin board PLAYER_O = false → checkWin board PLAYER_X = true →
      INT_MIN + 10 ≤ depth → depth ≤ INT_MAX →
      minimax board depth isMaximizing alpha beta difficulty = some (depth - 10, board) ∧
      INT_MIN ≤ depth - 10 ∧ depth - 10 ≤ INT_MAX) ∧
    (checkWin board PLAYER_O = false → checkWin board PLAYER_X = false →
      isBoardFull board = true →
      minimax board depth isMaximizing alpha beta difficulty = some (0, board)) := by
  refine ⟨fun h hlo hhi => ⟨?_, ?_, ?_⟩, fun h1 h2 hlo hhi => ⟨?_, ?_, ?_⟩, fun h1 h2 h3 => ?_⟩
  · simp [minimax, minimaxFuel, h]
  · unfold INT_MIN; unfold INT_MAX at hhi; omega
  · unfold INT_MAX at hlo ⊢; omega
  · simp [minimax, minimaxFuel, h1, h2]
  · unfold INT_MIN at hlo ⊢; omega
  · unfold INT_MAX at hhi ⊢; omega
  · simp [minimax, minimaxFuel, h1, h2, h3]

theorem minimax_terminal_order_witness :
    (checkWin (mkBoard 'X' 'X' 'X' 'O' 'O' 'O' '-' '-' '-') PLAYER_X = true ∧
      minimax (mkBoard 'X' 'X' 'X' 'O' 'O' 'O' '-' '-' '-') 3 true INT_MIN INT_MAX 1 =
        some (10 - 3, mkBoard 'X' 'X' 'X' 'O' 'O' 'O' '-' '-' '-')) ∧
    minimax (mkBoard 'X' 'X' 'X' 'O' 'O' '-' '-' '-' '-') 2 true INT_MIN INT_MAX 2 =
      some (2 - 10, mkBoard 'X' 'X' 'X' 'O' 'O' '-' '-' '-' '-') ∧
    minimax (mkBoard 'X' 'O' 'X' 'X' 'O' 'O' 'O' 'X' 'X') 9 false INT_MIN INT_MAX 3 =
      some (0, mkBoard 'X' 'O' 'X' 'X' 'O' 'O' 'O' 'X' 'X') :=
  ⟨⟨by decide,
    ((minimax_terminal_order (mkBoard 'X' 'X' 'X' 'O' 'O' 'O' '-' '-' '-') 3 true INT_MIN INT_MAX
      1).1 (by decide) (by decide) (by decide)).1⟩,
   ((minimax_terminal_order (mkBoard 'X' 'X' 'X' 'O' 'O' '-' '-' '-' '-') 2 true INT_MIN INT_MAX
      2).2.1 (by decide) (by decide) (by decide) (by decide)).1,
   (minimax_terminal_order (mkBoard 'X' 'O' 'X' 'X' 'O' 'O' 'O' 'X' 'X') 9 false INT_MIN INT_MAX
      3).2.2 (by decide) (by decide) (by decide)⟩

theorem maxInner_none (board : Board) (i : Fin 3) (js : List (Fin 3)) (mx al be : Int) :
    maxInner (fun _ _ _ => none) i js board mx al be =
      if ∃ j ∈ js, board i j = EMPTY then none else some (board, mx, al) := by
  induction js with
  | nil => simp [maxInner]
  | cons j js ih =>
    by_cases h : board i j = EMPTY
    · simp [maxInner, h]
    · simp only [maxInner, h, if_false, ih, List.exists_mem_cons_iff, false_or]

theorem minInner_none (board : Board) (i : Fin 3) (js : List (Fin 3)) (mn al be : Int) :
    minInner (fun _ _ _ => none) i js board mn al be =
      if ∃ j ∈ js, board i j = EMPTY then none else some (board, mn, be) := by
  induction js with
  | nil => simp [minInner]
  | cons j js ih =>
    by_cases h : board i j = EMPTY
    · simp [minInner, h]
    · simp only [minInner, h, if_false, ih, List.exists_mem_cons_iff, false_or]

theorem maxOuter_none (board : Board) (is : List (Fin 3)) (mx al be : Int)
    (h : ∃ i ∈ is, ∃ j : Fin 3, board i j = EMPTY) :
    maxOuter (fun _ _ _ => none) is board mx al be = none := by
  induction is with
  | nil => simp at h
  | cons i is ih =>
    simp only [maxOuter, maxInner_none]
    by_cases h1 : ∃ j ∈ ([0, 1, 2] : List (Fin 3)), board i j = EMPTY
    · simp only [h1, if_true]
    · simp only [h1, if_false]
      apply ih
      obtain ⟨i1, hi1, j, hj⟩ := h
      rcases List.mem_cons.mp hi1 with rfl | hmem
      · exact absurd ⟨j, mem_fin3 j, hj⟩ h1
      · exact ⟨i1, hmem, j, hj⟩

theorem minOuter_none (board : Board) (is : List (Fin 3)) (mn al be : Int)
    (h : ∃ i ∈ is, ∃ j : Fin 3, board i j = EMPTY) :
    minOuter (fun _ _ _ => none) is board mn al be = none := by
  induction is with
  | nil => simp at h
  | cons i is ih =>
    simp only [minOuter, minInner_none]
    by_cases h1 : ∃ j ∈ ([0, 1, 2] : List (Fin 3)), board i j = EMPTY
    · simp only [h1, if_true]
    · simp only [h1, if_false]
      apply ih
      obtain ⟨i1, hi1, j, hj⟩ := h
      rcases List.mem_cons.mp hi1 with rfl | hmem
      · exact absurd ⟨j, mem_fin3 j, hj⟩ h1
      · exact ⟨i1, hmem, j, hj⟩

theorem isBoardFull_false_of_empty (board : Board) (h : ∃ i j : Fin 3, board i j = EMPTY) :
    isBoardFull board = false := by
  obtain ⟨i, j, hij⟩ := h
  cases hf : isBoardFull board
  · rfl
  · exact absurd hij ((isBoardFull_iff board).mp hf i j)

/-- A node that is not terminal and not capped tries a cell: with a budget of one
call the search cannot finish. -/
theorem minimaxFuel_one_none (board : Board) (depth : Int) (isMaximizing : Bool)
    (alpha beta difficulty : Int)
    (hO : checkWin board PLAYER_O = false) (hX : checkWin board PLAYER_X = false)
    (hE : ∃ i j : Fin 3, board i j = EMPTY)
    (h1 : ¬ (difficulty = 1 ∧ depth ≥ 1)) (h2 : ¬ (difficulty = 2 ∧ depth ≥ 2)) :
    minimaxFuel 1 board depth isMaximizing alpha beta difficulty = none := by
  have hF := isBoardFull_false_of_empty board hE
  have hE2 : ∃ i ∈ ([0, 1, 2] : List (Fin 3)), ∃ j : Fin 3, board i j = EMPTY := by
    obtain ⟨i, j, hij⟩ := hE
    exact ⟨i, mem_fin3 i, j, hij⟩
  cases isMaximizing
  · simp only [minimaxFuel, hO, hX, hF, h1, h2, if_false, Bool.false_eq_true]
    rw [minOuter_none board _ _ _ _ hE2]
  · simp only [minimaxFuel, hO, hX, hF, h1, h2, if_false, Bool.false_eq_true, if_true]
    rw [maxOuter_none board _ _ _ _ hE2]

/-- C12: on every board on which neither mark has a completed line and at least
one cell is empty, for every role, alpha and beta: with difficulty 1 and
depth >= 1, and with difficulty 2 and depth >= 2, `minimax` returns 0 and a
budget of one call is enough, so no cell is tried; with difficulty 3, at every
depth, a budget of one call is not enough: the node goes on to try a cell. -/
theorem minimax_difficulty_cap (board : Board) (depth : Int) (isMaximizing : Bool)
    (alpha beta difficulty : Int)
    (hO : checkWin board PLAYER_O = false) (hX : checkWin board PLAYER_X = false)
    (hE : ∃ i j : Fin 3, board i j = EMPTY) :
    ((difficulty = 1 ∧ depth ≥ 1) ∨ (difficulty = 2 ∧ depth ≥ 2) →
      minimax board depth isMaximizing alpha beta difficulty = some (0, board) ∧
      minimaxFuel 1 board depth isMaximizing alpha beta difficulty = some (0, board)) ∧
    (difficulty = 3 →
      minimaxFuel 1 board depth isMaximizing alpha beta difficulty = none ∧
      ∃ v, minimax board depth isMaximizing alpha beta difficulty = some (v, board)) := by
  have hF := isBoardFull_false_of_empty board hE
  constructor
  · intro hcap
    rcases hcap with h | h
    · simp [minimax, minimaxFuel, hO, hX, hF, h]
    · by_cases h1 : difficulty = 1 ∧ depth ≥ 1
      · simp [minimax, minimaxFuel, hO, hX, hF, h1]
      · simp [minimax, minimaxFuel, hO, hX, hF, h]
  · intro h3
    exact ⟨minimaxFuel_one_none board depth isMaximizing alpha beta difficulty hO hX hE
      (by omega) (by omega), minimax_frame board depth isMaximizing alpha beta difficulty⟩

theorem minimax_difficulty_cap_witness :
    checkWin (mkBoard 'X' 'O' '-' '-' 'X' '-' '-' '-' 'O') PLAYER_O = false ∧
    checkWin (mkBoard 'X' 'O' '-' '-' 'X' '-' '-' '-' 'O') PLAYER_X = false ∧
    (∃ i j : Fin 3, mkBoard 'X' 'O' '-' '-' 'X' '-' '-' '-' 'O' i j = EMPTY) ∧
    ((((2 : Int) = 1 ∧ (3 : Int) ≥ 1) ∨ ((2 : Int) = 2 ∧ (3 : Int) ≥ 2) →
      minimax (mkBoard 'X' 'O' '-' '-' 'X' '-' '-' '-' 'O') 3 true 0 5 2 =
        some (0, mkBoard 'X' 'O' '-' '-' 'X' '-' '-' '-' 'O') ∧
      minimaxFuel 1 (mkBoard 'X' 'O' '-' '-' 'X' '-' '-' '-' 'O') 3 true 0 5 2 =
        some (0, mkBoard 'X' 'O' '-' '-' 'X' '-' '-' '-' 'O')) ∧
    ((2 : Int) = 3 →
      minimaxFuel 1 (mkBoard 'X' 'O' '-' '-' 'X' '-' '-' '-' 'O') 3 true 0 5 2 = none ∧
      ∃ v, minimax (mkBoard 'X' 'O' '-' '-' 'X' '-' '-' '-' 'O') 3 true 0 5 2 =
        some (v, mkBoard 'X' 'O' '-' '-' 'X' '-' '-' '-' 'O'))) :=
  ⟨by decide, by decide, ⟨0, 2, by decide⟩,
    minimax_difficulty_cap (mkBoard 'X' 'O' '-' '-' 'X' '-' '-' '-' 'O') 3 true 0 5 2
      (by decide) (by decide) ⟨0, 2, by decide⟩⟩

theorem collectRow_eq (board : Board) (i : Fin 3) (js : List (Fin 3)) :
    ∀ acc, collectRow board i js acc = acc ++ rowEmpty board i js := by
  induction js with
  | nil => intro acc; simp [collectRow, rowEmpty]
  | cons j js ih =>
    intro acc
    by_cases h : board i j = EMPTY
    · rw [rowEmpty_cons_pos board i j js h]
      simp only [collectRow, h, if_true, ih, List.append_assoc, List.singleton_append]
    · rw [rowEmpty_cons_neg board i j js h]
      simp only [collectRow, h, if_false, ih]

/-- The Easy branch collects the empty cells in row-major order. -/
theorem collectLoop_eq (board : Board) : collectLoop board [0, 1, 2] [] = emptyCells board := by
  simp only [collectLoop, collectRow_eq, emptyCells_rows, List.nil_append, List.append_assoc]

theorem aiMove_easy (r : Nat) (board : Board) :
    aiMove r board 1 =
      if (emptyCells board).isEmpty then some board
      else
        match (emptyCells board).get? (r % (emptyCells board).length) with
        | none => none
        | some move => some (setCell board move.1 move.2 PLAYER_O) := by
  simp only [aiMove, aiMoveFuel, if_true, collectLoop_eq]

theorem aiMove_easy_get (r : Nat) (board : Board) (c : Fin 3 × Fin 3)
    (h : (emptyCells board).get? (r % (emptyCells board).length) = some c) :
    aiMove r board 1 = some (setCell board c.1 c.2 PLAYER_O) := by
  rw [aiMove_easy]
  have hne : (emptyCells board).isEmpty = false := by
    cases hl : emptyCells board with
    | nil => rw [hl] at h; simp at h
    | cons a l => rfl
  simp only [hne, h, Bool.false_eq_true, if_false]

theorem emptyCells_nodup (board : Board) : (emptyCells board).Nodup := by
  have h := emptyCells_sorted board
  unfold List.Nodup
  refine List.Pairwise.imp ?_ h
  intro a b hab heq
  subst heq
  unfold rowMajorLt at hab
  rcases hab with h1 | ⟨-, h2⟩
  · exact lt_irrefl _ h1
  · exact lt_irrefl _ h2

theorem aiInnerFuel_zero (difficulty : Int) (board : Board) (i : Fin 3) (js : List (Fin 3))
    (bs br bc : Int) :
    aiInnerFuel 0 difficulty i js board bs br bc =
      if ∃ j ∈ js, board i j = EMPTY then none else some (board, bs, br, bc) := by
  induction js with
  | nil => simp [aiInnerFuel]
  | cons j js ih =>
    by_cases h : board i j = EMPTY
    · simp [aiInnerFuel, minimaxFuel, h]
    · simp only [aiInnerFuel, h, if_false, ih, List.exists_mem_cons_iff, false_or]

theorem aiOuterFuel_zero (difficulty : Int) (board : Board) (is : List (Fin 3))
    (bs br bc : Int) (h : ∃ i ∈ is, ∃ j : Fin 3, board i j = EMPTY) :
    aiOuterFuel 0 difficulty is board bs br bc = none := by
  induction is with
  | nil => simp at h
  | cons i is ih =>
    simp only [aiOuterFuel, aiInnerFuel_zero]
    by_cases h1 : ∃ j ∈ ([0, 1, 2] : List (Fin 3)), board i j = EMPTY
    · simp only [h1, if_true]
    · simp only [h1, if_false]
      apply ih
      obtain ⟨i1, hi1, j, hj⟩ := h
      rcases List.mem_cons.mp hi1 with rfl | hmem
      · exact absurd ⟨j, mem_fin3 j, hj⟩ h1
      · exact ⟨i1, hmem, j, hj⟩

/-- With a budget of no call at all, the search branch of `aiMove` fails on
every board with an empty cell: it calls `minimax`. -/
theorem aiMoveFuel_zero_search (r : Nat) (board : Board) (difficulty : Int)
    (hd : difficulty ≠ 1) (hE : ∃ i j : Fin 3, board i j = EMPTY) :
    aiMoveFuel 0 r board difficulty = none := by
  have hE2 : ∃ i ∈ ([0, 1, 2] : List (Fin 3)), ∃ j : Fin 3, board i j = EMPTY := by
    obtain ⟨i, j, hij⟩ := hE
    exact ⟨i, mem_fin3 i, j, hij⟩
  simp only [aiMoveFuel, hd, if_false, aiOuterFuel_zero difficulty board _ _ _ _ hE2]

/-- The Easy branch does not depend on the budget. -/
theorem aiMoveFuel_easy (fuel : Nat) (r : Nat) (board : Board) :
    aiMoveFuel fuel r board 1 = aiMove r board 1 := by
  simp only [aiMove, aiMoveFuel, if_true]

/-- C13: with difficulty 1 (Easy) and the random draw modelled by the natural
number `r`: on a board with `k >= 1` empty cells `aiMove` writes `O` on the
`(r mod k)`-th empty cell in row-major order and changes no other cell, and it
does so without a call of `minimax`: the result is the same with a budget of 0
(with which every call of `minimax` fails) and with every other budget, whereas
with any other difficulty, on a board with an empty cell, `aiMove` returns but
fails with the budget 0; every empty cell is selected for some draw; a board
with at least two empty cells has two draws with different results; on a full
board `aiMove` leaves the board unchanged. -/
theorem aiMove_easy_random (r : Nat) (board : Board) :
    (1 ≤ (emptyCells board).length →
      ∃ c, (emptyCells board).get? (r % (emptyCells board).length) = some c ∧
        board c.1 c.2 = EMPTY ∧
        aiMove r board 1 = some (setCell board c.1 c.2 PLAYER_O) ∧
        aiMoveFuel 0 r board 1 = some (setCell board c.1 c.2 PLAYER_O) ∧
        setCell board c.1 c.2 PLAYER_O c.1 c.2 = PLAYER_O ∧
        ∀ i j, (i, j) ≠ c → setCell board c.1 c.2 PLAYER_O i j = board i j) ∧
    (∀ (b : Board) (depth : Int) (isMaximizing : Bool) (alpha beta difficulty : Int),
      minimaxFuel 0 b depth isMaximizing alpha beta difficulty = none) ∧
    (∀ fuel, aiMoveFuel fuel r board 1 = aiMove r board 1) ∧
    (∀ difficulty, difficulty ≠ 1 → (∃ i j : Fin 3, board i j = EMPTY) →
      aiMoveFuel 0 r board difficulty = none ∧ ∃ board1, aiMove r board difficulty = some board1) ∧
    (∀ c : Fin 3 × Fin 3, board c.1 c.2 = EMPTY →
      ∃ r1, aiMove r1 board 1 = some (setCell board c.1 c.2 PLAYER_O)) ∧
    (2 ≤ (emptyCells board).length →
      ∃ r1 r2, aiMove r1 board 1 ≠ aiMove r2 board 1) ∧
    ((∀ i j : Fin 3, board i j ≠ EMPTY) → aiMove r board 1 = some board) := by
  refine ⟨?_, ?_, ?_, ?_, ?_, ?_, ?_⟩
  · intro hk
    have hlt : r % (emptyCells board).length < (emptyCells board).length :=
      Nat.mod_lt _ (by omega)
    refine ⟨(emptyCells board).get ⟨_, hlt⟩, List.get?_eq_get hlt, ?_, ?_, ?_, ?_, ?_⟩
    · exact (mem_emptyCells board _).mp (List.get_mem _ _ _)
    · exact aiMove_easy_get r board _ (List.get?_eq_get hlt)
    · rw [aiMoveFuel_easy]
      exact aiMove_easy_get r board _ (List.get?_eq_get hlt)
    · exact setCell_same _ _ _ _
    · intro i j hij
      exact setCell_ne board _ _ i j _ hij
  · intro b depth isMaximizing alpha beta difficulty
    rfl
  · intro fuel
    exact aiMoveFuel_easy fuel r board
  · intro difficulty hd hE
    refine ⟨aiMoveFuel_zero_search r board difficulty hd hE, ?_⟩
    obtain ⟨i, j, hij⟩ := hE
    obtain ⟨c, s, -, -, h, -⟩ := aiMove_choice r board difficulty hd ⟨(i, j), hij⟩
    exact ⟨_, h⟩
  · intro c hc
    have hmem := (mem_emptyCells board c).mpr hc
    obtain ⟨n, hget⟩ := List.get_of_mem hmem
    refine ⟨n.val, aiMove_easy_get n.val board c ?_⟩
    rw [Nat.mod_eq_of_lt n.isLt, List.get?_eq_get n.isLt]
    exact congrArg some hget
  · intro hk
    have h0 : 0 < (emptyCells board).length := by omega
    have h1 : 1 < (emptyCells board).length := by omega
    refine ⟨0, 1, ?_⟩
    rw [aiMove_easy_get 0 board ((emptyCells board).get ⟨0, h0⟩)
        (by rw [Nat.zero_mod]; exact List.get?_eq_get h0),
      aiMove_easy_get 1 board ((emptyCells board).get ⟨1, h1⟩)
        (by rw [Nat.mod_eq_of_lt h1]; exact List.get?_eq_get h1)]
    intro heq
    have hne : (emptyCells board).get ⟨0, h0⟩ ≠ (emptyCells board).get ⟨1, h1⟩ := by
      intro h
      have := (List.Nodup.get_inj_iff (emptyCells_nodup board)).mp h
      simp at this
    have hE := (mem_emptyCells board _).mp (List.get_mem (emptyCells board) 0 h0)
    have h2 := congrFun (congrFun (Option.some.inj heq) ((emptyCells board).get ⟨0, h0⟩).1)
      ((emptyCells board).get ⟨0, h0⟩).2
    rw [setCell_same, setCell_ne board _ _ _ _ _ hne, hE] at h2
    exact absurd h2 PLAYER_O_ne_EMPTY
  · intro hfull
    rw [aiMove_easy]
    have : emptyCells board = [] := by
      apply List.eq_nil_iff_forall_not_mem.mpr
      intro c hc
      exact hfull c.1 c.2 ((mem_emptyCells board c).mp hc)
    simp [this]

theorem aiMove_easy_random_witness :
    (1 ≤ (emptyCells (mkBoard 'X' 'O' '-' '-' 'X' '-' '-' '-' 'O')).length ∧
      ∃ c, (emptyCells (mkBoard 'X' 'O' '-' '-' 'X' '-' '-' '-' 'O')).get?
            (7 % (emptyCells (mkBoard 'X' 'O' '-' '-' 'X' '-' '-' '-' 'O')).length) = some c ∧
        mkBoard 'X' 'O' '-' '-' 'X' '-' '-' '-' 'O' c.1 c.2 = EMPTY ∧
        aiMove 7 (mkBoard 'X' 'O' '-' '-' 'X' '-' '-' '-' 'O') 1 =
          some (setCell (mkBoard 'X' 'O' '-' '-' 'X' '-' '-' '-' 'O') c.1 c.2 PLAYER_O) ∧
        aiMoveFuel 0 7 (mkBoard 'X' 'O' '-' '-' 'X' '-' '-' '-' 'O') 1 =
          some (setCell (mkBoard 'X' 'O' '-' '-' 'X' '-' '-' '-' 'O') c.1 c.2 PLAYER_O) ∧
        setCell (mkBoard 'X' 'O' '-' '-' 'X' '-' '-' '-' 'O') c.1 c.2 PLAYER_O c.1 c.2 =
          PLAYER_O ∧
        ∀ i j, (i, j) ≠ c →
          setCell (mkBoard 'X' 'O' '-' '-' 'X' '-' '-' '-' 'O') c.1 c.2 PLAYER_O i j =
            mkBoard 'X' 'O' '-' '-' 'X' '-' '-' '-' 'O' i j) ∧
    (emptyCells (mkBoard 'X' 'O' '-' '-' 'X' '-' '-' '-' 'O')).get? 2 = some (1, 2) ∧
    aiMoveFuel 0 7 (mkBoard 'X' 'O' '-' '-' 'X' '-' '-' '-' 'O') 3 = none ∧
    ∃ board1, aiMove 7 (mkBoard 'X' 'O' '-' '-' 'X' '-' '-' '-' 'O') 3 = some board1 :=
  ⟨⟨by decide, (aiMove_easy_random 7 (mkBoard 'X' 'O' '-' '-' 'X' '-' '-' '-' 'O')).1
      (by decide)⟩,
    by decide,
    (aiMove_easy_random 7 (mkBoard 'X' 'O' '-' '-' 'X' '-' '-' '-' 'O')).2.2.2.1 3 (by decide)
      ⟨0, 2, by decide⟩⟩

/-- The state in which the loops of `aiMove` end on a board with an empty cell:
the board is restored and `bestRow`, `bestCol` are the coordinates of an empty
cell. -/
theorem aiOuter_choice (board : Board) (difficulty : Int)
    (hne : ∃ c : Fin 3 × Fin 3, board c.1 c.2 = EMPTY) :
    ∃ (c : Fin 3 × Fin 3) (s : Int), board c.1 c.2 = EMPTY ∧
      aiOuter difficulty [0, 1, 2] board INT_MIN (-1) (-1) =
        some (board, s, (c.1.val : Int), (c.2.val : Int)) := by
  obtain ⟨st, hst, hbest⟩ := aiOuter_eq board difficulty INT_MIN (-1) (-1)
  have hf : ∀ c ∈ emptyCells board, ∃ p, moveScore board difficulty c = some p := by
    intro c _
    obtain ⟨s, -, hs, -⟩ := moveScore_spec board difficulty c
    exact ⟨s, hs⟩
  obtain ⟨st1, hst1, hcase⟩ := bestOver_spec _ _ hf (INT_MIN, -1, -1)
  rw [hbest] at hst1
  have hEq : st = st1 := Option.some.inj hst1
  subst hEq
  rcases hcase with ⟨-, hall⟩ | ⟨l1, c, l2, hl, -, hpos, -, -, -⟩
  · exfalso
    obtain ⟨c, hc⟩ := hne
    obtain ⟨s, -, hs, -, hlo, -⟩ := moveScore_spec board difficulty c
    have := hall c ((mem_emptyCells board c).mpr hc) s hs
    simp only [INT_MIN] at this
    omega
  · have hcmem : c ∈ emptyCells board := by rw [hl]; simp
    refine ⟨c, st.1, (mem_emptyCells board c).mp hcmem, ?_⟩
    obtain ⟨bs, br, bc⟩ := st
    simp only [Prod.mk.injEq] at hpos
    rw [hst, hpos.1, hpos.2]

/-- C19: for difficulty 2 or 3 and every board with at least one empty cell, the
loops of `aiMove` end with `bestRow` and `bestCol` equal to the coordinates of
an in-range cell that holds `EMPTY` (so neither is -1), and the board after
`aiMove` holds `O` in that cell and equals the board before in every other
cell. -/
theorem aiMove_writes_one_empty_cell (r : Nat) (board : Board) (difficulty : Int)
    (hd : difficulty = 2 ∨ difficulty = 3)
    (hne : ∃ c : Fin 3 × Fin 3, board c.1 c.2 = EMPTY) :
    ∃ (i j : Fin 3) (s bestRow bestCol : Int) (board1 : Board),
      aiOuter difficulty [0, 1, 2] board INT_MIN (-1) (-1) =
        some (board, s, bestRow, bestCol) ∧
      bestRow = (i.val : Int) ∧ bestCol = (j.val : Int) ∧
      bestRow ≠ -1 ∧ bestCol ≠ -1 ∧
      board i j = EMPTY ∧
      aiMove r board difficulty = some board1 ∧
      board1 i j = PLAYER_O ∧
      ∀ k l : Fin 3, (k, l) ≠ (i, j) → board1 k l = board k l := by
  obtain ⟨c, s, hc, hloop⟩ := aiOuter_choice board difficulty hne
  have hd1 : difficulty ≠ 1 := by omega
  refine ⟨c.1, c.2, s, (c.1.val : Int), (c.2.val : Int), setCell board c.1 c.2 PLAYER_O,
    hloop, rfl, rfl, by omega, by omega, hc, ?_, setCell_same _ _ _ _, ?_⟩
  · have hloop1 : aiOuterFuel 10 difficulty [0, 1, 2] board INT_MIN (-1) (-1) =
        some (board, s, (c.1.val : Int), (c.2.val : Int)) := hloop
    simp only [aiMove, aiMoveFuel, hd1, if_false, hloop1, toIndex_val]
  · intro k l hkl
    exact setCell_ne board _ _ k l _ hkl

theorem aiMove_writes_one_empty_cell_witness :
    ((2 : Int) = 2 ∨ (2 : Int) = 3) ∧
    ∃ (i j : Fin 3) (s bestRow bestCol : Int) (board1 : Board),
      aiOuter 2 [0, 1, 2] (mkBoard 'X' 'O' 'X' 'X' 'O' '-' 'O' 'X' '-') INT_MIN (-1) (-1) =
        some (mkBoard 'X' 'O' 'X' 'X' 'O' '-' 'O' 'X' '-', s, bestRow, bestCol) ∧
      bestRow = (i.val : Int) ∧ bestCol = (j.val : Int) ∧
      bestRow ≠ -1 ∧ bestCol ≠ -1 ∧
      mkBoard 'X' 'O' 'X' 'X' 'O' '-' 'O' 'X' '-' i j = EMPTY ∧
      aiMove 5 (mkBoard 'X' 'O' 'X' 'X' 'O' '-' 'O' 'X' '-') 2 = some board1 ∧
      board1 i j = PLAYER_O ∧
      ∀ k l : Fin 3, (k, l) ≠ (i, j) →
        board1 k l = mkBoard 'X' 'O' 'X' 'X' 'O' '-' 'O' 'X' '-' k l :=
  ⟨Or.inl rfl,
    aiMove_writes_one_empty_cell 5 (mkBoard 'X' 'O' 'X' 'X' 'O' '-' 'O' 'X' '-') 2
      (Or.inl rfl) ⟨(1, 2), by decide⟩⟩

theorem maxInner_mono (call call1 : Board → Int → Int → Option (Int × Board))
    (h : ∀ b a be r, call b a be = some r → call1 b a be = some r) (i : Fin 3)
    (js : List (Fin 3)) :
    ∀ board mx al be r, maxInner call i js board mx al be = some r →
      maxInner call1 i js board mx al be = some r := by
  induction js with
  | nil => intro board mx al be r hr; exact hr
  | cons j js ih =>
    intro board mx al be r hr
    simp only [maxInner] at hr ⊢
    split_ifs at hr ⊢ with hcell
    · cases hc : call (setCell board i j PLAYER_O) al be with
      | none => simp [hc] at hr
      | some p =>
        obtain ⟨e, b1⟩ := p
        simp only [hc] at hr
        simp only [h _ _ _ _ hc]
        split_ifs at hr ⊢ with hbrk
        · exact hr
        · exact ih _ _ _ _ _ hr
    · exact ih _ _ _ _ _ hr

theorem minInner_mono (call call1 : Board → Int → Int → Option (Int × Board))
    (h : ∀ b a be r, call b a be = some r → call1 b a be = some r) (i : Fin 3)
    (js : List (Fin 3)) :
    ∀ board mn al be r, minInner call i js board mn al be = some r →
      minInner call1 i js board mn al be = some r := by
  induction js with
  | nil => intro board mn al be r hr; exact hr
  | cons j js ih =>
    intro board mn al be r hr
    simp only [minInner] at hr ⊢
    split_ifs at hr ⊢ with hcell
    · cases hc : call (setCell board i j PLAYER_X) al be with
      | none => simp [hc] at hr
      | some p =>
        obtain ⟨e, b1⟩ := p
        simp only [hc] at hr
        simp only [h _ _ _ _ hc]
        split_ifs at hr ⊢ with hbrk
        · exact hr
        · exact ih _ _ _ _ _ hr
    · exact ih _ _ _ _ _ hr

theorem maxOuter_mono (call call1 : Board → Int → Int → Option (Int × Board))
    (h : ∀ b a be r, call b a be = some r → call1 b a be = some r) (is : List (Fin 3)) :
    ∀ board mx al be r, maxOuter call is board mx al be = some r →
      maxOuter call1 is board mx al be = some r := by
  induction is with
  | nil => intro board mx al be r hr; exact hr
  | cons i is ih =>
    intro board mx al be r hr
    simp only [maxOuter] at hr ⊢
    cases hc : maxInner call i [0, 1, 2] board mx al be with
    | none => simp [hc] at hr
    | some p =>
      obtain ⟨b1, mx1, al1⟩ := p
      simp only [hc] at hr
      simp only [maxInner_mono call call1 h i _ _ _ _ _ _ hc]
      exact ih _ _ _ _ _ hr

theorem minOuter_mono (call call1 : Board → Int → Int → Option (Int × Board))
    (h : ∀ b a be r, call b a be = some r → call1 b a be = some r) (is : List (Fin 3)) :
    ∀ board mn al be r, minOuter call is board mn al be = some r →
      minOuter call1 is board mn al be = some r := by
  induction is with
  | nil => intro board mn al be r hr; exact hr
  | cons i is ih =>
    intro board mn al be r hr
    simp only [minOuter] at hr ⊢
    cases hc : minInner call i [0, 1, 2] board mn al be with
    | none => simp [hc] at hr
    | some p =>
      obtain ⟨b1, mn1, be1⟩ := p
      simp only [hc] at hr
      simp only [minInner_mono call call1 h i _ _ _ _ _ _ hc]
      exact ih _ _ _ _ _ hr

/-- A larger budget does not change a result. -/
theorem minimaxFuel_succ_mono (fuel : Nat) :
    ∀ (board : Board) (depth : Int) (isMaximizing : Bool) (alpha beta difficulty : Int)
      (r : Int × Board),
      minimaxFuel fuel board depth isMaximizing alpha beta difficulty = some r →
      minimaxFuel (fuel + 1) board depth isMaximizing alpha beta difficulty = some r := by
  induction fuel with
  | zero => intro board depth m a b d r hr; simp [minimaxFuel] at hr
  | succ fuel ih =>
    intro board depth m a b d r hr
    rw [minimaxFuel] at hr ⊢
    split_ifs at hr ⊢ with h1 h2 h3 h4 h5 h6
    · exact hr
    · exact hr
    · exact hr
    · exact hr
    · exact hr
    · cases hc : maxOuter (fun b a be => minimaxFuel fuel b (depth + 1) false a be d)
          [0, 1, 2] board INT_MIN a b with
      | none => simp [hc] at hr
      | some p =>
        simp only [hc] at hr
        simp only [maxOuter_mono _
          (fun b a be => minimaxFuel (fuel + 1) b (depth + 1) false a be d)
          (fun b a be r h => ih b (depth + 1) false a be d r h) _ _ _ _ _ _ hc]
        exact hr
    · cases hc : minOuter (fun b a be => minimaxFuel fuel b (depth + 1) true a be d)
          [0, 1, 2] board INT_MAX a b with
      | none => simp [hc] at hr
      | some p =>
        simp only [hc] at hr
        simp only [minOuter_mono _
          (fun b a be => minimaxFuel (fuel + 1) b (depth + 1) true a be d)
          (fun b a be r h => ih b (depth + 1) true a be d r h) _ _ _ _ _ _ hc]
        exact hr

theorem minimaxFuel_mono (fuel k : Nat) (board : Board) (depth : Int) (isMaximizing : Bool)
    (alpha beta difficulty : Int) (r : Int × Board)
    (h : minimaxFuel fuel board depth isMaximizing alpha beta difficulty = some r) :
    minimaxFuel (fuel + k) board depth isMaximizing alpha beta difficulty = some r := by
  induction k with
  | zero => exact h
  | succ k ih => exact minimaxFuel_succ_mono (fuel + k) _ _ _ _ _ _ _ ih

/-- C17: for every board (whatever its contents) and every depth, role, alpha,
beta and difficulty, `minimax` terminates: the board has at most 9 empty cells,
each recursive call is made on a board with exactly one empty cell fewer, and
a budget of `countEmpty board + 1` nested calls (the call itself and at most
`countEmpty board` recursive calls below it) already gives the result, which
every larger budget reproduces. -/
theorem minimax_terminates (board : Board) (depth : Int) (isMaximizing : Bool)
    (alpha beta difficulty : Int) :
    countEmpty board ≤ 9 ∧
    (∀ i j : Fin 3, board i j = EMPTY →
      countEmpty (setCell board i j PLAYER_O) + 1 = countEmpty board ∧
      countEmpty (setCell board i j PLAYER_X) + 1 = countEmpty board) ∧
    ∃ v, minimax board depth isMaximizing alpha beta difficulty = some (v, board) ∧
      ∀ fuel, countEmpty board < fuel →
        minimaxFuel fuel board depth isMaximizing alpha beta difficulty = some (v, board) := by
  refine ⟨countEmpty_le board, fun i j h =>
    ⟨countEmpty_setCell board i j PLAYER_O h PLAYER_O_ne_EMPTY,
     countEmpty_setCell board i j PLAYER_X h PLAYER_X_ne_EMPTY⟩, ?_⟩
  obtain ⟨v, hv⟩ := minimaxFuel_frame (countEmpty board + 1) board depth isMaximizing alpha beta
    difficulty (Nat.lt_succ_self _)
  have hmono : ∀ fuel, countEmpty board < fuel →
      minimaxFuel fuel board depth isMaximizing alpha beta difficulty = some (v, board) := by
    intro fuel hf
    have := minimaxFuel_mono (countEmpty board + 1) (fuel - (countEmpty board + 1)) board depth
      isMaximizing alpha beta difficulty (v, board) hv
    rwa [Nat.add_sub_cancel' (by omega)] at this
  exact ⟨v, hmono 10 (by have := countEmpty_le board; omega), hmono⟩

theorem humanMove_iff (board board1 : Board) :
    humanMove board board1 ↔
      ∃ row col : Fin 3, board row col = EMPTY ∧ board1 = setCell board row col PLAYER_X := by
  unfold humanMove placeMark
  constructor
  · rintro ⟨row, col, h⟩
    refine ⟨row, col, ?_⟩
    split_ifs at h with hc
    · exact ⟨hc, (Prod.mk.inj h).2.symm⟩
    · exact absurd (Prod.mk.inj h).1 (by simp)
  · rintro ⟨row, col, hc, rfl⟩
    exact ⟨row, col, by rw [if_pos hc]⟩

/-- At the head of the loop neither side has a completed line, whatever the `O`
side plays, as long as it writes on an empty cell. -/
theorem Game.no_line (ai : Board → Board → Prop) (hai : ∀ b b1, ai b b1 → anyMove b b1)
    (board : Board) (playerTurn : Bool) (h : Game ai board playerTurn) :
    checkWin board PLAYER_X = false ∧ checkWin board PLAYER_O = false := by
  induction h with
  | start => exact ⟨by decide, by decide⟩
  | next board board1 playerTurn _ hmove hwin _ ih =>
    cases playerTurn
    · have hm : anyMove board board1 := hai _ _ (by simpa [Moved] using hmove)
      obtain ⟨i, j, hc, rfl⟩ := hm
      refine ⟨?_, by simpa [currentPlayer] using hwin⟩
      rw [checkWin_setCell_other _ _ _ _ _ (by rw [hc]; exact EMPTY_ne_PLAYER_X)
        PLAYER_O_ne_PLAYER_X]
      exact ih.1
    · have hm : humanMove board board1 := by simpa [Moved] using hmove
      obtain ⟨i, j, hc, rfl⟩ := (humanMove_iff _ _).mp hm
      refine ⟨by simpa [currentPlayer] using hwin, ?_⟩
      rw [checkWin_setCell_other _ _ _ _ _ (by rw [hc]; exact EMPTY_ne_PLAYER_O)
        PLAYER_X_ne_PLAYER_O]
      exact ih.2

/-- C14: in every board that occurs in a game in which `X` and `O` alternate with
`X` first, each move writes the mover's mark on an empty cell, and no move is
made once the side that just moved has a completed line or the board is full,
`checkWin` is never true for both `X` and `O`: a completed line of one mark
means `checkWin` is false for the other. -/
theorem never_both_lines (board : Board) (h : Seen anyMove board) :
    ¬ (checkWin board PLAYER_X = true ∧ checkWin board PLAYER_O = true) ∧
    (checkWin board PLAYER_X = true → checkWin board PLAYER_O = false) ∧
    (checkWin board PLAYER_O = true → checkWin board PLAYER_X = false) := by
  have key : checkWin board PLAYER_X = false ∨ checkWin board PLAYER_O = false := by
    rcases h with rfl | ⟨b, t, hg, hmove⟩
    · exact Or.inl (by decide)
    · have hno := Game.no_line anyMove (fun _ _ h => h) b t hg
      cases t
      · have hm : anyMove b board := by simpa [Moved] using hmove
        obtain ⟨i, j, hc, rfl⟩ := hm
        left
        rw [checkWin_setCell_other _ _ _ _ _ (by rw [hc]; exact EMPTY_ne_PLAYER_X)
          PLAYER_O_ne_PLAYER_X]
        exact hno.1
      · have hm : humanMove b board := by simpa [Moved] using hmove
        obtain ⟨i, j, hc, rfl⟩ := (humanMove_iff _ _).mp hm
        right
        rw [checkWin_setCell_other _ _ _ _ _ (by rw [hc]; exact EMPTY_ne_PLAYER_O)
          PLAYER_X_ne_PLAYER_O]
        exact hno.2
  rcases key with h1 | h1
  · exact ⟨fun h2 => by simp [h1] at h2, fun h2 => by simp [h1] at h2, fun _ => h1⟩
  · exact ⟨fun h2 => by simp [h1] at h2, fun _ => h1, fun h2 => by simp [h1] at h2⟩

theorem never_both_lines_witness :
    Seen anyMove (setCell (setCell (setCell (setCell (setCell emptyBoard 0 0 PLAYER_X)
      1 1 PLAYER_O) 0 1 PLAYER_X) 2 2 PLAYER_O) 0 2 PLAYER_X) ∧
    checkWin (setCell (setCell (setCell (setCell (setCell emptyBoard 0 0 PLAYER_X)
      1 1 PLAYER_O) 0 1 PLAYER_X) 2 2 PLAYER_O) 0 2 PLAYER_X) PLAYER_X = true ∧
    checkWin (setCell (setCell (setCell (setCell (setCell emptyBoard 0 0 PLAYER_X)
      1 1 PLAYER_O) 0 1 PLAYER_X) 2 2 PLAYER_O) 0 2 PLAYER_X) PLAYER_O = false :=
  have g1 : Game anyMove (setCell emptyBoard 0 0 PLAYER_X) false :=
    Game.next emptyBoard _ true Game.start ⟨0, 0, rfl⟩ (by decide) (by decide)
  have g2 : Game anyMove (setCell (setCell emptyBoard 0 0 PLAYER_X) 1 1 PLAYER_O) true :=
    Game.next _ _ false g1 ⟨1, 1, by decide, rfl⟩ (by decide) (by decide)
  have g3 : Game anyMove (setCell (setCell (setCell emptyBoard 0 0 PLAYER_X) 1 1 PLAYER_O)
      0 1 PLAYER_X) false :=
    Game.next _ _ true g2 ⟨0, 1, rfl⟩ (by decide) (by decide)
  have g4 : Game anyMove (setCell (setCell (setCell (setCell emptyBoard 0 0 PLAYER_X)
      1 1 PLAYER_O) 0 1 PLAYER_X) 2 2 PLAYER_O) true :=
    Game.next _ _ false g3 ⟨2, 2, by decide, rfl⟩ (by decide) (by decide)
  have hseen : Seen anyMove (setCell (setCell (setCell (setCell (setCell emptyBoard 0 0
      PLAYER_X) 1 1 PLAYER_O) 0 1 PLAYER_X) 2 2 PLAYER_O) 0 2 PLAYER_X) :=
    Or.inr ⟨_, true, g4, 0, 2, rfl⟩
  ⟨hseen, by decide, (never_both_lines _ hseen).2.1 (by decide)⟩

theorem hardSafe_human (n : Nat) (f : FB) (c : Fin 3 × Fin 3)
    (h : hardSafe (n + 1) f true = true) (hc : c ∈ f.emptyCells) :
    (f.set c.1 c.2 Cell.X).winX = false ∧
      ((f.set c.1 c.2 Cell.X).full = false → hardSafe n (f.set c.1 c.2 Cell.X) false = true) := by
  have h1 : f.emptyCells.all (fun c =>
      match (f.set c.1 c.2 Cell.X).winX with
      | true => false
      | false =>
        match (f.set c.1 c.2 Cell.X).full with
        | true => true
        | false => hardSafe n (f.set c.1 c.2 Cell.X) false) = true := h
  rw [List.all_eq_true] at h1
  have h2 := h1 c hc
  cases hw : (f.set c.1 c.2 Cell.X).winX
  · refine ⟨rfl, fun hf => ?_⟩
    simp only [hw, hf] at h2
    exact h2
  · simp [hw] at h2

theorem hardSafe_ai (n : Nat) (f : FB) (h : hardSafe (n + 1) f false = true) :
    ∃ c, aiCell f 3 = some c ∧ (f.set c.1 c.2 Cell.O).winX = false ∧
      ((f.set c.1 c.2 Cell.O).winO = false → (f.set c.1 c.2 Cell.O).full = false →
        hardSafe n (f.set c.1 c.2 Cell.O) true = true) := by
  have h1 : (match aiCell f 3 with
    | none => false
    | some c =>
      match (f.set c.1 c.2 Cell.O).winX with
      | true => false
      | false =>
        match (f.set c.1 c.2 Cell.O).winO with
        | true => true
        | false =>
          match (f.set c.1 c.2 Cell.O).full with
          | true => true
          | false => hardSafe n (f.set c.1 c.2 Cell.O) true) = true := h
  cases hc : aiCell f 3 with
  | none => simp [hc] at h1
  | some c =>
    refine ⟨c, rfl, ?_⟩
    simp only [hc] at h1
    cases hw : (f.set c.1 c.2 Cell.O).winX
    · refine ⟨rfl, fun ho hf => ?_⟩
      simp only [hw, ho, hf] at h1
      exact h1
    · simp [hw] at h1

/-- Exhaustive check from the empty board with `X` to move. -/
theorem hardSafe_empty : hardSafe 10 FB.empty true = true := by
  decide!

/-- What a move of the game against the Hard engine does to a position that
passed the check. -/
theorem hardSafe_step (n : Nat) (f : FB) (playerTurn : Bool) (board1 : Board)
    (h : hardSafe (n + 1) f playerTurn = true)
    (hmove : Moved hardMove (toBoard f) playerTurn board1) :
    ∃ f1, board1 = toBoard f1 ∧ f1.winX = false ∧
      (checkWin board1 (currentPlayer playerTurn) = false → isBoardFull board1 = false →
        hardSafe n f1 (!playerTurn) = true) := by
  cases playerTurn
  · have hm : hardMove (toBoard f) board1 := by simpa [Moved] using hmove
    obtain ⟨r, hr⟩ := hm
    obtain ⟨c, hc, hwx, hnext⟩ := hardSafe_ai n f h
    rw [aiMove_toBoard r f 3 (by decide), hc] at hr
    have hb : board1 = toBoard (f.set c.1 c.2 Cell.O) := by
      rw [toBoard_set]
      exact (Option.some.inj hr).symm
    refine ⟨f.set c.1 c.2 Cell.O, hb, hwx, fun hw hf => ?_⟩
    rw [hb, ← full_eq] at hf
    have hw2 : checkWin board1 PLAYER_O = false := by simpa [currentPlayer] using hw
    rw [hb, ← winO_eq] at hw2
    exact hnext hw2 hf
  · have hm : humanMove (toBoard f) board1 := by simpa [Moved] using hmove
    obtain ⟨i, j, hcell, hb1⟩ := (humanMove_iff _ _).mp hm
    have hmem : (i, j) ∈ f.emptyCells := by
      rw [← emptyCells_toBoard]
      exact (mem_emptyCells _ (i, j)).mpr hcell
    obtain ⟨hwx, hnext⟩ := hardSafe_human n f (i, j) h hmem
    have hb : board1 = toBoard (f.set i j Cell.X) := by
      rw [toBoard_set]
      exact hb1
    refine ⟨f.set i j Cell.X, hb, hwx, fun _ hf => ?_⟩
    rw [hb, ← full_eq] at hf
    exact hnext hf

/-- Every state at the head of the loop, in a game against the Hard engine, is a
position that passed the exhaustive check. -/
theorem Game.hard_inv (board : Board) (playerTurn : Bool) (h : Game hardMove board playerTurn) :
    ∃ f n, board = toBoard f ∧ hardSafe (n + 1) f playerTurn = true := by
  induction h with
  | start => exact ⟨FB.empty, 9, toBoard_empty.symm, hardSafe_empty⟩
  | next board board1 playerTurn _ hmove hwin hfull ih =>
    obtain ⟨f, n, hb, hs⟩ := ih
    rw [hb] at hmove
    obtain ⟨f1, hb1, -, hnext⟩ := hardSafe_step n f playerTurn board1 hs hmove
    have h2 := hnext hwin hfull
    cases n with
    | zero => cases hp : playerTurn <;> simp [hardSafe, hp] at h2
    | succ m => exact ⟨f1, m, hb1, h2⟩

/-- The reply of the Hard engine to `X` on (0,0) is the centre. -/
theorem hard_reply_first : aiCell (FB.empty.set 0 0 Cell.X) 3 = some (1, 1) := by decide!

/-- After `X` (0,0), `O` (1,1), `X` (0,1) the Hard engine blocks on (0,2). -/
theorem hard_reply_second :
    aiCell (((FB.empty.set 0 0 Cell.X).set 1 1 Cell.O).set 0 1 Cell.X) 3 = some (0, 2) := by
  decide!

theorem hard_reply_board1 (r : Nat) : aiMove r (setCell emptyBoard 0 0 PLAYER_X) 3 =
    some (setCell (setCell emptyBoard 0 0 PLAYER_X) 1 1 PLAYER_O) := by
  have h := aiMove_toBoard r (FB.empty.set 0 0 Cell.X) 3 (by decide)
  rw [hard_reply_first, toBoard_set, toBoard_empty] at h
  exact h

theorem hard_reply_board2 (r : Nat) :
    aiMove r (setCell (setCell (setCell emptyBoard 0 0 PLAYER_X) 1 1 PLAYER_O) 0 1 PLAYER_X) 3 =
      some (setCell (setCell (setCell (setCell emptyBoard 0 0 PLAYER_X) 1 1 PLAYER_O) 0 1
        PLAYER_X) 0 2 PLAYER_O) := by
  have h := aiMove_toBoard r (((FB.empty.set 0 0 Cell.X).set 1 1 Cell.O).set 0 1 Cell.X) 3
    (by decide)
  rw [hard_reply_second, toBoard_set, toBoard_set, toBoard_set, toBoard_empty] at h
  exact h

/-- C18: in every game played from the empty board as `playGame` runs it, with
`X` moving first on any empty cell at each of its turns and every `O` move made
by `aiMove` with difficulty 3, no board that occurs has a completed `X` line:
the Hard engine playing second never loses. -/
theorem hard_engine_never_loses (board : Board) (h : Seen hardMove board) :
    checkWin board PLAYER_X = false := by
  rcases h with rfl | ⟨b, t, hg, hmove⟩
  · decide
  · obtain ⟨f, n, hb, hs⟩ := Game.hard_inv b t hg
    rw [hb] at hmove
    obtain ⟨f1, hb1, hwx, -⟩ := hardSafe_step n f t board hs hmove
    rw [hb1, ← winX_eq]
    exact hwx

theorem hard_engine_never_loses_witness :
    (∀ r, aiMove r (setCell emptyBoard 0 0 PLAYER_X) 3 =
      some (setCell (setCell emptyBoard 0 0 PLAYER_X) 1 1 PLAYER_O)) ∧
    (∀ r, aiMove r (setCell (setCell (setCell emptyBoard 0 0 PLAYER_X) 1 1 PLAYER_O)
        0 1 PLAYER_X) 3 =
      some (setCell (setCell (setCell (setCell emptyBoard 0 0 PLAYER_X) 1 1 PLAYER_O) 0 1
        PLAYER_X) 0 2 PLAYER_O)) ∧
    Seen hardMove (setCell (setCell (setCell (setCell emptyBoard 0 0 PLAYER_X) 1 1 PLAYER_O)
      0 1 PLAYER_X) 0 2 PLAYER_O) ∧
    checkWin (setCell (setCell (setCell (setCell emptyBoard 0 0 PLAYER_X) 1 1 PLAYER_O)
      0 1 PLAYER_X) 0 2 PLAYER_O) PLAYER_X = false :=
  have g1 : Game hardMove (setCell emptyBoard 0 0 PLAYER_X) false :=
    Game.next emptyBoard _ true Game.start ⟨0, 0, rfl⟩ (by decide) (by decide)
  have g2 : Game hardMove (setCell (setCell emptyBoard 0 0 PLAYER_X) 1 1 PLAYER_O) true :=
    Game.next _ _ false g1 ⟨0, hard_reply_board1 0⟩ (by decide) (by decide)
  have g3 : Game hardMove (setCell (setCell (setCell emptyBoard 0 0 PLAYER_X) 1 1 PLAYER_O)
      0 1 PLAYER_X) false :=
    Game.next _ _ true g2 ⟨0, 1, rfl⟩ (by decide) (by decide)
  have hseen : Seen hardMove (setCell (setCell (setCell (setCell emptyBoard 0 0 PLAYER_X)
      1 1 PLAYER_O) 0 1 PLAYER_X) 0 2 PLAYER_O) :=
    Or.inr ⟨_, false, g3, 0, hard_reply_board2 0⟩
  ⟨hard_reply_board1, hard_reply_board2, hseen, hard_engine_never_loses _ hseen⟩

theorem maxInner_range (call : Board → Int → Int → Option (Int × Board)) (board : Board)
    (i : Fin 3) (lo hi : Int) (hlo : INT_MIN ≤ lo)
    (hc : ∀ j, board i j = EMPTY → ∀ a b, ∃ e,
      call (setCell board i j PLAYER_O) a b = some (e, setCell board i j PLAYER_O) ∧
        lo ≤ e ∧ e ≤ hi)
    (js : List (Fin 3)) :
    ∀ mx al be, (mx = INT_MIN ∨ (lo ≤ mx ∧ mx ≤ hi)) →
      ∃ mx1 al1, maxInner call i js board mx al be = some (board, mx1, al1) ∧
        ((lo ≤ mx1 ∧ mx1 ≤ hi) ∨ (mx1 = mx ∧ ∀ j ∈ js, board i j ≠ EMPTY)) := by
  induction js with
  | nil => intro mx al be _; exact ⟨mx, al, rfl, Or.inr ⟨rfl, by simp⟩⟩
  | cons j js ih =>
    intro mx al be hmx
    by_cases hcell : board i j = EMPTY
    · obtain ⟨e, he, he1, he2⟩ := hc j hcell al be
      have hq : lo ≤ max mx e ∧ max mx e ≤ hi := by
        rcases hmx with h | h <;> omega
      simp only [maxInner, hcell, if_true, he, setCell_undo board i j PLAYER_O hcell]
      split_ifs
      · exact ⟨_, _, rfl, Or.inl hq⟩
      · obtain ⟨mx1, al1, h1, h2⟩ := ih (max mx e) (max al e) be (Or.inr hq)
        refine ⟨mx1, al1, h1, Or.inl ?_⟩
        rcases h2 with h2 | ⟨h2, -⟩
        · exact h2
        · rw [h2]; exact hq
    · simp only [maxInner, hcell, if_false]
      obtain ⟨mx1, al1, h1, h2⟩ := ih mx al be hmx
      refine ⟨mx1, al1, h1, ?_⟩
      rcases h2 with h2 | ⟨h2, h3⟩
      · exact Or.inl h2
      · exact Or.inr ⟨h2, by
          intro k hk
          rcases List.mem_cons.mp hk with rfl | hk
          · exact hcell
          · exact h3 k hk⟩

theorem minInner_range (call : Board → Int → Int → Option (Int × Board)) (board : Board)
    (i : Fin 3) (lo hi : Int) (hhi : hi ≤ INT_MAX)
    (hc : ∀ j, board i j = EMPTY → ∀ a b, ∃ e,
      call (setCell board i j PLAYER_X) a b = some (e, setCell board i j PLAYER_X) ∧
        lo ≤ e ∧ e ≤ hi)
    (js : List (Fin 3)) :
    ∀ mn al be, (mn = INT_MAX ∨ (lo ≤ mn ∧ mn ≤ hi)) →
      ∃ mn1 be1, minInner call i js board mn al be = some (board, mn1, be1) ∧
        ((lo ≤ mn1 ∧ mn1 ≤ hi) ∨ (mn1 = mn ∧ ∀ j ∈ js, board i j ≠ EMPTY)) := by
  induction js with
  | nil => intro mn al be _; exact ⟨mn, be, rfl, Or.inr ⟨rfl, by simp⟩⟩
  | cons j js ih =>
    intro mn al be hmn
    by_cases hcell : board i j = EMPTY
    · obtain ⟨e, he, he1, he2⟩ := hc j hcell al be
      have hq : lo ≤ min mn e ∧ min mn e ≤ hi := by
        rcases hmn with h | h <;> omega
      simp only [minInner, hcell, if_true, he, setCell_undo board i j PLAYER_X hcell]
      split_ifs
      · exact ⟨_, _, rfl, Or.inl hq⟩
      · obtain ⟨mn1, be1, h1, h2⟩ := ih (min mn e) al (min be e) (Or.inr hq)
        refine ⟨mn1, be1, h1, Or.inl ?_⟩
        rcases h2 with h2 | ⟨h2, -⟩
        · exact h2
        · rw [h2]; exact hq
    · simp only [minInner, hcell, if_false]
      obtain ⟨mn1, be1, h1, h2⟩ := ih mn al be hmn
      refine ⟨mn1, be1, h1, ?_⟩
      rcases h2 with h2 | ⟨h2, h3⟩
      · exact Or.inl h2
      · exact Or.inr ⟨h2, by
          intro k hk
          rcases List.mem_cons.mp hk with rfl | hk
          · exact hcell
          · exact h3 k hk⟩

theorem maxOuter_range (call : Board → Int → Int → Option (Int × Board)) (board : Board)
    (lo hi : Int) (hlo : INT_MIN ≤ lo)
    (hc : ∀ i j, board i j = EMPTY → ∀ a b, ∃ e,
      call (setCell board i j PLAYER_O) a b = some (e, setCell board i j PLAYER_O) ∧
        lo ≤ e ∧ e ≤ hi)
    (hE : ∃ i j : Fin 3, board i j = EMPTY) (al be : Int) :
    ∃ mx1 al1, maxOuter call [0, 1, 2] board INT_MIN al be = some (board, mx1, al1) ∧
      lo ≤ mx1 ∧ mx1 ≤ hi := by
  obtain ⟨m0, a0, h0, q0⟩ := maxInner_range call board 0 lo hi hlo (hc 0) [0, 1, 2]
    INT_MIN al be (Or.inl rfl)
  have p0 : m0 = INT_MIN ∨ (lo ≤ m0 ∧ m0 ≤ hi) := by
    rcases q0 with h | ⟨h, -⟩
    · exact Or.inr h
    · exact Or.inl h
  obtain ⟨m1, a1, h1, q1⟩ := maxInner_range call board 1 lo hi hlo (hc 1) [0, 1, 2]
    m0 a0 be p0
  have p1 : m1 = INT_MIN ∨ (lo ≤ m1 ∧ m1 ≤ hi) := by
    rcases q1 with h | ⟨h, -⟩
    · exact Or.inr h
    · rw [h]; exact p0
  obtain ⟨m2, a2, h2, q2⟩ := maxInner_range call board 2 lo hi hlo (hc 2) [0, 1, 2]
    m1 a1 be p1
  refine ⟨m2, a2, by simp only [maxOuter, h0, h1, h2], ?_⟩
  rcases q2 with h | ⟨h, e2⟩
  · exact h
  · rcases q1 with g | ⟨g, e1⟩
    · rw [h]; exact g
    · rcases q0 with f | ⟨-, e0⟩
      · rw [h, g]; exact f
      · exfalso
        obtain ⟨i, j, hij⟩ := hE
        fin_cases i
        · exact e0 j (mem_fin3 j) hij
        · exact e1 j (mem_fin3 j) hij
        · exact e2 j (mem_fin3 j) hij

theorem minOuter_range (call : Board → Int → Int → Option (Int × Board)) (board : Board)
    (lo hi : Int) (hhi : hi ≤ INT_MAX)
    (hc : ∀ i j, board i j = EMPTY → ∀ a b, ∃ e,
      call (setCell board i j PLAYER_X) a b = some (e, setCell board i j PLAYER_X) ∧
        lo ≤ e ∧ e ≤ hi)
    (hE : ∃ i j : Fin 3, board i j = EMPTY) (al be : Int) :
    ∃ mn1 be1, minOuter call [0, 1, 2] board INT_MAX al be = some (board, mn1, be1) ∧
      lo ≤ mn1 ∧ mn1 ≤ hi := by
  obtain ⟨m0, a0, h0, q0⟩ := minInner_range call board 0 lo hi hhi (hc 0) [0, 1, 2]
    INT_MAX al be (Or.inl rfl)
  have p0 : m0 = INT_MAX ∨ (lo ≤ m0 ∧ m0 ≤ hi) := by
    rcases q0 with h | ⟨h, -⟩
    · exact Or.inr h
    · exact Or.inl h
  obtain ⟨m1, a1, h1, q1⟩ := minInner_range call board 1 lo hi hhi (hc 1) [0, 1, 2]
    m0 al a0 p0
  have p1 : m1 = INT_MAX ∨ (lo ≤ m1 ∧ m1 ≤ hi) := by
    rcases q1 with h | ⟨h, -⟩
    · exact Or.inr h
    · rw [h]; exact p0
  obtain ⟨m2, a2, h2, q2⟩ := minInner_range call board 2 lo hi hhi (hc 2) [0, 1, 2]
    m1 al a1 p1
  refine ⟨m2, a2, by simp only [minOuter, h0, h1, h2], ?_⟩
  rcases q2 with h | ⟨h, e2⟩
  · exact h
  · rcases q1 with g | ⟨g, e1⟩
    · rw [h]; exact g
    · rcases q0 with f | ⟨-, e0⟩
      · rw [h, g]; exact f
      · exfalso
        obtain ⟨i, j, hij⟩ := hE
        fin_cases i
        · exact e0 j (mem_fin3 j) hij
        · exact e1 j (mem_fin3 j) hij
        · exact e2 j (mem_fin3 j) hij

/-- Range of the alpha-beta result for an arbitrary window: every leaf below a
node at depth `d` with `n` empty cells lies at a depth between `d` and `d + n`. -/
theorem minimaxFuel_range (fuel : Nat) :
    ∀ (board : Board) (depth : Int) (isMaximizing : Bool) (alpha beta difficulty : Int),
      countEmpty board < fuel → 0 ≤ depth → depth + countEmpty board ≤ 1000 →
      ∃ v, minimaxFuel fuel board depth isMaximizing alpha beta difficulty = some (v, board) ∧
        min (depth - 10) (10 - depth - countEmpty board) ≤ v ∧
        v ≤ max (10 - depth) (depth + countEmpty board - 10) := by
  induction fuel with
  | zero => intro board _ _ _ _ _ h; omega
  | succ fuel ih =>
    intro board depth isMaximizing alpha beta difficulty hfuel hd0 hd1
    rw [minimaxFuel]
    split_ifs with h1 h2 h3 h4 h5 h6
    · exact ⟨_, rfl, by omega, by omega⟩
    · exact ⟨_, rfl, by omega, by omega⟩
    · exact ⟨_, rfl, by omega, by omega⟩
    · exact ⟨_, rfl, by omega, by omega⟩
    · exact ⟨_, rfl, by omega, by omega⟩
    · have hE : ∃ i j : Fin 3, board i j = EMPTY := by
        obtain ⟨c, hc⟩ := exists_empty_of_not_full board h3
        exact ⟨c.1, c.2, (mem_emptyCells board c).mp hc⟩
      have hc : ∀ i j, board i j = EMPTY → ∀ a b, ∃ e,
          minimaxFuel fuel (setCell board i j PLAYER_O) (depth + 1) false a b difficulty =
            some (e, setCell board i j PLAYER_O) ∧
            min (depth - 10) (10 - depth - countEmpty board) ≤ e ∧
            e ≤ max (10 - depth) (depth + countEmpty board - 10) := by
        intro i j hcell a b
        have hcnt := countEmpty_setCell board i j PLAYER_O hcell PLAYER_O_ne_EMPTY
        obtain ⟨e, he, h7, h8⟩ := ih (setCell board i j PLAYER_O) (depth + 1) false a b
          difficulty (by omega) (by omega) (by omega)
        exact ⟨e, he, by omega, by omega⟩
      obtain ⟨mx1, al1, h7, h8, h9⟩ := maxOuter_range
        (fun b a be => minimaxFuel fuel b (depth + 1) false a be difficulty) board
        (min (depth - 10) (10 - depth - countEmpty board))
        (max (10 - depth) (depth + countEmpty board - 10)) (by unfold INT_MIN; omega) hc hE
        alpha beta
      simp only [h7]
      exact ⟨mx1, rfl, h8, h9⟩
    · have hE : ∃ i j : Fin 3, board i j = EMPTY := by
        obtain ⟨c, hc⟩ := exists_empty_of_not_full board h3
        exact ⟨c.1, c.2, (mem_emptyCells board c).mp hc⟩
      have hc : ∀ i j, board i j = EMPTY → ∀ a b, ∃ e,
          minimaxFuel fuel (setCell board i j PLAYER_X) (depth + 1) true a b difficulty =
            some (e, setCell board i j PLAYER_X) ∧
            min (depth - 10) (10 - depth - countEmpty board) ≤ e ∧
            e ≤ max (10 - depth) (depth + countEmpty board - 10) := by
        intro i j hcell a b
        have hcnt := countEmpty_setCell board i j PLAYER_X hcell PLAYER_X_ne_EMPTY
        obtain ⟨e, he, h7, h8⟩ := ih (setCell board i j PLAYER_X) (depth + 1) true a b
          difficulty (by omega) (by omega) (by omega)
        exact ⟨e, he, by omega, by omega⟩
      obtain ⟨mn1, be1, h7, h8, h9⟩ := minOuter_range
        (fun b a be => minimaxFuel fuel b (depth + 1) true a be difficulty) board
        (min (depth - 10) (10 - depth - countEmpty board))
        (max (10 - depth) (depth + countEmpty board - 10)) (by unfold INT_MAX; omega) hc hE
        alpha beta
      simp only [h7]
      exact ⟨mn1, rfl, h8, h9⟩

/-- C20 (as stated, refuted): on the board `O O - / X X O / O X X`, which has no
completed line, at depth 10 with `O` to move and difficulty 3, `minimax` returns
-1, which is below `depth - 10 = 0`. -/
theorem depth_ten_below_range :
    (minimax (mkBoard 'O' 'O' '-' 'X' 'X' 'O' 'O' 'X' 'X') 10 true INT_MIN INT_MAX 3).map
        Prod.fst = some (-1) ∧
      ¬ ((10 : Int) - 10 ≤ -1 ∧ (-1 : Int) ≤ 10 - 10) := by
  decide!

/-- C20 (amended): for every board with `n` empty cells and every depth `d` with
`0 <= d <= 10`, either role, every alpha and beta and every difficulty,
`minimax` returns a value `v` that is neither `INT_MIN` nor `INT_MAX`, lies
in `-10 .. 10` and satisfies
`min (d - 10) (10 - d - n) <= v <= max (10 - d) (d + n - 10)`; hence
`d - 10 <= v <= 10 - d` whenever `2 * d + n <= 20`, in particular for every
board when `d <= 5`. -/
theorem minimax_value_range (board : Board) (depth : Int) (isMaximizing : Bool)
    (alpha beta difficulty : Int) (hd0 : 0 ≤ depth) (hd1 : depth ≤ 10) :
    ∃ v, minimax board depth isMaximizing alpha beta difficulty = some (v, board) ∧
      v ≠ INT_MIN ∧ v ≠ INT_MAX ∧ -10 ≤ v ∧ v ≤ 10 ∧
      min (depth - 10) (10 - depth - countEmpty board) ≤ v ∧
      v ≤ max (10 - depth) (depth + countEmpty board - 10) ∧
      (2 * depth + countEmpty board ≤ 20 → depth - 10 ≤ v ∧ v ≤ 10 - depth) ∧
      (depth ≤ 5 → depth - 10 ≤ v ∧ v ≤ 10 - depth) := by
  have hcnt := countEmpty_le board
  obtain ⟨v, hv, h1, h2⟩ := minimaxFuel_range 10 board depth isMaximizing alpha beta difficulty
    (by omega) hd0 (by omega)
  refine ⟨v, hv, ?_, ?_, ?_, ?_, h1, h2, ?_, ?_⟩
  · unfold INT_MIN; omega
  · unfold INT_MAX; omega
  · omega
  · omega
  · intro h; omega
  · intro h; omega

theorem minimax_value_range_witness :
    (0 : Int) ≤ 6 ∧ (6 : Int) ≤ 10 ∧
    ∃ v, minimax (mkBoard 'X' 'O' '-' '-' 'X' '-' '-' '-' 'O') 6 true (-2) 7 3 =
        some (v, mkBoard 'X' 'O' '-' '-' 'X' '-' '-' '-' 'O') ∧
      v ≠ INT_MIN ∧ v ≠ INT_MAX ∧ -10 ≤ v ∧ v ≤ 10 ∧
      min ((6 : Int) - 10)
        (10 - 6 - (countEmpty (mkBoard 'X' 'O' '-' '-' 'X' '-' '-' '-' 'O') : Int)) ≤ v ∧
      v ≤ max ((10 : Int) - 6)
        (6 + (countEmpty (mkBoard 'X' 'O' '-' '-' 'X' '-' '-' '-' 'O') : Int) - 10) ∧
      (2 * (6 : Int) + (countEmpty (mkBoard 'X' 'O' '-' '-' 'X' '-' '-' '-' 'O') : Int) ≤ 20 →
        6 - 10 ≤ v ∧ v ≤ 10 - 6) ∧
      ((6 : Int) ≤ 5 → 6 - 10 ≤ v ∧ v ≤ 10 - 6) :=
  ⟨by decide, by decide,
    minimax_value_range (mkBoard 'X' 'O' '-' '-' 'X' '-' '-' '-' 'O') 6 true (-2) 7 3
      (by decide) (by decide)⟩

/-- C16 (the code departs from the claim): on the board `- - - / O X X / O X -`,
a maximizing node at depth 1 with `alpha = INT_MIN`, `beta = 0`, difficulty 3.
The first candidate (0,0) completes an `O` line and evaluates to 8, so
`beta <= alpha` holds after it.  The cells (0,1) and (0,2) of the same row are
then not evaluated, but the empty cell (2,2) of a later row is: the `break`
leaves the inner loop only.  Accordingly a budget of two nested calls, enough
for the node and its first candidate, does not suffice for the node. -/
theorem cutoff_leaves_inner_loop_only :
    (minimax (setCell (mkBoard '-' '-' '-' 'O' 'X' 'X' 'O' 'X' '-') 0 0 PLAYER_O) 2 false
        INT_MIN 0 3).map Prod.fst = some 8 ∧
    (0 : Int) ≤ max INT_MIN 8 ∧
    (maxOuter (probe (0, 1) 3) [0, 1, 2] (mkBoard '-' '-' '-' 'O' 'X' 'X' 'O' 'X' '-')
        INT_MIN INT_MIN 0).isSome = true ∧
    (maxOuter (probe (0, 2) 3) [0, 1, 2] (mkBoard '-' '-' '-' 'O' 'X' 'X' 'O' 'X' '-')
        INT_MIN INT_MIN 0).isSome = true ∧
    (maxOuter (probe (2, 2) 3) [0, 1, 2] (mkBoard '-' '-' '-' 'O' 'X' 'X' 'O' 'X' '-')
        INT_MIN INT_MIN 0).isNone = true ∧
    (minimaxFuel 1 (setCell (mkBoard '-' '-' '-' 'O' 'X' 'X' 'O' 'X' '-') 0 0 PLAYER_O) 2 false
        INT_MIN 0 3).map Prod.fst = some 8 ∧
    (minimaxFuel 2 (mkBoard '-' '-' '-' 'O' 'X' 'X' 'O' 'X' '-') 1 true INT_MIN 0 3).isNone =
      true ∧
    (minimax (mkBoard '-' '-' '-' 'O' 'X' 'X' 'O' 'X' '-') 1 true INT_MIN 0 3).map Prod.fst =
      some 8 := by
  decide!

end AlphaBeta
